import Mathlib

/-! # TigerToJavab: class-file backend, code generator and type setter

A shallow embedding of `src/emit.cc`, `src/compiler.cc` and the type setter of
`src/Expression.cc`, followed by the properties established about them.

Conventions of the embedding.

* An output stream is the list of the bytes written to it, each byte a `Nat` below 256.
* `u1`, `u2`, `u4` are `Nat`; every conversion to a fixed width is written out as `% 2^w`.
* A `std::string` holding text is a `String`, one `Char` per C++ `char`; a `std::string` used as
  a byte buffer (`AttributeInfo::info`, the instruction stream) is a `List Nat`.
* A pointer into the constant pool is the pointed-to constant; `p->index` is the field `index`.
* Dereferencing an empty `std::optional` is undefined behaviour; a function that can do so returns
  `Option`, with `none` standing for the undefined run.
-/

namespace Tiger

namespace emit

/-! ## Fixed-width output (emit.cc:13-27) -/

/-- Two bytes, most significant first (emit.cc:18-21). The parameter is a `u2`, so the argument is
first converted to 16 bits; `os.put` stores one `char`. -/
def Put2 (v : Nat) : List Nat :=
  [(v % 65536) / 256 % 256, (v % 65536) % 256]

/-- Four bytes, most significant first (emit.cc:24-27). The parameter is a `u4`. -/
def Put4 (v : Nat) : List Nat :=
  Put2 ((v % 4294967296) / 65536) ++ Put2 ((v % 4294967296) % 65536)

/-! ## Instructions and code blocks

`instruction.h` and `emit.h` are not among the sources; only the three opcodes the sources name
and the one member of `CodeBlock` they touch are needed. -/

/-- Modelled from the spec: `instruction.h` is missing. `Instruction::_ldc` is the short push
opcode; its value is the one of the class-file format the backend targets. -/
def Instruction._ldc : Nat := 0x12

/-- Modelled from the spec: `instruction.h` is missing. `Instruction::_ldc_w` is the wide push
opcode. -/
def Instruction._ldc_w : Nat := 0x13

/-- Modelled from the spec: `instruction.h` is missing. `Instruction::_return` is the return
instruction that terminates the method body. -/
def Instruction._return : Nat := 0xb1

/-- Modelled from the spec: `emit.h` is missing. A `CodeBlock` owns the stream `bytes` that
`StringConstant::Push` writes to (emit.cc:127-131). -/
structure CodeBlock where
  bytes : List Nat := []
deriving DecidableEq, Repr

/-! ## Attributes and methods (emit.cc:30-53) -/

/-- The struct `AttributeInfo` (emit.cc:30-38). -/
structure AttributeInfo where
  attribute_name_index : Nat
  info : List Nat
deriving DecidableEq, Repr

/-- The member `AttributeInfo::Emit` (emit.cc:33-37). -/
def AttributeInfo.Emit (a : AttributeInfo) : List Nat :=
  Put2 a.attribute_name_index ++ Put4 a.info.length ++ a.info

/-- The struct `MethodInfo` (emit.cc:41-53). -/
structure MethodInfo where
  access_flags : Nat
  name_index : Nat
  descriptor_index : Nat
  attributes : List AttributeInfo
deriving DecidableEq, Repr

/-- The member `MethodInfo::Emit` (emit.cc:46-52). -/
def MethodInfo.Emit (m : MethodInfo) : List Nat :=
  Put2 m.access_flags ++ Put2 m.name_index ++ Put2 m.descriptor_index ++
    Put2 m.attributes.length ++ (m.attributes.map AttributeInfo.Emit).flatten

/-! ## Constants (emit.cc:63-168) -/

/-- The enumeration `Constant::Tag` (emit.cc:67-82). -/
inductive Tag where
  | kUtf8 | kInteger | kFloat | kLong | kDouble | kClass | kString | kFieldref | kMethodref
  | kInterfaceMethodref | kNameAndType | kMethodHandle | kMethodType | kInvokeDynamic
deriving DecidableEq, Repr

/-- The enumerator values of `Constant::Tag`. -/
def Tag.value : Tag → Nat
  | kUtf8 => 1 | kInteger => 3 | kFloat => 4 | kLong => 5 | kDouble => 6 | kClass => 7
  | kString => 8 | kFieldref => 9 | kMethodref => 10 | kInterfaceMethodref => 11
  | kNameAndType => 12 | kMethodHandle => 15 | kMethodType => 16 | kInvokeDynamic => 18

/-- The struct `Utf8Constant` (emit.cc:146-155) with the inherited `index`. -/
structure Utf8Constant where
  index : Nat
  text : String
deriving DecidableEq, Repr

/-- The struct `StringConstant` (emit.cc:116-134) with the inherited `index`. -/
structure StringConstant where
  index : Nat
  string_index : Nat
deriving DecidableEq, Repr

/-- The struct `ClassConstant` (emit.cc:136-144) with the inherited `index`. -/
structure ClassConstant where
  index : Nat
  name_index : Nat
deriving DecidableEq, Repr

/-- The struct `NameAndTypeConstant` (emit.cc:157-168) with the inherited `index`. -/
structure NameAndTypeConstant where
  index : Nat
  name_index : Nat
  descriptor_index : Nat
deriving DecidableEq, Repr

/-- The struct `MethodRefConstant` (emit.cc:111-114) with the members of `Ref` (emit.cc:98-109) and
the inherited `index`. -/
structure MethodRefConstant where
  index : Nat
  class_index : Nat
  name_and_type_index : Nat
deriving DecidableEq, Repr

/-- An object of a class derived from `Constant`, as held by the constant pool. -/
inductive Constant where
  | utf8 (c : Utf8Constant)
  | string (c : StringConstant)
  | clazz (c : ClassConstant)
  | nameAndType (c : NameAndTypeConstant)
  | methodRef (c : MethodRefConstant)
deriving DecidableEq, Repr

namespace Constant

/-- The member `Constant::index` (emit.cc:64). -/
def index : Constant → Nat
  | utf8 c => c.index
  | string c => c.index
  | clazz c => c.index
  | nameAndType c => c.index
  | methodRef c => c.index

/-- The virtual `tag()` (emit.cc:112, 118, 138, 148, 160). -/
def tag : Constant → Tag
  | utf8 _ => Tag.kUtf8
  | string _ => Tag.kString
  | clazz _ => Tag.kClass
  | nameAndType _ => Tag.kNameAndType
  | methodRef _ => Tag.kMethodref

/-- The virtual `Matches(std::string_view)` (emit.cc:86). No class overrides it, `Utf8Constant`
included, so the base implementation answers for every constant. -/
def MatchesText (_c : Constant) (_text : String) : Bool := false

/-- The virtual `Matches(u2 index)`: the base returns false (emit.cc:87), `StringConstant`
(emit.cc:119) and `ClassConstant` (emit.cc:139) compare their one index. -/
def MatchesIndex (c : Constant) (index : Nat) : Bool :=
  match c with
  | string s => index == s.string_index
  | clazz k => index == k.name_index
  | _ => false

/-- The virtual `Matches(u2 first, u2 second)`: the base returns false (emit.cc:88), `Ref`
compares both indices (emit.cc:101-103), `NameAndTypeConstant` overrides it to return false
(emit.cc:161). -/
def MatchesPair (c : Constant) (first second : Nat) : Bool :=
  match c with
  | methodRef r => r.class_index == first && r.name_and_type_index == second
  | nameAndType _ => false
  | _ => false

/-- The safe cast `utf8()` (emit.cc:91): no class overrides it. -/
def asUtf8 (_c : Constant) : Option Utf8Constant := none

/-- The safe cast `string()` (emit.cc:92): no class overrides it. -/
def asString (_c : Constant) : Option StringConstant := none

/-- The safe cast `clazz()` (emit.cc:93): no class overrides it. -/
def asClazz (_c : Constant) : Option ClassConstant := none

/-- The safe cast `methodRef()` (emit.cc:94), overridden by `MethodRefConstant` (emit.cc:113). -/
def asMethodRef : Constant → Option MethodRefConstant
  | methodRef r => some r
  | _ => none

/-- The safe cast `nameAndType()` (emit.cc:95), overridden by `NameAndTypeConstant`
(emit.cc:162). -/
def asNameAndType : Constant → Option NameAndTypeConstant
  | nameAndType n => some n
  | _ => none

/-- The virtual `Emit` of each constant (emit.cc:104-108, 120-123, 140-143, 149-154, 163-167).
For `Utf8Constant` the length is converted to `u2` and that many characters are written. -/
def Emit : Constant → List Nat
  | utf8 c =>
    [Tag.kUtf8.value] ++ Put2 (c.text.length % 65536) ++
      (c.text.toList.take (c.text.length % 65536)).map Char.toNat
  | string c => [Tag.kString.value] ++ Put2 c.string_index
  | clazz c => [Tag.kClass.value] ++ Put2 c.name_index
  | nameAndType c => [Tag.kNameAndType.value] ++ Put2 c.name_index ++ Put2 c.descriptor_index
  | methodRef c => [Tag.kMethodref.value] ++ Put2 c.class_index ++ Put2 c.name_and_type_index

end Constant

/-- The member `StringConstant::Push` (emit.cc:125-133). -/
def StringConstant.Push (c : StringConstant) (block : CodeBlock) : CodeBlock :=
  if c.string_index < 256 then
    { block with bytes := block.bytes ++ [Instruction._ldc, c.string_index % 256] }
  else
    { block with bytes := block.bytes ++ [Instruction._ldc_w] ++ Put2 c.string_index }

/-! ## The program (emit.cc:184-292) -/

/-- The data members of `JvmProgram` (emit.cc:289-291). -/
structure JvmProgram where
  main : CodeBlock := {}
  constant_pool : List Constant := []
  methods : List MethodInfo := []
deriving DecidableEq, Repr

namespace JvmProgram

/-- The member template `Adopt` (emit.cc:216-220): the new object gets the `u2` index
`1 + constant_pool.size()` and is appended. The fields the callers assign right after adoption are
passed in with `mk`. -/
def Adopt {α : Type} (p : JvmProgram) (mk : Nat → α) (up : α → Constant) : α × JvmProgram :=
  let t := mk ((1 + p.constant_pool.length) % 65536)
  (t, { p with constant_pool := p.constant_pool ++ [up t] })

/-- The member `utf8Constant` (emit.cc:222-230). -/
def utf8Constant (p : JvmProgram) (text : String) : Option (Utf8Constant × JvmProgram) :=
  match p.constant_pool.find? (fun c => c.tag == Tag.kUtf8 && c.MatchesText text) with
  | some c => c.asUtf8.map (fun u => (u, p))
  | none => some (p.Adopt (fun i => ({ index := i, text := text } : Utf8Constant)) Constant.utf8)

/-- The member `stringConstant` (emit.cc:232-242). -/
def stringConstant (p : JvmProgram) (text : String) : Option (StringConstant × JvmProgram) := do
  let (utf8, p1) ← p.utf8Constant text
  match p1.constant_pool.find? (fun c => c.tag == Tag.kString && c.MatchesIndex utf8.index) with
  | some c => c.asString.map (fun s => (s, p1))
  | none =>
    some (p1.Adopt (fun i => ({ index := i, string_index := utf8.index } : StringConstant))
      Constant.string)

/-- The member `classConstant` (emit.cc:244-254). -/
def classConstant (p : JvmProgram) (class_name : String) : Option (ClassConstant × JvmProgram) := do
  let (utf8, p1) ← p.utf8Constant class_name
  let name_index := utf8.index
  match p1.constant_pool.find? (fun c => c.tag == Tag.kClass && c.MatchesIndex name_index) with
  | some c => c.asClazz.map (fun k => (k, p1))
  | none =>
    some (p1.Adopt (fun i => ({ index := i, name_index := name_index } : ClassConstant))
      Constant.clazz)

/-- The member `nameAndTypeConstant` (emit.cc:256-270). -/
def nameAndTypeConstant (p : JvmProgram) (name descriptor : String) :
    Option (NameAndTypeConstant × JvmProgram) := do
  let (n, p1) ← p.utf8Constant name
  let name_index := n.index
  let (d, p2) ← p1.utf8Constant descriptor
  let descriptor_index := d.index
  match p2.constant_pool.find?
      (fun c => c.tag == Tag.kNameAndType && c.MatchesPair name_index descriptor_index) with
  | some c => c.asNameAndType.map (fun k => (k, p2))
  | none =>
    some (p2.Adopt
      (fun i => ({ index := i, name_index := name_index,
                   descriptor_index := descriptor_index } : NameAndTypeConstant))
      Constant.nameAndType)

/-- The member `methodRefConstant` (emit.cc:272-287). -/
def methodRefConstant (p : JvmProgram) (class_name name type : String) :
    Option (MethodRefConstant × JvmProgram) := do
  let (k, p1) ← p.classConstant class_name
  let class_index := k.index
  let (nt, p2) ← p1.nameAndTypeConstant name type
  let name_and_type_index := nt.index
  match p2.constant_pool.find?
      (fun c => c.tag == Tag.kMethodref && c.MatchesPair class_index name_and_type_index) with
  | some c => c.asMethodRef.map (fun r => (r, p2))
  | none =>
    some (p2.Adopt
      (fun i => ({ index := i, class_index := class_index,
                   name_and_type_index := name_and_type_index } : MethodRefConstant))
      Constant.methodRef)

/-- The member `DefineStringConstant` (emit.cc:188-190); the `Pushable` it returns is the
`StringConstant`. -/
def DefineStringConstant (p : JvmProgram) (text : String) : Option (StringConstant × JvmProgram) :=
  p.stringConstant text

/-- The member `Emit` (emit.cc:196-214): the bytes written to `os` and the program afterwards. -/
def Emit (p : JvmProgram) : Option (List Nat × JvmProgram) := do
  let (t, p1) ← p.classConstant "Main"
  let this_class := t.index
  let (s, p2) ← p1.classConstant "java/lang/Object"
  let super_class := s.index
  let (_, p3) ← p2.methodRefConstant "java/lang/Object" "<init>" "()V"
  pure
    (Put4 0xcafebabe ++ Put2 0 ++ Put2 55 ++ Put2 (p3.constant_pool.length + 1) ++
      (p3.constant_pool.map Constant.Emit).flatten ++
      Put2 0x20 ++ Put2 this_class ++ Put2 super_class ++ Put2 0 ++ Put2 0 ++
      Put2 p3.methods.length ++ (p3.methods.map MethodInfo.Emit).flatten ++ Put2 0,
     p3)

end JvmProgram

end emit

/-! ## The syntax tree (Expression.h, shapenodes.h)

`Expression.h` declares the base classes and the visitor interfaces; the node classes themselves
are in `shapenodes.h`, `BinaryOp.h` and `NameSpace.h`, which are not among the sources. The
node kinds and their members are read off the parameters of the visit methods
(Expression.h:126-187, 207-216) and the constructor calls of Expression.cc:8-25. -/

/-- Type of expressions that lack a value (Expression.cc:28). -/
def kNoneType : String := "none"

/-- Marker value when the type of an expression could not be inferred (Expression.cc:31). -/
def kUnknownType : String := "???"

/-- The type every expression has before the type setter ran (Expression.cc:33, 178). -/
def kUnsetType : String := "unset"

/-- A parameter or record field: the aggregate built as `{"s", "string"}` in
Expression.cc:156-166. -/
structure TypeField where
  id : String
  type_id : String
deriving DecidableEq, Repr

/-- Modelled from the spec: the classes derived from `Type` are in `shapenodes.h`, which is
missing. Expression.cc:8-9 names `IntType` and `StringType`; a record type exposes a table from
field name to type id and an array type exposes an element type id (Expression.h:33-42). -/
inductive Type_ where
  | IntType
  | StringType
  | RecordType (fields : List TypeField)
  | ArrayType (type_id : String)
deriving DecidableEq, Repr

/-- Modelled from the spec: `BinaryOp.h` is missing; the binary operators of the language. -/
inductive BinaryOp where
  | kPlus | kMinus | kTimes | kDivide | kEqual | kUnequal | kLessThan | kGreaterThan
  | kNotGreaterThan | kNotLessThan | kAnd | kOr
deriving DecidableEq, Repr

mutual
/-- The nodes derived from `Expression`, one constructor per visit method of
`ExpressionVisitor` (Expression.h:126-187), and `BuiltInBody` (Expression.cc:14-17). -/
inductive Expression where
  | StringConstant (text : String)
  | IntegerConstant (value : Int)
  | Nil
  | LValue (value : LValue)
  | Negated (value : Expression)
  | Binary (left : Expression) (op : BinaryOp) (right : Expression)
  | Assignment (value : LValue) (expr : Expression)
  | FunctionCall (id : String) (args : List Expression)
  | Block (exprs : List Expression)
  | Record (type_id : String) (field_values : List FieldValue)
  | Array (type_id : String) (size : Expression) (value : Expression)
  | IfThen (condition : Expression) (expr : Expression)
  | IfThenElse (condition : Expression) (then_expr : Expression) (else_expr : Expression)
  | While (condition : Expression) (body : Expression)
  | For (id : String) (first : Expression) (last : Expression) (body : Expression)
  | Break
  | Let (declarations : List Declaration) (body : List Expression)
  | BuiltInBody
/-- The struct `FieldValue` (Expression.h:117-120). -/
inductive FieldValue where
  | mk (id : String) (expr : Expression)
/-- The nodes derived from `LValue`, one constructor per visit method of `LValueVisitor`
(Expression.h:207-216). -/
inductive LValue where
  | Id (id : String)
  | Field (value : LValue) (id : String)
  | Index (value : LValue) (expr : Expression)
/-- Modelled from the spec: the classes derived from `Declaration` are in `shapenodes.h`, which
is missing. A type declaration introduces a type; a variable or parameter carries the type id it
has when referenced (optional on a variable); a function carries its parameters, an optional
return type id (absent for a procedure) and a body (Expression.cc:8-25). -/
inductive Declaration where
  | TypeDeclaration (id : String) (type : Type_)
  | VariableDeclaration (id : String) (type_id : Option String) (value : Expression)
  | ParameterDeclaration (id : String) (type_id : String)
  | FunctionDeclaration (id : String) (params : List TypeField) (type_id : Option String)
      (body : Expression)
end

namespace Declaration

/-- The member `Declaration::Id` (Expression.h:57). -/
def Id : Declaration → String
  | TypeDeclaration id _ => id
  | VariableDeclaration id _ _ => id
  | ParameterDeclaration id _ => id
  | FunctionDeclaration id _ _ _ => id

/-- The virtual `Declaration::GetType` (Expression.h:59-60): the type of a type declaration,
empty for every other declaration. -/
def GetType : Declaration → Option Type_
  | TypeDeclaration _ type => some type
  | _ => none

/-- The virtual `Declaration::GetValueType` (Expression.h:62-63): the type of a bound variable or
parameter, or the return type of a function; empty otherwise. -/
def GetValueType : Declaration → Option String
  | TypeDeclaration _ _ => none
  | VariableDeclaration _ type_id _ => type_id
  | ParameterDeclaration _ type_id => some type_id
  | FunctionDeclaration _ _ type_id _ => type_id

end Declaration

/-- Modelled from the spec: `NameSpace.h` is missing. A name space maps an identifier to a
declaration; `Lookup` returns the declaration or nothing (Expression.cc:68, 109, 117, 127). -/
structure NameSpace where
  Lookup : String → Option Declaration

/-- The data members of the class `Expression` (Expression.h:110-115): the two name spaces, null
until `SetNameSpacesBelow` binds them, and the inferred type, `unset` on construction
(Expression.cc:178). -/
structure ExpressionBase where
  types_ : Option NameSpace := none
  non_types_ : Option NameSpace := none
  type_ : String := kUnsetType

/-! ## The type setter (Expression.cc:41-141)

A `TypeSetter` holds the expression `expr_` it was built for; a visit method returns the value the
C++ method returns together with `expr_` after the call. -/

namespace TypeSetter

/-- The member `TypeSetter::SetType` (Expression.cc:136-139). -/
def SetType (expr_ : ExpressionBase) (type : String) : Bool × ExpressionBase :=
  (false, { expr_ with type_ := type })

/-- The member `TypeSetter::VisitFunctionCall` (Expression.cc:65-74). `expr_.non_types_` is
dereferenced: the run is undefined while it is null. -/
def VisitFunctionCall (expr_ : ExpressionBase) (id : String) (_args : List Expression) :
    Option (Bool × ExpressionBase) := do
  let non_types ← expr_.non_types_
  match non_types.Lookup id with
  | some d =>
    match d.GetValueType with
    | some vt => pure (SetType expr_ vt)
    | none => pure (SetType expr_ kUnknownType)
  | none => pure (SetType expr_ kUnknownType)

/-- The member `TypeSetter::VisitId` (Expression.cc:108-115). The result of `GetValueType` is
dereferenced without a test: the run is undefined when the declaration found has no value
type. -/
def VisitId (expr_ : ExpressionBase) (id : String) : Option (Bool × ExpressionBase) := do
  let non_types ← expr_.non_types_
  match non_types.Lookup id with
  | some found =>
    let vt ← found.GetValueType
    pure (SetType expr_ vt)
  | none => pure (SetType expr_ kUnknownType)

end TypeSetter

/-! ## The code generator (compiler.cc) -/

/-- Modelled from the spec: `emit.h` is missing. An `Invocable` knows how to write its invoke
instruction to a stream (compiler.cc:54). -/
structure Invocable where
  Invoke : emit.CodeBlock → emit.CodeBlock

/-- Modelled from the spec: `emit.h` is missing. The access flag `emit::ACC_PUBLIC` of the
class-file format. -/
def emit.ACC_PUBLIC : Nat := 0x0001

/-- Modelled from the spec: `emit.h` is missing. The access flag `emit::ACC_STATIC` of the
class-file format. -/
def emit.ACC_STATIC : Nat := 0x0008

/-- The member `JvmProgram::LookupLibraryFunction` (emit.cc:192-194). -/
def emit.JvmProgram.LookupLibraryFunction (_p : emit.JvmProgram) (_name : String) :
    Option Invocable := none

/-- The call `program->DefineFunction(...)` of compiler.cc:109. `DefineFunction` is declared in
`emit.h`, which is missing, as a member of the base class `Program`. `JvmProgram`
(emit.cc:184-292) neither declares nor overrides it, and its members `main`, `constant_pool` and
`methods` are declared in the unnamed namespace of emit.cc, out of reach of the base class: on
these members the call has no effect. -/
def emit.JvmProgram.DefineFunction (p : emit.JvmProgram) (_access_flags : Nat)
    (_name _descriptor : String) (_code : List Nat) : emit.JvmProgram := p

/-- The data members of `CompileExpressionVisitor` (compiler.cc:96-98). A stream pointer in
`instruction_streams_` is the stream it points to; the first one is `main_os`
(compiler.cc:17). -/
structure CompileExpressionVisitor where
  program_ : emit.JvmProgram
  pushables_ : List emit.StringConstant
  instruction_streams_ : List emit.CodeBlock

namespace CompileExpressionVisitor

/-- The operator `&&` on visit results: the right operand runs only when the left one returned
true. -/
def andThen (r : Option (Bool × CompileExpressionVisitor))
    (f : CompileExpressionVisitor → Option (Bool × CompileExpressionVisitor)) :
    Option (Bool × CompileExpressionVisitor) :=
  match r with
  | some (true, v) => f v
  | some (false, v) => some (false, v)
  | none => none

/-- The member `VisitStringConstant` (compiler.cc:20-23). -/
def VisitStringConstant (v : CompileExpressionVisitor) (text : String) :
    Option (Bool × CompileExpressionVisitor) := do
  let (c, program) ← v.program_.DefineStringConstant text
  pure (true, { v with program_ := program, pushables_ := v.pushables_ ++ [c] })

/-- The part of `VisitFunctionCall` after the arguments were visited (compiler.cc:43-57). A
failing `assert` ends the run. -/
def VisitFunctionCall_invoke (v : CompileExpressionVisitor) (id : String) :
    Option (Bool × CompileExpressionVisitor) :=
  if id = "print" then
    match v.program_.LookupLibraryFunction id with
    | some f =>
      match v.instruction_streams_.getLast?, v.pushables_.getLast? with
      | some os, some arg =>
        some (true, { v with
          pushables_ := v.pushables_.dropLast
          instruction_streams_ := v.instruction_streams_.dropLast ++ [f.Invoke (arg.Push os)] })
      | _, _ => none
    | none => some (true, v)
  else some (true, v)

mutual
/-- The virtual `Accept` of each node followed by the visit method of
`CompileExpressionVisitor` it calls (compiler.cc:20-95). `LValue::Accept` is Expression.h:193-195;
the other `Accept` methods are in `shapenodes.h` and pass the members of the node to the visit
method named after it; `BuiltInBody::Accept` is Expression.cc:16. -/
def Accept (v : CompileExpressionVisitor) : Expression → Option (Bool × CompileExpressionVisitor)
  | .StringConstant text => v.VisitStringConstant text
  | .IntegerConstant _ => some (true, v)
  | .Nil => some (true, v)
  | .LValue _ => some (true, v)
  | .Negated value => Accept v value
  | .Binary left _ right => andThen (Accept v left) (fun v1 => Accept v1 right)
  | .Assignment _ expr => Accept v expr
  | .FunctionCall id args => (AcceptEach v args).bind (fun v1 => v1.VisitFunctionCall_invoke id)
  | .Block exprs => AllOf v exprs
  | .Record _ _ => some (true, v)
  | .Array _ size value => andThen (Accept v size) (fun v1 => Accept v1 value)
  | .IfThen condition expr => andThen (Accept v condition) (fun v1 => Accept v1 expr)
  | .IfThenElse condition then_expr else_expr =>
    andThen (andThen (Accept v condition) (fun v1 => Accept v1 then_expr))
      (fun v2 => Accept v2 else_expr)
  | .While condition body => andThen (Accept v condition) (fun v1 => Accept v1 body)
  | .For _ first last body =>
    andThen (andThen (Accept v first) (fun v1 => Accept v1 last)) (fun v2 => Accept v2 body)
  | .Break => some (true, v)
  | .Let _ body => AllOf v body
  | .BuiltInBody => some (true, v)
/-- The loop `for (const auto& a : args) a->Accept(*this);` (compiler.cc:41): every argument is
visited, the results are dropped. -/
def AcceptEach (v : CompileExpressionVisitor) : List Expression → Option CompileExpressionVisitor
  | [] => some v
  | a :: args => (Accept v a).bind (fun r => AcceptEach r.2 args)
/-- The call `std::all_of(..., [this](const auto& arg) { return arg->Accept(*this); })`
(compiler.cc:61-62, 93-94): stops at the first element that returns false. -/
def AllOf (v : CompileExpressionVisitor) : List Expression →
    Option (Bool × CompileExpressionVisitor)
  | [] => some (true, v)
  | a :: rest => andThen (Accept v a) (fun v1 => AllOf v1 rest)
end

end CompileExpressionVisitor

/-- What a run of `Compile` leaves behind: the content of `main_os` handed to `DefineFunction`,
the program after `Emit`, and the bytes written to the output file. -/
structure Compiled where
  main_os : List Nat
  program : emit.JvmProgram
  out : List Nat
deriving DecidableEq, Repr

/-- The function `Compile` (compiler.cc:103-113). -/
def Compile (e : Expression) : Option Compiled := do
  let program : emit.JvmProgram := {}
  let visitor : CompileExpressionVisitor :=
    { program_ := program, pushables_ := [], instruction_streams_ := [{}] }
  let (_, visitor) ← visitor.Accept e
  let main_os := (visitor.instruction_streams_.headD {}).bytes ++ [emit.Instruction._return]
  let program := visitor.program_.DefineFunction (emit.ACC_PUBLIC ||| emit.ACC_STATIC) "main"
    "([Ljava/lang/String;)V" main_os
  let (out, program) ← program.Emit
  pure { main_os := main_os, program := program, out := out }

/-! ## States of the constant pool

Predicates on the pool used to state the properties below, and the programs used as concrete
inputs. -/

namespace emit

/-- Every pool index stored inside the constant is at most `n`. -/
def Constant.refsWithin (c : Constant) (n : Nat) : Prop :=
  match c with
  | .utf8 _ => True
  | .string s => s.string_index ≤ n
  | .clazz k => k.name_index ≤ n
  | .nameAndType t => t.name_index ≤ n ∧ t.descriptor_index ≤ n
  | .methodRef r => r.class_index ≤ n ∧ r.name_and_type_index ≤ n

/-- Every pool index stored inside an entry of the pool is at most the number of entries. -/
def JvmProgram.Linked (p : JvmProgram) : Prop :=
  ∀ c ∈ p.constant_pool, c.refsWithin p.constant_pool.length

/-- The entry at 0-based position `i` carries the `u2` index `i + 1`. -/
def JvmProgram.Indexed (p : JvmProgram) : Prop :=
  ∀ i c, p.constant_pool[i]? = some c → c.index = (i + 1) % 65536

/-- The program `q` is `p` with entries appended to the pool, each carrying the `u2` index of its
position and referring to indices that are at most the size of the new pool. -/
def Grows (p q : JvmProgram) : Prop :=
  q.main = p.main ∧ q.methods = p.methods ∧
    ∃ new : List Constant, q.constant_pool = p.constant_pool ++ new ∧
      (∀ c ∈ new, c.refsWithin q.constant_pool.length) ∧
      (∀ i c, new[i]? = some c → c.index = (p.constant_pool.length + i + 1) % 65536)

/-- The programs a `JvmProgram` can become: the freshly constructed one and whatever a member
function that returns leaves behind. -/
inductive Reachable : JvmProgram → Prop
  | init : Reachable {}
  | utf8Constant {p q : JvmProgram} {text : String} {c : Utf8Constant} :
      Reachable p → p.utf8Constant text = some (c, q) → Reachable q
  | stringConstant {p q : JvmProgram} {text : String} {c : StringConstant} :
      Reachable p → p.stringConstant text = some (c, q) → Reachable q
  | classConstant {p q : JvmProgram} {class_name : String} {c : ClassConstant} :
      Reachable p → p.classConstant class_name = some (c, q) → Reachable q
  | nameAndTypeConstant {p q : JvmProgram} {name descriptor : String} {c : NameAndTypeConstant} :
      Reachable p → p.nameAndTypeConstant name descriptor = some (c, q) → Reachable q
  | methodRefConstant {p q : JvmProgram} {class_name name type : String} {c : MethodRefConstant} :
      Reachable p → p.methodRefConstant class_name name type = some (c, q) → Reachable q
  | Emit {p q : JvmProgram} {bytes : List Nat} :
      Reachable p → p.Emit = some (bytes, q) → Reachable q

/-- The ten entries `Emit` appends to a pool of `n` entries in which its scans find nothing:
those of `classConstant("Main")`, of `classConstant("java/lang/Object")` and of
`methodRefConstant("java/lang/Object", "<init>", "()V")` (emit.cc:197-199). -/
def emitConstants (n : Nat) : List Constant :=
  [Constant.utf8 { index := (1 + n) % 65536, text := "Main" },
   Constant.clazz { index := (2 + n) % 65536, name_index := (1 + n) % 65536 },
   Constant.utf8 { index := (3 + n) % 65536, text := "java/lang/Object" },
   Constant.clazz { index := (4 + n) % 65536, name_index := (3 + n) % 65536 },
   Constant.utf8 { index := (5 + n) % 65536, text := "java/lang/Object" },
   Constant.clazz { index := (6 + n) % 65536, name_index := (5 + n) % 65536 },
   Constant.utf8 { index := (7 + n) % 65536, text := "<init>" },
   Constant.utf8 { index := (8 + n) % 65536, text := "()V" },
   Constant.nameAndType
     { index := (9 + n) % 65536, name_index := (7 + n) % 65536,
       descriptor_index := (8 + n) % 65536 },
   Constant.methodRef
     { index := (10 + n) % 65536, class_index := (6 + n) % 65536,
       name_and_type_index := (9 + n) % 65536 }]

/-- The pool after `n` calls `utf8Constant(text)` on a fresh program, for `n < 65536`. -/
def utf8Pool (text : String) (n : Nat) : List Constant :=
  (List.range n).map (fun i => Constant.utf8 { index := i + 1, text := text })

/-- The program whose pool is `utf8Pool text n`. -/
def utf8Program (text : String) (n : Nat) : JvmProgram :=
  { constant_pool := utf8Pool text n }

end emit

/-- The visitor `w` is `v` after some visits: the instruction streams are what they were and the
program only grew. -/
def CompileExpressionVisitor.Keeps (v w : CompileExpressionVisitor) : Prop :=
  w.instruction_streams_ = v.instruction_streams_ ∧ emit.Grows v.program_ w.program_

/-! ## Name spaces used as concrete inputs -/

/-- The builtin procedure `print(s : string)` as `AddProc("print", {{"s", "string"}})` builds it
(Expression.cc:18-20, 156). -/
def printProcedure : Declaration :=
  Declaration.FunctionDeclaration "print" [{ id := "s", type_id := "string" }] none
    Expression.BuiltInBody

/-- A value scope in which `print` is bound to the builtin procedure and nothing else is. -/
def printScope : NameSpace :=
  { Lookup := fun id => if id = "print" then some printProcedure else none }

/-- The declaration `var x : int := 0`. -/
def intVariable : Declaration :=
  Declaration.VariableDeclaration "x" (some "int") (Expression.IntegerConstant 0)

/-- A value scope in which `x` is bound to the variable `var x : int := 0` and nothing else is. -/
def variableScope : NameSpace :=
  { Lookup := fun id => if id = "x" then some intVariable else none }

/-- The return type a declaration declares as a callee: that of a function declaration with a
return type, nothing for a procedure and for every declaration that is not a function. -/
def Declaration.returnType : Declaration → Option String
  | Declaration.FunctionDeclaration _ _ type_id _ => type_id
  | _ => none

/-! ## The type setter on every node kind (Expression.cc:41-152)

The type setter is built for one node and run by `e.Accept(setter)`. What it reads of a child
expression is the child's inferred type, so a child whose type a rule may read is given by the data
members of its `Expression` base; the arguments of a call and the field values of a record, which
no rule reads, are given by their syntax. -/

namespace Type_

/-- The virtual `Type::GetElementType` (Expression.h:33-36): the base returns nothing. Modelled
from the spec for the array type, whose class is in the missing `shapenodes.h`: an array type
exposes its element type id. -/
def GetElementType : Type_ → Option String
  | ArrayType type_id => some type_id
  | _ => none

/-- The virtual `Type::GetFieldType` (Expression.h:38-42): the base returns nothing. Modelled from
the spec for the record type, whose class is in the missing `shapenodes.h`: a record type exposes
a table from field name to type id. -/
def GetFieldType (t : Type_) (field_id : String) : Option String :=
  match t with
  | RecordType fields => (fields.find? (fun f => f.id == field_id)).map (fun f => f.type_id)
  | _ => none

end Type_

/-- The array `kTypeDecls` (Expression.cc:8-9). -/
def kTypeDecls : Fin 2 → Declaration
  | 0 => Declaration.TypeDeclaration "int" Type_.IntType
  | 1 => Declaration.TypeDeclaration "string" Type_.StringType

/-- An lvalue node as the type setter sees it: kind, members, and the base members of the child
expressions (Expression.h:207-216). -/
inductive LValueNode where
  | Id (id : String)
  | Field (value : ExpressionBase) (id : String)
  | Index (value : ExpressionBase) (expr : ExpressionBase)

/-- An expression node as the type setter sees it: kind, members, and the base members of the
child expressions (Expression.h:126-187, Expression.cc:14-17). -/
inductive ExpressionNode where
  | StringConstant (text : String)
  | IntegerConstant (value : Int)
  | Nil
  | LValue (value : LValueNode)
  | Negated (value : ExpressionBase)
  | Binary (left : ExpressionBase) (op : BinaryOp) (right : ExpressionBase)
  | Assignment (value : ExpressionBase) (expr : ExpressionBase)
  | FunctionCall (id : String) (args : List Expression)
  | Block (exprs : List ExpressionBase)
  | Record (type_id : String) (field_values : List FieldValue)
  | Array (type_id : String) (size : ExpressionBase) (value : ExpressionBase)
  | IfThen (condition : ExpressionBase) (expr : ExpressionBase)
  | IfThenElse (condition : ExpressionBase) (then_expr : ExpressionBase)
      (else_expr : ExpressionBase)
  | While (condition : ExpressionBase) (body : ExpressionBase)
  | For (id : String) (first : ExpressionBase) (last : ExpressionBase) (body : ExpressionBase)
  | Break
  | Let (declarations : List Declaration) (body : List ExpressionBase)
  | BuiltInBody

namespace TypeSetter

/-- The member `TypeSetter::VisitStringConstant` (Expression.cc:43-45). -/
def VisitStringConstant (expr_ : ExpressionBase) (_text : String) : Bool × ExpressionBase :=
  SetType expr_ (kTypeDecls 1).Id

/-- The member `TypeSetter::VisitIntegerConstant` (Expression.cc:46-48). -/
def VisitIntegerConstant (expr_ : ExpressionBase) (_value : Int) : Bool × ExpressionBase :=
  SetType expr_ (kTypeDecls 0).Id

/-- The member `TypeSetter::VisitNil` (Expression.cc:50): no type is set. -/
def VisitNil (expr_ : ExpressionBase) : Bool × ExpressionBase :=
  (false, expr_)

/-- The member `TypeSetter::VisitNegated` (Expression.cc:55-57). -/
def VisitNegated (expr_ : ExpressionBase) (value : ExpressionBase) : Bool × ExpressionBase :=
  SetType expr_ value.type_

/-- The member `TypeSetter::VisitBinary` (Expression.cc:58-61). -/
def VisitBinary (expr_ : ExpressionBase) (_left : ExpressionBase) (_op : BinaryOp)
    (right : ExpressionBase) : Bool × ExpressionBase :=
  SetType expr_ right.type_

/-- The member `TypeSetter::VisitAssignment` (Expression.cc:62-64). -/
def VisitAssignment (expr_ : ExpressionBase) (_value : ExpressionBase) (_expr : ExpressionBase) :
    Bool × ExpressionBase :=
  SetType expr_ kNoneType

/-- The member `TypeSetter::VisitBlock` (Expression.cc:75-78). -/
def VisitBlock (expr_ : ExpressionBase) (exprs : List ExpressionBase) : Bool × ExpressionBase :=
  SetType expr_ (match exprs.getLast? with
    | none => kNoneType
    | some last => last.type_)

/-- The member `TypeSetter::VisitRecord` (Expression.cc:79-82). -/
def VisitRecord (expr_ : ExpressionBase) (type_id : String) (_field_values : List FieldValue) :
    Bool × ExpressionBase :=
  SetType expr_ type_id

/-- The member `TypeSetter::VisitArray` (Expression.cc:83-86). -/
def VisitArray (expr_ : ExpressionBase) (type_id : String) (_size : ExpressionBase)
    (_value : ExpressionBase) : Bool × ExpressionBase :=
  SetType expr_ type_id

/-- The member `TypeSetter::VisitIfThen` (Expression.cc:87-90). -/
def VisitIfThen (expr_ : ExpressionBase) (_condition : ExpressionBase) (_expr : ExpressionBase) :
    Bool × ExpressionBase :=
  SetType expr_ kNoneType

/-- The member `TypeSetter::VisitIfThenElse` (Expression.cc:91-94). -/
def VisitIfThenElse (expr_ : ExpressionBase) (_condition : ExpressionBase)
    (then_expr : ExpressionBase) (_else_expr : ExpressionBase) : Bool × ExpressionBase :=
  SetType expr_ then_expr.type_

/-- The member `TypeSetter::VisitWhile` (Expression.cc:95-98). -/
def VisitWhile (expr_ : ExpressionBase) (_condition : ExpressionBase) (_body : ExpressionBase) :
    Bool × ExpressionBase :=
  SetType expr_ kNoneType

/-- The member `TypeSetter::VisitFor` (Expression.cc:99-102). -/
def VisitFor (expr_ : ExpressionBase) (_id : String) (_first : ExpressionBase)
    (_last : ExpressionBase) (_body : ExpressionBase) : Bool × ExpressionBase :=
  SetType expr_ kNoneType

/-- The member `TypeSetter::VisitBreak` (Expression.cc:103). -/
def VisitBreak (expr_ : ExpressionBase) : Bool × ExpressionBase :=
  SetType expr_ kNoneType

/-- The member `TypeSetter::VisitLet` (Expression.cc:104-107). -/
def VisitLet (expr_ : ExpressionBase) (_declarations : List Declaration)
    (body : List ExpressionBase) : Bool × ExpressionBase :=
  SetType expr_ (match body.getLast? with
    | none => kNoneType
    | some last => last.type_)

/-- The member `TypeSetter::VisitField` (Expression.cc:116-125). `expr_.types_` is dereferenced:
the run is undefined while it is null. -/
def VisitField (expr_ : ExpressionBase) (value : ExpressionBase) (id : String) :
    Option (Bool × ExpressionBase) := do
  let types ← expr_.types_
  match types.Lookup value.type_ with
  | some d =>
    match d.GetType with
    | some type =>
      match type.GetFieldType id with
      | some field_type => pure (SetType expr_ field_type)
      | none => pure (SetType expr_ kUnknownType)
    | none => pure (SetType expr_ kUnknownType)
  | none => pure (SetType expr_ kUnknownType)

/-- The member `TypeSetter::VisitIndex` (Expression.cc:126-135). `expr_.types_` is dereferenced:
the run is undefined while it is null. -/
def VisitIndex (expr_ : ExpressionBase) (value : ExpressionBase) (_expr : ExpressionBase) :
    Option (Bool × ExpressionBase) := do
  let types ← expr_.types_
  match types.Lookup value.type_ with
  | some d =>
    match d.GetType with
    | some type =>
      match type.GetElementType with
      | some element_type => pure (SetType expr_ element_type)
      | none => pure (SetType expr_ kUnknownType)
    | none => pure (SetType expr_ kUnknownType)
  | none => pure (SetType expr_ kUnknownType)

/-- The member `TypeSetter::VisitLValue` (Expression.cc:51-54): the lvalue accepts the setter as
an `LValueVisitor`, which calls `VisitId`, `VisitField` or `VisitIndex`; the result is dropped and
false is returned. -/
def VisitLValue (expr_ : ExpressionBase) (value : LValueNode) : Option (Bool × ExpressionBase) :=
  Option.map (fun r => (false, r.2))
    (match value with
      | LValueNode.Id id => VisitId expr_ id
      | LValueNode.Field v id => VisitField expr_ v id
      | LValueNode.Index v e => VisitIndex expr_ v e)

/-- The call `e.Accept(setter)` for a setter built for `e` (Expression.cc:147-148, 173-174): the
virtual `Accept` of the node calls the visit method named after it with the members of the node;
`BuiltInBody::Accept` returns true without calling the visitor (Expression.cc:16). -/
def Accept (expr_ : ExpressionBase) : ExpressionNode → Option (Bool × ExpressionBase)
  | .StringConstant text => some (VisitStringConstant expr_ text)
  | .IntegerConstant value => some (VisitIntegerConstant expr_ value)
  | .Nil => some (VisitNil expr_)
  | .LValue value => VisitLValue expr_ value
  | .Negated value => some (VisitNegated expr_ value)
  | .Binary left op right => some (VisitBinary expr_ left op right)
  | .Assignment value expr => some (VisitAssignment expr_ value expr)
  | .FunctionCall id args => VisitFunctionCall expr_ id args
  | .Block exprs => some (VisitBlock expr_ exprs)
  | .Record type_id field_values => some (VisitRecord expr_ type_id field_values)
  | .Array type_id size value => some (VisitArray expr_ type_id size value)
  | .IfThen condition expr => some (VisitIfThen expr_ condition expr)
  | .IfThenElse condition then_expr else_expr =>
    some (VisitIfThenElse expr_ condition then_expr else_expr)
  | .While condition body => some (VisitWhile expr_ condition body)
  | .For id first last body => some (VisitFor expr_ id first last body)
  | .Break => some (VisitBreak expr_)
  | .Let declarations body => some (VisitLet expr_ declarations body)
  | .BuiltInBody => some (true, expr_)

end TypeSetter

/-- The static `TreeTypeSetter::SetType` (Expression.cc:146-151), which `VisitChild` and
`AfterChildren` call for every node the tree traversal reaches: a setter is built for the node
and accepted, and true is returned. -/
def TreeTypeSetter.SetType (e : ExpressionBase) (node : ExpressionNode) :
    Option (Bool × ExpressionBase) :=
  (TypeSetter.Accept e node).map (fun r => (true, r.2))

/-! ## The builtin name spaces (Expression.cc:7-25, 154-168) -/

/-- Modelled from the spec: `NameSpace.h` is missing. A default-constructed name space maps no
identifier. -/
def NameSpace.empty : NameSpace :=
  { Lookup := fun _ => none }

/-- Modelled from the spec: `NameSpace.h` is missing. The assignment `name_space[id] = d`
(Expression.cc:12, 155): a name space is a mapping from identifier to declaration, so the entry
for `id` becomes `d` and the other entries stay. -/
def NameSpace.set (ns : NameSpace) (id : String) (d : Declaration) : NameSpace :=
  { Lookup := fun k => if k = id then some d else ns.Lookup k }

/-- The globals `kBuiltInTypes` and `kBuiltInFunctions` (Expression.cc:7, 11). -/
structure Globals where
  kBuiltInTypes : NameSpace := NameSpace.empty
  kBuiltInFunctions : NameSpace := NameSpace.empty

/-- The function `AddDecl` (Expression.cc:12). -/
def AddDecl (g : Globals) (f : Declaration) : Globals :=
  { g with kBuiltInFunctions := g.kBuiltInFunctions.set f.Id f }

/-- The function `AddProc` (Expression.cc:18-20). -/
def AddProc (g : Globals) (id : String) (params : List TypeField) : Globals :=
  AddDecl g (Declaration.FunctionDeclaration id params none Expression.BuiltInBody)

/-- The function `AddFun` (Expression.cc:21-25). -/
def AddFun (g : Globals) (id : String) (params : List TypeField) (type_id : String) : Globals :=
  AddDecl g (Declaration.FunctionDeclaration id params (some type_id) Expression.BuiltInBody)

/-- The seeding of the globals by the static `Expression::SetNameSpacesBelow`
(Expression.cc:155-166). -/
def seedBuiltIns (g : Globals) : Globals :=
  let g := { g with kBuiltInTypes := g.kBuiltInTypes.set (kTypeDecls 0).Id (kTypeDecls 0) }
  let g := { g with kBuiltInTypes := g.kBuiltInTypes.set (kTypeDecls 1).Id (kTypeDecls 1) }
  let g := AddProc g "print" [{ id := "s", type_id := "string" }]
  let g := AddProc g "print" [{ id := "i", type_id := "int" }]
  let g := AddProc g "flush" []
  let g := AddFun g "getchar" [] "string"
  let g := AddFun g "ord" [{ id := "s", type_id := "string" }] "int"
  let g := AddFun g "chr" [{ id := "i", type_id := "int" }] "string"
  let g := AddFun g "size" [{ id := "s", type_id := "string" }] "int"
  let g := AddFun g "substring"
    [{ id := "s", type_id := "string" }, { id := "f", type_id := "int" },
     { id := "n", type_id := "int" }] "string"
  let g := AddFun g "concat"
    [{ id := "s1", type_id := "string" }, { id := "s2", type_id := "string" }] "string"
  let g := AddFun g "not" [{ id := "i", type_id := "int" }] "int"
  AddProc g "exit" [{ id := "i", type_id := "int" }]

/-- The static `Expression::SetNameSpacesBelow(root)` (Expression.cc:154-168) on the globals and
the base members of the root: the globals are seeded and the root is bound to them
(Expression.h:104-109). The descent into the children is `TreeNode::SetNameSpacesBelow`, in the
missing `TreeNode.h`. -/
def Expression.SetNameSpacesBelow (g : Globals) (root : ExpressionBase) :
    Globals × ExpressionBase :=
  let g := seedBuiltIns g
  (g, { root with types_ := some g.kBuiltInTypes, non_types_ := some g.kBuiltInFunctions })

/-- The builtin procedure `print(s : string)` is `printProcedure`; this is `print(i : int)`, as
`AddProc("print", {{"i", "int"}})` builds it (Expression.cc:157). -/
def printIntProcedure : Declaration :=
  Declaration.FunctionDeclaration "print" [{ id := "i", type_id := "int" }] none
    Expression.BuiltInBody

/-! ## The default visitor (Expression.h:124-187)

A default visit method of `ExpressionVisitor` calls `child.Accept(*this)`, which dispatches on
the dynamic type of the visitor. `accept` stands for that call: it takes the state of the visitor
and the child and gives the value returned and the state afterwards. -/

namespace ExpressionVisitor

variable {σ : Type}

/-- The operator `&&` on visit results: the right operand runs only when the left one returned
true. -/
def andAlso (r : Bool × σ) (f : σ → Bool × σ) : Bool × σ :=
  if r.1 then f r.2 else (false, r.2)

/-- The call `std::all_of(..., [this](const auto& arg) { return arg->Accept(*this); })`
(Expression.h:146-147, 151-152, 184-185): stops at the first element that returns false. -/
def all_of (accept : σ → Expression → Bool × σ) (s : σ) : List Expression → Bool × σ
  | [] => (true, s)
  | arg :: rest => andAlso (accept s arg) (fun s1 => all_of accept s1 rest)

/-- The default `VisitStringConstant` (Expression.h:128). -/
def VisitStringConstant (s : σ) (_text : String) : Bool × σ := (true, s)

/-- The default `VisitIntegerConstant` (Expression.h:129). -/
def VisitIntegerConstant (s : σ) (_value : Int) : Bool × σ := (true, s)

/-- The default `VisitNil` (Expression.h:130). -/
def VisitNil (s : σ) : Bool × σ := (true, s)

/-- The default `VisitLValue` (Expression.h:131). -/
def VisitLValue (s : σ) (_value : LValue) : Bool × σ := (true, s)

/-- The default `VisitNegated` (Expression.h:132-134). -/
def VisitNegated (accept : σ → Expression → Bool × σ) (s : σ) (value : Expression) : Bool × σ :=
  accept s value

/-- The default `VisitBinary` (Expression.h:135-138). -/
def VisitBinary (accept : σ → Expression → Bool × σ) (s : σ) (left : Expression)
    (_op : BinaryOp) (right : Expression) : Bool × σ :=
  andAlso (accept s left) (fun s1 => accept s1 right)

/-- The default `VisitAssignment` (Expression.h:139-141): the lvalue is not visited. -/
def VisitAssignment (accept : σ → Expression → Bool × σ) (s : σ) (_value : LValue)
    (expr : Expression) : Bool × σ :=
  accept s expr

/-- The default `VisitFunctionCall` (Expression.h:142-148). -/
def VisitFunctionCall (accept : σ → Expression → Bool × σ) (s : σ) (_id : String)
    (args : List Expression) (_exp : Expression) : Bool × σ :=
  all_of accept s args

/-- The default `VisitBlock` (Expression.h:149-153). -/
def VisitBlock (accept : σ → Expression → Bool × σ) (s : σ) (exprs : List Expression) :
    Bool × σ :=
  all_of accept s exprs

/-- The default `VisitRecord` (Expression.h:154-158): the field values are not visited. -/
def VisitRecord (_accept : σ → Expression → Bool × σ) (s : σ) (_type_id : String)
    (_field_values : List FieldValue) (_exp : Expression) : Bool × σ :=
  (true, s)

/-- The default `VisitArray` (Expression.h:159-162). -/
def VisitArray (accept : σ → Expression → Bool × σ) (s : σ) (_type_id : String)
    (size : Expression) (value : Expression) : Bool × σ :=
  andAlso (accept s size) (fun s1 => accept s1 value)

/-- The default `VisitIfThen` (Expression.h:163-166). -/
def VisitIfThen (accept : σ → Expression → Bool × σ) (s : σ) (condition : Expression)
    (expr : Expression) : Bool × σ :=
  andAlso (accept s condition) (fun s1 => accept s1 expr)

/-- The default `VisitIfThenElse` (Expression.h:167-172). -/
def VisitIfThenElse (accept : σ → Expression → Bool × σ) (s : σ) (condition : Expression)
    (then_expr : Expression) (else_expr : Expression) : Bool × σ :=
  andAlso (andAlso (accept s condition) (fun s1 => accept s1 then_expr))
    (fun s2 => accept s2 else_expr)

/-- The default `VisitWhile` (Expression.h:173-175). -/
def VisitWhile (accept : σ → Expression → Bool × σ) (s : σ) (condition : Expression)
    (body : Expression) : Bool × σ :=
  andAlso (accept s condition) (fun s1 => accept s1 body)

/-- The default `VisitFor` (Expression.h:176-179). -/
def VisitFor (accept : σ → Expression → Bool × σ) (s : σ) (_id : String) (first : Expression)
    (last : Expression) (body : Expression) : Bool × σ :=
  andAlso (andAlso (accept s first) (fun s1 => accept s1 last)) (fun s2 => accept s2 body)

/-- The default `VisitBreak` (Expression.h:180). -/
def VisitBreak (s : σ) : Bool × σ := (true, s)

/-- The default `VisitLet` (Expression.h:181-186): the declarations are not visited. -/
def VisitLet (accept : σ → Expression → Bool × σ) (s : σ) (_declarations : List Declaration)
    (body : List Expression) : Bool × σ :=
  all_of accept s body

/-- A visitor that keeps a record: `logged accept` does what `accept` does and appends the child
it was called on to the list of the children visited so far. -/
def logged (accept : σ → Expression → Bool × σ) (s : σ × List Expression) (child : Expression) :
    Bool × (σ × List Expression) :=
  ((accept s.1 child).1, ((accept s.1 child).2, s.2 ++ [child]))

/-- The traversal the specification describes for an ordered list of children: they are visited
left to right, the result is the conjunction of their results, and after a child that returned
false no later child is visited. Gives the result, the state afterwards and the children
visited. -/
def leftToRight (accept : σ → Expression → Bool × σ) (s : σ) :
    List Expression → Bool × (σ × List Expression)
  | [] => (true, (s, []))
  | child :: rest =>
    if (accept s child).1 then
      ((leftToRight accept (accept s child).2 rest).1,
        ((leftToRight accept (accept s child).2 rest).2.1,
          child :: (leftToRight accept (accept s child).2 rest).2.2))
    else (false, ((accept s child).2, [child]))

end ExpressionVisitor

/-- The declaration `type point = {x : int}`. -/
def pointType : Declaration :=
  Declaration.TypeDeclaration "point" (Type_.RecordType [{ id := "x", type_id := "int" }])

/-- The declaration `type ints = array of int`. -/
def intsType : Declaration :=
  Declaration.TypeDeclaration "ints" (Type_.ArrayType "int")

/-- A type scope in which `point` and `ints` are bound to the two declarations above and nothing
else is. -/
def typeScope : NameSpace :=
  { Lookup := fun id =>
      if id = "point" then some pointType else if id = "ints" then some intsType else none }

/-- The type of the child whose type the rule of the node copies, for the nodes with such a rule:
Negated, Binary (right operand), Block and Let (last expression), IfThenElse (then-branch)
(Expression.cc:55-61, 75-78, 91-94, 104-107). -/
def ExpressionNode.copiedType : ExpressionNode → Option String
  | .Negated value => some value.type_
  | .Binary _ _ right => some right.type_
  | .Block exprs => exprs.getLast?.map (fun e => e.type_)
  | .IfThenElse _ then_expr _ => some then_expr.type_
  | .Let _ body => body.getLast?.map (fun e => e.type_)
  | _ => none

/-- The type id a Record or Array literal names, which its rule assigns verbatim
(Expression.cc:79-86). -/
def ExpressionNode.namedType : ExpressionNode → Option String
  | .Record type_id _ => some type_id
  | .Array type_id _ _ => some type_id
  | _ => none

/-- The root of a tree after `Expression::SetNameSpacesBelow` ran on fresh globals: bound to the
builtin name spaces, its type not yet set. -/
def boundRoot : ExpressionBase :=
  (Expression.SetNameSpacesBelow {} {}).2

/-! ## Sequences of intern operations and what the indices of a pool refer to -/

namespace emit

/-- The program `q` is what `p` becomes after a sequence of intern operations that all return:
`utf8Constant`, `stringConstant`, `classConstant`, `nameAndTypeConstant`, `methodRefConstant`
(emit.cc:222-287). -/
inductive Interns (p : JvmProgram) : JvmProgram → Prop
  | same : Interns p p
  | utf8Constant {q r : JvmProgram} {text : String} {c : Utf8Constant} :
      Interns p q → q.utf8Constant text = some (c, r) → Interns p r
  | stringConstant {q r : JvmProgram} {text : String} {c : StringConstant} :
      Interns p q → q.stringConstant text = some (c, r) → Interns p r
  | classConstant {q r : JvmProgram} {class_name : String} {c : ClassConstant} :
      Interns p q → q.classConstant class_name = some (c, r) → Interns p r
  | nameAndTypeConstant {q r : JvmProgram} {name descriptor : String}
      {c : NameAndTypeConstant} :
      Interns p q → q.nameAndTypeConstant name descriptor = some (c, r) → Interns p r
  | methodRefConstant {q r : JvmProgram} {class_name name type : String}
      {c : MethodRefConstant} :
      Interns p q → q.methodRefConstant class_name name type = some (c, r) → Interns p r

/-- The entry a pool index refers to in the class file: the pool is 1-indexed, so index 0 refers
to nothing and index `n + 1` to the entry at 0-based position `n`. -/
def entryAt (pool : List Constant) (index : Nat) : Option Constant :=
  if index = 0 then none else pool[index - 1]?

/-- The index, stored inside the entry at 0-based position `i`, refers to an earlier entry, and
that entry has the tag `tag`. -/
def refersTo (pool : List Constant) (i : Nat) (index : Nat) (tag : Tag) : Prop :=
  index ≤ i ∧ ∃ c, entryAt pool index = some c ∧ c.tag = tag

/-- Every index stored inside the constant, which sits at 0-based position `i` of the pool, refers
to an earlier entry of the expected kind. -/
def Constant.kindOK (pool : List Constant) (i : Nat) : Constant → Prop
  | .utf8 _ => True
  | .string s => refersTo pool i s.string_index Tag.kUtf8
  | .clazz k => refersTo pool i k.name_index Tag.kUtf8
  | .nameAndType t =>
    refersTo pool i t.name_index Tag.kUtf8 ∧ refersTo pool i t.descriptor_index Tag.kUtf8
  | .methodRef r =>
    refersTo pool i r.class_index Tag.kClass ∧
      refersTo pool i r.name_and_type_index Tag.kNameAndType

/-- Every index stored inside an entry of the pool refers to an earlier entry of the expected
kind. -/
def JvmProgram.WellKinded (p : JvmProgram) : Prop :=
  ∀ (i : Nat) (c : Constant), p.constant_pool[i]? = some c → c.kindOK p.constant_pool i

/-- The pool index refers to a Class entry whose name index refers to the Utf8 entry `text`. -/
def classNamed (pool : List Constant) (index : Nat) (text : String) : Prop :=
  ∃ k u, entryAt pool index = some (Constant.clazz k) ∧
    entryAt pool k.name_index = some (Constant.utf8 u) ∧ u.text = text

/-- Reading bytes back as a big-endian unsigned integer. -/
def readBigEndian (bytes : List Nat) : Nat :=
  bytes.foldl (fun acc b => acc * 256 + b) 0

end emit

/-! ## The type setter on a whole tree (Expression.cc:143-152, 170-176)

`SetTypesBelow` hands the root to the generic tree traversal with a `TreeTypeSetter` and then
runs one more setter on the root. The traversal and the node classes are in `TreeNode.h` and
`shapenodes.h`, which are not among the sources. -/

mutual
/-- Modelled from the spec: `TreeNode.h` and `shapenodes.h` are missing. An expression node of a
syntax tree as `SetTypesBelow` receives it: the data members of its `Expression` base (`expr_`),
the members of the node, and its children as nodes of the tree. An lvalue is an expression whose
base members are those of the lvalue node. `BuiltInBody` is local to Expression.cc and is the body
of builtin declarations only, so no tree contains it. -/
inductive ExpressionTree where
  | StringConstant (expr_ : ExpressionBase) (text : String)
  | IntegerConstant (expr_ : ExpressionBase) (value : Int)
  | Nil (expr_ : ExpressionBase)
  | LValue (value : LValueTree)
  | Negated (expr_ : ExpressionBase) (value : ExpressionTree)
  | Binary (expr_ : ExpressionBase) (left : ExpressionTree) (op : BinaryOp)
      (right : ExpressionTree)
  | Assignment (expr_ : ExpressionBase) (value : LValueTree) (expr : ExpressionTree)
  | FunctionCall (expr_ : ExpressionBase) (id : String) (args : List ExpressionTree)
  | Block (expr_ : ExpressionBase) (exprs : List ExpressionTree)
  | Record (expr_ : ExpressionBase) (type_id : String) (field_values : List FieldValueTree)
  | Array (expr_ : ExpressionBase) (type_id : String) (size : ExpressionTree)
      (value : ExpressionTree)
  | IfThen (expr_ : ExpressionBase) (condition : ExpressionTree) (expr : ExpressionTree)
  | IfThenElse (expr_ : ExpressionBase) (condition : ExpressionTree)
      (then_expr : ExpressionTree) (else_expr : ExpressionTree)
  | While (expr_ : ExpressionBase) (condition : ExpressionTree) (body : ExpressionTree)
  | For (expr_ : ExpressionBase) (id : String) (first : ExpressionTree) (last : ExpressionTree)
      (body : ExpressionTree)
  | Break (expr_ : ExpressionBase)
  | Let (expr_ : ExpressionBase) (declarations : List DeclarationTree)
      (body : List ExpressionTree)
/-- Modelled from the spec: an lvalue node of a syntax tree, with the base members of the
expression it is. -/
inductive LValueTree where
  | Id (expr_ : ExpressionBase) (id : String)
  | Field (expr_ : ExpressionBase) (value : LValueTree) (id : String)
  | Index (expr_ : ExpressionBase) (value : LValueTree) (expr : ExpressionTree)
/-- Modelled from the spec: a field value of a record literal, with its expression as a node of
the tree. -/
inductive FieldValueTree where
  | mk (id : String) (expr : ExpressionTree)
/-- Modelled from the spec: a declaration of a `let`, with the expressions it holds as nodes of
the tree. -/
inductive DeclarationTree where
  | TypeDeclaration (id : String) (type : Type_)
  | VariableDeclaration (id : String) (type_id : Option String) (value : ExpressionTree)
  | ParameterDeclaration (id : String) (type_id : String)
  | FunctionDeclaration (id : String) (params : List TypeField) (type_id : Option String)
      (body : ExpressionTree)
end

/-- The base members of an lvalue node. -/
def LValueTree.expr_ : LValueTree → ExpressionBase
  | .Id e _ => e
  | .Field e _ _ => e
  | .Index e _ _ => e

/-- The base members of an expression node. -/
def ExpressionTree.expr_ : ExpressionTree → ExpressionBase
  | .StringConstant e _ => e
  | .IntegerConstant e _ => e
  | .Nil e => e
  | .LValue value => value.expr_
  | .Negated e _ => e
  | .Binary e _ _ _ => e
  | .Assignment e _ _ => e
  | .FunctionCall e _ _ => e
  | .Block e _ => e
  | .Record e _ _ => e
  | .Array e _ _ _ => e
  | .IfThen e _ _ => e
  | .IfThenElse e _ _ _ => e
  | .While e _ _ => e
  | .For e _ _ _ _ => e
  | .Break e => e
  | .Let e _ _ => e

/-- The lvalue node with its base members replaced. -/
def LValueTree.withBase (b : ExpressionBase) : LValueTree → LValueTree
  | .Id _ id => .Id b id
  | .Field _ value id => .Field b value id
  | .Index _ value expr => .Index b value expr

/-- The expression node with its base members replaced. -/
def ExpressionTree.withBase (b : ExpressionBase) : ExpressionTree → ExpressionTree
  | .StringConstant _ text => .StringConstant b text
  | .IntegerConstant _ value => .IntegerConstant b value
  | .Nil _ => .Nil b
  | .LValue value => .LValue (value.withBase b)
  | .Negated _ value => .Negated b value
  | .Binary _ left op right => .Binary b left op right
  | .Assignment _ value expr => .Assignment b value expr
  | .FunctionCall _ id args => .FunctionCall b id args
  | .Block _ exprs => .Block b exprs
  | .Record _ type_id field_values => .Record b type_id field_values
  | .Array _ type_id size value => .Array b type_id size value
  | .IfThen _ condition expr => .IfThen b condition expr
  | .IfThenElse _ condition then_expr else_expr => .IfThenElse b condition then_expr else_expr
  | .While _ condition body => .While b condition body
  | .For _ id first last body => .For b id first last body
  | .Break _ => .Break b
  | .Let _ declarations body => .Let b declarations body

mutual
/-- The syntax of an expression node: the node without the base members. -/
def ExpressionTree.shape : ExpressionTree → Expression
  | .StringConstant _ text => .StringConstant text
  | .IntegerConstant _ value => .IntegerConstant value
  | .Nil _ => .Nil
  | .LValue value => .LValue value.shape
  | .Negated _ value => .Negated value.shape
  | .Binary _ left op right => .Binary left.shape op right.shape
  | .Assignment _ value expr => .Assignment value.shape expr.shape
  | .FunctionCall _ id args => .FunctionCall id (ExpressionTree.shapeEach args)
  | .Block _ exprs => .Block (ExpressionTree.shapeEach exprs)
  | .Record _ type_id field_values => .Record type_id (FieldValueTree.shapeEach field_values)
  | .Array _ type_id size value => .Array type_id size.shape value.shape
  | .IfThen _ condition expr => .IfThen condition.shape expr.shape
  | .IfThenElse _ condition then_expr else_expr =>
    .IfThenElse condition.shape then_expr.shape else_expr.shape
  | .While _ condition body => .While condition.shape body.shape
  | .For _ id first last body => .For id first.shape last.shape body.shape
  | .Break _ => .Break
  | .Let _ declarations body =>
    .Let (DeclarationTree.shapeEach declarations) (ExpressionTree.shapeEach body)
/-- The syntax of an lvalue node. -/
def LValueTree.shape : LValueTree → LValue
  | .Id _ id => .Id id
  | .Field _ value id => .Field value.shape id
  | .Index _ value expr => .Index value.shape expr.shape
/-- The syntax of a field value. -/
def FieldValueTree.shape : FieldValueTree → FieldValue
  | .mk id expr => .mk id expr.shape
/-- The syntax of a declaration. -/
def DeclarationTree.shape : DeclarationTree → Declaration
  | .TypeDeclaration id type => .TypeDeclaration id type
  | .VariableDeclaration id type_id value => .VariableDeclaration id type_id value.shape
  | .ParameterDeclaration id type_id => .ParameterDeclaration id type_id
  | .FunctionDeclaration id params type_id body =>
    .FunctionDeclaration id params type_id body.shape
/-- The syntax of each expression of a list. -/
def ExpressionTree.shapeEach : List ExpressionTree → List Expression
  | [] => []
  | e :: es => e.shape :: ExpressionTree.shapeEach es
/-- The syntax of each field value of a list. -/
def FieldValueTree.shapeEach : List FieldValueTree → List FieldValue
  | [] => []
  | f :: fs => f.shape :: FieldValueTree.shapeEach fs
/-- The syntax of each declaration of a list. -/
def DeclarationTree.shapeEach : List DeclarationTree → List Declaration
  | [] => []
  | d :: ds => d.shape :: DeclarationTree.shapeEach ds
end

/-- The lvalue node as the type setter sees it: its members and the base members of its child
expressions. -/
def LValueTree.node : LValueTree → LValueNode
  | .Id _ id => .Id id
  | .Field _ value id => .Field value.expr_ id
  | .Index _ value expr => .Index value.expr_ expr.expr_

/-- The expression node as the type setter sees it: its members and the base members of its child
expressions. -/
def ExpressionTree.node : ExpressionTree → ExpressionNode
  | .StringConstant _ text => .StringConstant text
  | .IntegerConstant _ value => .IntegerConstant value
  | .Nil _ => .Nil
  | .LValue value => .LValue value.node
  | .Negated _ value => .Negated value.expr_
  | .Binary _ left op right => .Binary left.expr_ op right.expr_
  | .Assignment _ value expr => .Assignment value.expr_ expr.expr_
  | .FunctionCall _ id args => .FunctionCall id (ExpressionTree.shapeEach args)
  | .Block _ exprs => .Block (exprs.map ExpressionTree.expr_)
  | .Record _ type_id field_values => .Record type_id (FieldValueTree.shapeEach field_values)
  | .Array _ type_id size value => .Array type_id size.expr_ value.expr_
  | .IfThen _ condition expr => .IfThen condition.expr_ expr.expr_
  | .IfThenElse _ condition then_expr else_expr =>
    .IfThenElse condition.expr_ then_expr.expr_ else_expr.expr_
  | .While _ condition body => .While condition.expr_ body.expr_
  | .For _ id first last body => .For id first.expr_ last.expr_ body.expr_
  | .Break _ => .Break
  | .Let _ declarations body =>
    .Let (DeclarationTree.shapeEach declarations) (body.map ExpressionTree.expr_)

/-- The static `TreeTypeSetter::SetType` (Expression.cc:146-151) on a node of the tree: the
setter built for the node is accepted by it and leaves its result in the base members of the
node. -/
def TreeTypeSetter.SetTypeOf (e : ExpressionTree) : Option ExpressionTree :=
  (TreeTypeSetter.SetType e.expr_ e.node).map (fun r => e.withBase r.2)

/-- The hook `TreeTypeSetter::VisitChild` (Expression.cc:144): the same call as
`AfterChildren`. -/
def TreeTypeSetter.VisitChild (child : ExpressionTree) : Option ExpressionTree :=
  TreeTypeSetter.SetTypeOf child

/-- The hook `TreeTypeSetter::AfterChildren` (Expression.cc:145). -/
def TreeTypeSetter.AfterChildren (parent : ExpressionTree) : Option ExpressionTree :=
  TreeTypeSetter.SetTypeOf parent

/-- The hook `TreeTypeSetter::AfterChildren` on an lvalue, which is an expression. -/
def TreeTypeSetter.AfterChildrenOfLValue (parent : LValueTree) : Option LValueTree :=
  (TreeTypeSetter.SetType parent.expr_ (ExpressionNode.LValue parent.node)).map
    (fun r => parent.withBase r.2)

mutual
/-- Modelled from the spec: the traversal `Accept(SyntaxTreeVisitor&)` of the missing
`TreeNode.h`, run with a `TreeTypeSetter` (Expression.cc:172). The spec: "first recursively infer
every child's type, then compute the parent's type from already-known child types (strict
post-order; a parent's rule must never run before all its children's types are set)", and "the
generic traversal's after children hook does not itself apply to the tree's top node". So every
node below the given one is handed to the setter after the nodes below itself, and the given node
is not. Both hooks of the `TreeTypeSetter` are the same call of `SetType`, which reads the scopes
and members of the node and the types of its children and writes the type of the node only, so
the call that decides the type of a node is the one made after the nodes below it. -/
def ExpressionTree.Accept : ExpressionTree → Option ExpressionTree
  | .StringConstant e text => some (.StringConstant e text)
  | .IntegerConstant e value => some (.IntegerConstant e value)
  | .Nil e => some (.Nil e)
  | .LValue value => (LValueTree.Accept value).map ExpressionTree.LValue
  | .Negated e value => do
    let value ← (ExpressionTree.Accept value).bind TreeTypeSetter.AfterChildren
    pure (.Negated e value)
  | .Binary e left op right => do
    let left ← (ExpressionTree.Accept left).bind TreeTypeSetter.AfterChildren
    let right ← (ExpressionTree.Accept right).bind TreeTypeSetter.AfterChildren
    pure (.Binary e left op right)
  | .Assignment e value expr => do
    let value ← (LValueTree.Accept value).bind TreeTypeSetter.AfterChildrenOfLValue
    let expr ← (ExpressionTree.Accept expr).bind TreeTypeSetter.AfterChildren
    pure (.Assignment e value expr)
  | .FunctionCall e id args => do
    let args ← ExpressionTree.AcceptEach args
    pure (.FunctionCall e id args)
  | .Block e exprs => do
    let exprs ← ExpressionTree.AcceptEach exprs
    pure (.Block e exprs)
  | .Record e type_id field_values => do
    let field_values ← FieldValueTree.AcceptEach field_values
    pure (.Record e type_id field_values)
  | .Array e type_id size value => do
    let size ← (ExpressionTree.Accept size).bind TreeTypeSetter.AfterChildren
    let value ← (ExpressionTree.Accept value).bind TreeTypeSetter.AfterChildren
    pure (.Array e type_id size value)
  | .IfThen e condition expr => do
    let condition ← (ExpressionTree.Accept condition).bind TreeTypeSetter.AfterChildren
    let expr ← (ExpressionTree.Accept expr).bind TreeTypeSetter.AfterChildren
    pure (.IfThen e condition expr)
  | .IfThenElse e condition then_expr else_expr => do
    let condition ← (ExpressionTree.Accept condition).bind TreeTypeSetter.AfterChildren
    let then_expr ← (ExpressionTree.Accept then_expr).bind TreeTypeSetter.AfterChildren
    let else_expr ← (ExpressionTree.Accept else_expr).bind TreeTypeSetter.AfterChildren
    pure (.IfThenElse e condition then_expr else_expr)
  | .While e condition body => do
    let condition ← (ExpressionTree.Accept condition).bind TreeTypeSetter.AfterChildren
    let body ← (ExpressionTree.Accept body).bind TreeTypeSetter.AfterChildren
    pure (.While e condition body)
  | .For e id first last body => do
    let first ← (ExpressionTree.Accept first).bind TreeTypeSetter.AfterChildren
    let last ← (ExpressionTree.Accept last).bind TreeTypeSetter.AfterChildren
    let body ← (ExpressionTree.Accept body).bind TreeTypeSetter.AfterChildren
    pure (.For e id first last body)
  | .Break e => some (.Break e)
  | .Let e declarations body => do
    let declarations ← DeclarationTree.AcceptEach declarations
    let body ← ExpressionTree.AcceptEach body
    pure (.Let e declarations body)
/-- Modelled from the spec: the same traversal below an lvalue node. -/
def LValueTree.Accept : LValueTree → Option LValueTree
  | .Id e id => some (.Id e id)
  | .Field e value id => do
    let value ← (LValueTree.Accept value).bind TreeTypeSetter.AfterChildrenOfLValue
    pure (.Field e value id)
  | .Index e value expr => do
    let value ← (LValueTree.Accept value).bind TreeTypeSetter.AfterChildrenOfLValue
    let expr ← (ExpressionTree.Accept expr).bind TreeTypeSetter.AfterChildren
    pure (.Index e value expr)
/-- Modelled from the spec: the same traversal through a field value, which is no expression
itself. -/
def FieldValueTree.Accept : FieldValueTree → Option FieldValueTree
  | .mk id expr => do
    let expr ← (ExpressionTree.Accept expr).bind TreeTypeSetter.AfterChildren
    pure (.mk id expr)
/-- Modelled from the spec: the same traversal through a declaration, which is no expression
itself. -/
def DeclarationTree.Accept : DeclarationTree → Option DeclarationTree
  | .TypeDeclaration id type => some (.TypeDeclaration id type)
  | .VariableDeclaration id type_id value => do
    let value ← (ExpressionTree.Accept value).bind TreeTypeSetter.AfterChildren
    pure (.VariableDeclaration id type_id value)
  | .ParameterDeclaration id type_id => some (.ParameterDeclaration id type_id)
  | .FunctionDeclaration id params type_id body => do
    let body ← (ExpressionTree.Accept body).bind TreeTypeSetter.AfterChildren
    pure (.FunctionDeclaration id params type_id body)
/-- Modelled from the spec: the same traversal over the expressions of a list, first to last. -/
def ExpressionTree.AcceptEach : List ExpressionTree → Option (List ExpressionTree)
  | [] => some []
  | e :: es => do
    let e ← (ExpressionTree.Accept e).bind TreeTypeSetter.AfterChildren
    let es ← ExpressionTree.AcceptEach es
    pure (e :: es)
/-- Modelled from the spec: the same traversal over the field values of a list. -/
def FieldValueTree.AcceptEach : List FieldValueTree → Option (List FieldValueTree)
  | [] => some []
  | f :: fs => do
    let f ← FieldValueTree.Accept f
    let fs ← FieldValueTree.AcceptEach fs
    pure (f :: fs)
/-- Modelled from the spec: the same traversal over the declarations of a list. -/
def DeclarationTree.AcceptEach : List DeclarationTree → Option (List DeclarationTree)
  | [] => some []
  | d :: ds => do
    let d ← DeclarationTree.Accept d
    let ds ← DeclarationTree.AcceptEach ds
    pure (d :: ds)
end

mutual
/-- Every expression node below the given one satisfies `P`. -/
def ExpressionTree.Below (P : ExpressionTree → Prop) : ExpressionTree → Prop
  | .StringConstant _ _ => True
  | .IntegerConstant _ _ => True
  | .Nil _ => True
  | .LValue value => LValueTree.Below P value
  | .Negated _ value => P value ∧ ExpressionTree.Below P value
  | .Binary _ left _ right =>
    (P left ∧ ExpressionTree.Below P left) ∧ (P right ∧ ExpressionTree.Below P right)
  | .Assignment _ value expr =>
    (P (.LValue value) ∧ LValueTree.Below P value) ∧ (P expr ∧ ExpressionTree.Below P expr)
  | .FunctionCall _ _ args => ExpressionTree.BelowEach P args
  | .Block _ exprs => ExpressionTree.BelowEach P exprs
  | .Record _ _ field_values => FieldValueTree.BelowEach P field_values
  | .Array _ _ size value =>
    (P size ∧ ExpressionTree.Below P size) ∧ (P value ∧ ExpressionTree.Below P value)
  | .IfThen _ condition expr =>
    (P condition ∧ ExpressionTree.Below P condition) ∧ (P expr ∧ ExpressionTree.Below P expr)
  | .IfThenElse _ condition then_expr else_expr =>
    (P condition ∧ ExpressionTree.Below P condition) ∧
      (P then_expr ∧ ExpressionTree.Below P then_expr) ∧
      (P else_expr ∧ ExpressionTree.Below P else_expr)
  | .While _ condition body =>
    (P condition ∧ ExpressionTree.Below P condition) ∧ (P body ∧ ExpressionTree.Below P body)
  | .For _ _ first last body =>
    (P first ∧ ExpressionTree.Below P first) ∧ (P last ∧ ExpressionTree.Below P last) ∧
      (P body ∧ ExpressionTree.Below P body)
  | .Break _ => True
  | .Let _ declarations body =>
    DeclarationTree.BelowEach P declarations ∧ ExpressionTree.BelowEach P body
/-- Every expression node below the given lvalue node satisfies `P`. -/
def LValueTree.Below (P : ExpressionTree → Prop) : LValueTree → Prop
  | .Id _ _ => True
  | .Field _ value _ => P (.LValue value) ∧ LValueTree.Below P value
  | .Index _ value expr =>
    (P (.LValue value) ∧ LValueTree.Below P value) ∧ (P expr ∧ ExpressionTree.Below P expr)
/-- The expression of the field value and every expression node below it satisfy `P`. -/
def FieldValueTree.Below (P : ExpressionTree → Prop) : FieldValueTree → Prop
  | .mk _ expr => P expr ∧ ExpressionTree.Below P expr
/-- The expressions the declaration holds and every expression node below them satisfy `P`. -/
def DeclarationTree.Below (P : ExpressionTree → Prop) : DeclarationTree → Prop
  | .TypeDeclaration _ _ => True
  | .VariableDeclaration _ _ value => P value ∧ ExpressionTree.Below P value
  | .ParameterDeclaration _ _ => True
  | .FunctionDeclaration _ _ _ body => P body ∧ ExpressionTree.Below P body
/-- The expressions of the list and every expression node below them satisfy `P`. -/
def ExpressionTree.BelowEach (P : ExpressionTree → Prop) : List ExpressionTree → Prop
  | [] => True
  | e :: es => (P e ∧ ExpressionTree.Below P e) ∧ ExpressionTree.BelowEach P es
/-- Every expression node in the field values of the list satisfies `P`. -/
def FieldValueTree.BelowEach (P : ExpressionTree → Prop) : List FieldValueTree → Prop
  | [] => True
  | f :: fs => FieldValueTree.Below P f ∧ FieldValueTree.BelowEach P fs
/-- Every expression node in the declarations of the list satisfies `P`. -/
def DeclarationTree.BelowEach (P : ExpressionTree → Prop) : List DeclarationTree → Prop
  | [] => True
  | d :: ds => DeclarationTree.Below P d ∧ DeclarationTree.BelowEach P ds
end

/-- Every expression node of the tree, the root included, satisfies `P`. -/
def ExpressionTree.All (P : ExpressionTree → Prop) (root : ExpressionTree) : Prop :=
  P root ∧ root.Below P

mutual
/-- Whether the expression is Nil, which the type setter leaves as it was (Expression.cc:50), or
has a rule that copies the type of such an expression: Negated, Binary (right operand), Block and
Let (last expression), IfThenElse (then-branch) (Expression.cc:55-61, 75-78, 91-94, 104-107). -/
def Expression.copiesNil : Expression → Bool
  | .Nil => true
  | .Negated value => Expression.copiesNil value
  | .Binary _ _ right => Expression.copiesNil right
  | .Block exprs => Expression.lastCopiesNil exprs
  | .IfThenElse _ then_expr _ => Expression.copiesNil then_expr
  | .Let _ body => Expression.lastCopiesNil body
  | _ => false
/-- Whether the last expression of the list is Nil or copies the type of one. -/
def Expression.lastCopiesNil : List Expression → Bool
  | [] => false
  | e :: es =>
    match es with
    | [] => Expression.copiesNil e
    | _ :: _ => Expression.lastCopiesNil es
end

/-- The run of the type setter on the node is defined: both scopes are bound
(Expression.h:85-92), and an identifier that is found in the value scope has a declaration with
a value type, which `VisitId` dereferences untested (Expression.cc:111). -/
def ExpressionTree.Defined (e : ExpressionTree) : Prop :=
  ∃ types non_types, e.expr_.types_ = some types ∧ e.expr_.non_types_ = some non_types ∧
    ∀ id d, e.shape = Expression.LValue (LValue.Id id) → non_types.Lookup id = some d →
      d.GetValueType ≠ none

/-- No type id the type setter can give the node has the text of the marker "unset": not the
type id a Record or Array literal names, and none that the scopes of the node declare as a value
type, a field type or an element type. `GetType` returns the type as text (Expression.h:83) and
`kUnsetType` is local to Expression.cc, so the marker is known by its text only. -/
def ExpressionTree.NoUnsetText (e : ExpressionTree) : Prop :=
  (∀ type_id field_values, e.shape = Expression.Record type_id field_values →
      type_id ≠ kUnsetType) ∧
    (∀ type_id size value, e.shape = Expression.Array type_id size value →
      type_id ≠ kUnsetType) ∧
    (∀ non_types id d vt, e.expr_.non_types_ = some non_types →
      non_types.Lookup id = some d → d.GetValueType = some vt → vt ≠ kUnsetType) ∧
    (∀ types k d t f ft, e.expr_.types_ = some types → types.Lookup k = some d →
      d.GetType = some t → t.GetFieldType f = some ft → ft ≠ kUnsetType) ∧
    (∀ types k d t et, e.expr_.types_ = some types → types.Lookup k = some d →
      d.GetType = some t → t.GetElementType = some et → et ≠ kUnsetType)

/-- The run of the type setter on the node is defined and gives it no type with the text of the
marker. -/
def ExpressionTree.Regular (e : ExpressionTree) : Prop :=
  e.Defined ∧ e.NoUnsetText

/-- The type of the node is not the marker "unset", unless the node is Nil or copies the type of
a Nil. -/
def ExpressionTree.TypeSet (e : ExpressionTree) : Prop :=
  e.shape.copiesNil = false → e.expr_.type_ ≠ kUnsetType

namespace emit

/-! ### The scans of the intern operations -/

@[simp] theorem Constant.tag_utf8 (c : Utf8Constant) : (Constant.utf8 c).tag = Tag.kUtf8 := rfl

@[simp] theorem Constant.tag_string (c : StringConstant) :
    (Constant.string c).tag = Tag.kString := rfl

@[simp] theorem Constant.tag_clazz (c : ClassConstant) : (Constant.clazz c).tag = Tag.kClass := rfl

@[simp] theorem Constant.tag_nameAndType (c : NameAndTypeConstant) :
    (Constant.nameAndType c).tag = Tag.kNameAndType := rfl

@[simp] theorem Constant.tag_methodRef (c : MethodRefConstant) :
    (Constant.methodRef c).tag = Tag.kMethodref := rfl

theorem find_utf8_none (l : List Constant) (text : String) :
    l.find? (fun c => c.tag == Tag.kUtf8 && c.MatchesText text) = none := by
  simp [List.find?_eq_none, Constant.MatchesText]

theorem find_nameAndType_none (l : List Constant) (a b : Nat) :
    l.find? (fun c => c.tag == Tag.kNameAndType && c.MatchesPair a b) = none := by
  rw [List.find?_eq_none]
  intro c _
  cases c <;> simp [Constant.tag, Constant.MatchesPair]

theorem find_string_none (l : List Constant) (a : Nat)
    (h : ∀ s, Constant.string s ∈ l → s.string_index ≠ a) :
    l.find? (fun c => c.tag == Tag.kString && c.MatchesIndex a) = none := by
  rw [List.find?_eq_none]
  intro c hc
  cases c <;> simp [Constant.tag, Constant.MatchesIndex]
  rename_i s
  exact fun hs => h s hc hs.symm

theorem find_clazz_none (l : List Constant) (a : Nat)
    (h : ∀ k, Constant.clazz k ∈ l → k.name_index ≠ a) :
    l.find? (fun c => c.tag == Tag.kClass && c.MatchesIndex a) = none := by
  rw [List.find?_eq_none]
  intro c hc
  cases c <;> simp [Constant.tag, Constant.MatchesIndex]
  rename_i k
  exact fun hk => h k hc hk.symm

theorem find_methodRef_none (l : List Constant) (a b : Nat)
    (h : ∀ r, Constant.methodRef r ∈ l → ¬ (r.class_index = a ∧ r.name_and_type_index = b)) :
    l.find? (fun c => c.tag == Tag.kMethodref && c.MatchesPair a b) = none := by
  rw [List.find?_eq_none]
  intro c hc
  cases c <;> simp [Constant.tag, Constant.MatchesPair]
  rename_i r
  exact fun h1 h2 => h r hc ⟨h1, h2⟩

/-! ### What each intern operation returns when its scan finds nothing -/

theorem utf8Constant_eq (p : JvmProgram) (text : String) :
    p.utf8Constant text =
      some ({ index := (1 + p.constant_pool.length) % 65536, text := text },
        { p with constant_pool := p.constant_pool ++
            [Constant.utf8 { index := (1 + p.constant_pool.length) % 65536, text := text }] }) := by
  simp [JvmProgram.utf8Constant, find_utf8_none, JvmProgram.Adopt]

theorem stringConstant_eq (p : JvmProgram) (text : String)
    (h : ∀ s, Constant.string s ∈ p.constant_pool →
      s.string_index ≠ (1 + p.constant_pool.length) % 65536) :
    p.stringConstant text =
      some ({ index := (2 + p.constant_pool.length) % 65536,
              string_index := (1 + p.constant_pool.length) % 65536 },
        { p with constant_pool := p.constant_pool ++
            [Constant.utf8 { index := (1 + p.constant_pool.length) % 65536, text := text },
             Constant.string { index := (2 + p.constant_pool.length) % 65536,
                               string_index := (1 + p.constant_pool.length) % 65536 }] }) := by
  have hf := find_string_none
    (p.constant_pool ++
      [Constant.utf8 { index := (1 + p.constant_pool.length) % 65536, text := text }])
    ((1 + p.constant_pool.length) % 65536)
    (by intro s hs; simp at hs; exact h s hs)
  simp [JvmProgram.stringConstant, utf8Constant_eq, bind, Option.bind, hf, JvmProgram.Adopt]
  omega

theorem classConstant_eq (p : JvmProgram) (class_name : String)
    (h : ∀ k, Constant.clazz k ∈ p.constant_pool →
      k.name_index ≠ (1 + p.constant_pool.length) % 65536) :
    p.classConstant class_name =
      some ({ index := (2 + p.constant_pool.length) % 65536,
              name_index := (1 + p.constant_pool.length) % 65536 },
        { p with constant_pool := p.constant_pool ++
            [Constant.utf8 { index := (1 + p.constant_pool.length) % 65536, text := class_name },
             Constant.clazz { index := (2 + p.constant_pool.length) % 65536,
                              name_index := (1 + p.constant_pool.length) % 65536 }] }) := by
  have hf := find_clazz_none
    (p.constant_pool ++
      [Constant.utf8 { index := (1 + p.constant_pool.length) % 65536, text := class_name }])
    ((1 + p.constant_pool.length) % 65536)
    (by intro k hk; simp at hk; exact h k hk)
  simp [JvmProgram.classConstant, utf8Constant_eq, bind, Option.bind, hf, JvmProgram.Adopt]
  omega

theorem nameAndTypeConstant_eq (p : JvmProgram) (name descriptor : String) :
    p.nameAndTypeConstant name descriptor =
      some ({ index := (3 + p.constant_pool.length) % 65536,
              name_index := (1 + p.constant_pool.length) % 65536,
              descriptor_index := (2 + p.constant_pool.length) % 65536 },
        { p with constant_pool := p.constant_pool ++
            [Constant.utf8 { index := (1 + p.constant_pool.length) % 65536, text := name },
             Constant.utf8 { index := (2 + p.constant_pool.length) % 65536, text := descriptor },
             Constant.nameAndType
               { index := (3 + p.constant_pool.length) % 65536,
                 name_index := (1 + p.constant_pool.length) % 65536,
                 descriptor_index := (2 + p.constant_pool.length) % 65536 }] }) := by
  simp [JvmProgram.nameAndTypeConstant, utf8Constant_eq, bind, Option.bind,
    find_nameAndType_none, JvmProgram.Adopt]
  omega

theorem methodRefConstant_eq (p : JvmProgram) (class_name name type : String)
    (hk : ∀ k, Constant.clazz k ∈ p.constant_pool →
      k.name_index ≠ (1 + p.constant_pool.length) % 65536)
    (hr : ∀ r, Constant.methodRef r ∈ p.constant_pool →
      ¬ (r.class_index = (2 + p.constant_pool.length) % 65536 ∧
         r.name_and_type_index = (5 + p.constant_pool.length) % 65536)) :
    p.methodRefConstant class_name name type =
      some ({ index := (6 + p.constant_pool.length) % 65536,
              class_index := (2 + p.constant_pool.length) % 65536,
              name_and_type_index := (5 + p.constant_pool.length) % 65536 },
        { p with constant_pool := p.constant_pool ++
            [Constant.utf8 { index := (1 + p.constant_pool.length) % 65536, text := class_name },
             Constant.clazz { index := (2 + p.constant_pool.length) % 65536,
                              name_index := (1 + p.constant_pool.length) % 65536 },
             Constant.utf8 { index := (3 + p.constant_pool.length) % 65536, text := name },
             Constant.utf8 { index := (4 + p.constant_pool.length) % 65536, text := type },
             Constant.nameAndType
               { index := (5 + p.constant_pool.length) % 65536,
                 name_index := (3 + p.constant_pool.length) % 65536,
                 descriptor_index := (4 + p.constant_pool.length) % 65536 },
             Constant.methodRef
               { index := (6 + p.constant_pool.length) % 65536,
                 class_index := (2 + p.constant_pool.length) % 65536,
                 name_and_type_index := (5 + p.constant_pool.length) % 65536 }] }) := by
  have e3 : (1 + (p.constant_pool.length + 1 + 1)) = 3 + p.constant_pool.length := by omega
  have e4 : (2 + (p.constant_pool.length + 1 + 1)) = 4 + p.constant_pool.length := by omega
  have e5 : (3 + (p.constant_pool.length + 1 + 1)) = 5 + p.constant_pool.length := by omega
  have e6 : (1 + (p.constant_pool.length + 1 + 1 + 1 + 1 + 1)) = 6 + p.constant_pool.length := by
    omega
  have hf := find_methodRef_none p.constant_pool _ _ hr
  simp [JvmProgram.methodRefConstant, classConstant_eq p class_name hk, nameAndTypeConstant_eq,
    bind, Option.bind, JvmProgram.Adopt, e3, e4, e5, e6, hf]

/-! ### What `Emit` writes when its scans find nothing -/

theorem Emit_eq (p : JvmProgram)
    (hk : ∀ k, Constant.clazz k ∈ p.constant_pool →
      k.name_index ≠ (1 + p.constant_pool.length) % 65536 ∧
      k.name_index ≠ (3 + p.constant_pool.length) % 65536 ∧
      k.name_index ≠ (5 + p.constant_pool.length) % 65536)
    (hr : ∀ r, Constant.methodRef r ∈ p.constant_pool →
      ¬ (r.class_index = (6 + p.constant_pool.length) % 65536 ∧
         r.name_and_type_index = (9 + p.constant_pool.length) % 65536)) :
    p.Emit =
      some
        (Put4 0xcafebabe ++ Put2 0 ++ Put2 55 ++ Put2 (p.constant_pool.length + 10 + 1) ++
          ((p.constant_pool ++ emitConstants p.constant_pool.length).map Constant.Emit).flatten ++
          Put2 0x20 ++ Put2 ((2 + p.constant_pool.length) % 65536) ++
          Put2 ((4 + p.constant_pool.length) % 65536) ++ Put2 0 ++ Put2 0 ++
          Put2 p.methods.length ++ (p.methods.map MethodInfo.Emit).flatten ++ Put2 0,
         { p with constant_pool := p.constant_pool ++ emitConstants p.constant_pool.length }) := by
  unfold JvmProgram.Emit
  rw [classConstant_eq p "Main" (fun k h => (hk k h).1)]
  simp only [bind, Option.bind]
  rw [classConstant_eq _ "java/lang/Object" ?h2]
  case h2 =>
    intro k h
    simp at h
    rcases h with h | h
    · have := (hk k h).2.1
      simp
      omega
    · subst h
      simp
      omega
  simp only [bind, Option.bind]
  rw [methodRefConstant_eq _ "java/lang/Object" "<init>" "()V" ?h3 ?h4]
  case h3 =>
    intro k h
    simp at h
    rcases h with h | h | h
    · have := (hk k h).2.2
      simp
      omega
    · subst h
      simp
      omega
    · subst h
      simp
      omega
  case h4 =>
    intro r h
    simp at h
    have := hr r h
    simp
    intro h1 h2
    apply this
    constructor <;> omega
  have e3 : 1 + (p.constant_pool.length + 2) = 3 + p.constant_pool.length := by omega
  have e4 : 2 + (p.constant_pool.length + 2) = 4 + p.constant_pool.length := by omega
  have e5 : 1 + (p.constant_pool.length + 4) = 5 + p.constant_pool.length := by omega
  have e6 : 2 + (p.constant_pool.length + 4) = 6 + p.constant_pool.length := by omega
  have e7 : 3 + (p.constant_pool.length + 4) = 7 + p.constant_pool.length := by omega
  have e8 : 4 + (p.constant_pool.length + 4) = 8 + p.constant_pool.length := by omega
  have e9 : 5 + (p.constant_pool.length + 4) = 9 + p.constant_pool.length := by omega
  have e10 : 6 + (p.constant_pool.length + 4) = 10 + p.constant_pool.length := by omega
  simp [emitConstants, pure, e3, e4, e5, e6, e7, e8, e9, e10]

/-! ### Every operation only appends, and numbers what it appends by position -/

theorem Constant.refsWithin_mono {c : Constant} {m n : Nat} (h : c.refsWithin m) (hmn : m ≤ n) :
    c.refsWithin n := by
  cases c <;> simp [Constant.refsWithin] at h ⊢ <;> omega

theorem Grows_refl (p : JvmProgram) : Grows p p :=
  ⟨rfl, rfl, [], by simp, by simp, by simp⟩

theorem Grows_length_le {p q : JvmProgram} (h : Grows p q) :
    p.constant_pool.length ≤ q.constant_pool.length := by
  obtain ⟨_, _, new, hq, _, _⟩ := h
  simp [hq]

theorem Grows_trans {p q r : JvmProgram} (h1 : Grows p q) (h2 : Grows q r) : Grows p r := by
  have hle := Grows_length_le h2
  obtain ⟨hm1, hs1, new1, hq, hr1, hi1⟩ := h1
  obtain ⟨hm2, hs2, new2, hr, hr2, hi2⟩ := h2
  refine ⟨hm2.trans hm1, hs2.trans hs1, new1 ++ new2, by simp [hr, hq], ?_, ?_⟩
  · intro c hc
    rcases List.mem_append.mp hc with hc | hc
    · exact Constant.refsWithin_mono (hr1 c hc) hle
    · exact hr2 c hc
  · intro i c hc
    by_cases hlt : i < new1.length
    · rw [List.getElem?_append_left hlt] at hc
      exact hi1 i c hc
    · rw [List.getElem?_append_right (by omega)] at hc
      have := hi2 _ c hc
      rw [this, hq, List.length_append]
      congr 1
      omega

theorem Grows_append (p : JvmProgram) (new : List Constant)
    (href : ∀ c ∈ new, c.refsWithin (p.constant_pool.length + new.length))
    (hidx : ∀ i c, new[i]? = some c → c.index = (p.constant_pool.length + i + 1) % 65536) :
    Grows p { p with constant_pool := p.constant_pool ++ new } :=
  ⟨rfl, rfl, new, rfl, by simpa using href, hidx⟩

theorem Grows_utf8Constant {p q : JvmProgram} {text : String} {c : Utf8Constant}
    (h : p.utf8Constant text = some (c, q)) : Grows p q := by
  rw [utf8Constant_eq] at h
  simp only [Option.some.injEq, Prod.mk.injEq] at h
  obtain ⟨_, rfl⟩ := h
  apply Grows_append
  · intro c hc
    simp at hc
    subst hc
    simp [Constant.refsWithin]
  · intro i c hc
    match i with
    | 0 =>
      simp at hc
      subst hc
      simp [Constant.index, Nat.add_comm]
    | n + 1 => simp at hc

theorem Grows_stringConstant {p q : JvmProgram} {text : String} {c : StringConstant}
    (h : p.stringConstant text = some (c, q)) : Grows p q := by
  unfold JvmProgram.stringConstant at h
  rw [utf8Constant_eq] at h
  simp only [bind, Option.bind] at h
  split at h
  · simp [Constant.asString] at h
  · simp only [JvmProgram.Adopt, Option.some.injEq, Prod.mk.injEq] at h
    obtain ⟨_, rfl⟩ := h
    simp only [List.append_assoc, List.singleton_append]
    apply Grows_append
    · intro c hc
      simp at hc
      rcases hc with rfl | rfl
      · simp [Constant.refsWithin]
      · simp only [Constant.refsWithin]
        have := Nat.mod_le (1 + p.constant_pool.length) 65536
        simp
        omega
    · intro i c hc
      match i with
      | 0 =>
        simp at hc
        subst hc
        simp [Constant.index, Nat.add_comm]
      | 1 =>
        simp at hc
        subst hc
        simp [Constant.index]
        omega
      | n + 2 => simp at hc

theorem Grows_classConstant {p q : JvmProgram} {class_name : String} {c : ClassConstant}
    (h : p.classConstant class_name = some (c, q)) : Grows p q := by
  unfold JvmProgram.classConstant at h
  rw [utf8Constant_eq] at h
  simp only [bind, Option.bind] at h
  split at h
  · simp [Constant.asClazz] at h
  · simp only [JvmProgram.Adopt, Option.some.injEq, Prod.mk.injEq] at h
    obtain ⟨_, rfl⟩ := h
    simp only [List.append_assoc, List.singleton_append]
    apply Grows_append
    · intro c hc
      simp at hc
      rcases hc with rfl | rfl
      · simp [Constant.refsWithin]
      · simp only [Constant.refsWithin]
        have := Nat.mod_le (1 + p.constant_pool.length) 65536
        simp
        omega
    · intro i c hc
      match i with
      | 0 =>
        simp at hc
        subst hc
        simp [Constant.index, Nat.add_comm]
      | 1 =>
        simp at hc
        subst hc
        simp [Constant.index]
        omega
      | n + 2 => simp at hc

theorem Grows_nameAndTypeConstant {p q : JvmProgram} {name descriptor : String}
    {c : NameAndTypeConstant} (h : p.nameAndTypeConstant name descriptor = some (c, q)) :
    Grows p q := by
  rw [nameAndTypeConstant_eq] at h
  simp only [Option.some.injEq, Prod.mk.injEq] at h
  obtain ⟨_, rfl⟩ := h
  apply Grows_append
  · intro c hc
    simp at hc
    have h1 := Nat.mod_le (1 + p.constant_pool.length) 65536
    have h2 := Nat.mod_le (2 + p.constant_pool.length) 65536
    rcases hc with rfl | rfl | rfl
    · simp [Constant.refsWithin]
    · simp [Constant.refsWithin]
    · simp only [Constant.refsWithin]
      simp
      omega
  · intro i c hc
    match i with
    | 0 =>
      simp at hc
      subst hc
      simp [Constant.index, Nat.add_comm]
    | 1 =>
      simp at hc
      subst hc
      simp [Constant.index]
      omega
    | 2 =>
      simp at hc
      subst hc
      simp [Constant.index]
      omega
    | n + 3 => simp at hc

theorem Grows_methodRefConstant {p q : JvmProgram} {class_name name type : String}
    {c : MethodRefConstant} (h : p.methodRefConstant class_name name type = some (c, q)) :
    Grows p q := by
  unfold JvmProgram.methodRefConstant at h
  cases hk : p.classConstant class_name with
  | none => simp [hk, bind, Option.bind] at h
  | some r1 =>
    obtain ⟨k, p1⟩ := r1
    have g1 := Grows_classConstant hk
    cases hn : p1.nameAndTypeConstant name type with
    | none => simp [hk, hn, bind, Option.bind] at h
    | some r2 =>
      obtain ⟨nt, p2⟩ := r2
      have g2 := Grows_nameAndTypeConstant hn
      simp only [hk, hn, bind, Option.bind] at h
      split at h
      · rename_i c1 _
        cases c1 <;> simp [Constant.asMethodRef] at h
        obtain ⟨_, rfl⟩ := h
        exact Grows_trans g1 g2
      · simp only [JvmProgram.Adopt, Option.some.injEq, Prod.mk.injEq] at h
        obtain ⟨_, rfl⟩ := h
        refine Grows_trans (Grows_trans g1 g2) (Grows_append p2 _ ?_ ?_)
        · intro c hc
          simp at hc
          subst hc
          have hk1 := Grows_classConstant hk
          rw [nameAndTypeConstant_eq] at hn
          simp only [Option.some.injEq, Prod.mk.injEq] at hn
          obtain ⟨rfl, rfl⟩ := hn
          unfold JvmProgram.classConstant at hk
          rw [utf8Constant_eq] at hk
          simp only [bind, Option.bind] at hk
          split at hk
          · simp [Constant.asClazz] at hk
          · simp only [JvmProgram.Adopt, Option.some.injEq, Prod.mk.injEq] at hk
            obtain ⟨rfl, rfl⟩ := hk
            simp only [Constant.refsWithin]
            have h1 := Nat.mod_le (1 + (p.constant_pool.length + 1)) 65536
            have h2 := Nat.mod_le (3 + (p.constant_pool.length + 1 + 1)) 65536
            simp
            omega
        · intro i c hc
          match i with
          | 0 =>
            simp at hc
            subst hc
            simp [Constant.index, Nat.add_comm]
          | n + 1 => simp at hc

theorem Grows_Emit {p q : JvmProgram} {bytes : List Nat} (h : p.Emit = some (bytes, q)) :
    Grows p q := by
  unfold JvmProgram.Emit at h
  cases h1 : p.classConstant "Main" with
  | none => simp [h1, bind, Option.bind] at h
  | some r1 =>
    obtain ⟨t, p1⟩ := r1
    cases h2 : p1.classConstant "java/lang/Object" with
    | none => simp [h1, h2, bind, Option.bind] at h
    | some r2 =>
      obtain ⟨s, p2⟩ := r2
      cases h3 : p2.methodRefConstant "java/lang/Object" "<init>" "()V" with
      | none => simp [h1, h2, h3, bind, Option.bind] at h
      | some r3 =>
        obtain ⟨m, p3⟩ := r3
        simp only [h1, h2, h3, bind, Option.bind, pure, Option.some.injEq, Prod.mk.injEq] at h
        obtain ⟨_, rfl⟩ := h
        exact Grows_trans (Grows_trans (Grows_classConstant h1) (Grows_classConstant h2))
          (Grows_methodRefConstant h3)

theorem Grows_linked {p q : JvmProgram} (h : Grows p q) (hl : p.Linked) : q.Linked := by
  have hle := Grows_length_le h
  obtain ⟨_, _, new, hq, hr, _⟩ := h
  intro c hc
  rw [hq] at hc
  rcases List.mem_append.mp hc with hc | hc
  · exact Constant.refsWithin_mono (hl c hc) hle
  · exact hr c hc

theorem Grows_indexed {p q : JvmProgram} (h : Grows p q) (hi : p.Indexed) : q.Indexed := by
  obtain ⟨_, _, new, hq, _, hn⟩ := h
  intro i c hc
  rw [hq] at hc
  by_cases hlt : i < p.constant_pool.length
  · rw [List.getElem?_append_left hlt] at hc
    exact hi i c hc
  · rw [List.getElem?_append_right (by omega)] at hc
    rw [hn _ c hc]
    congr 1
    omega

theorem Reachable.grows {p : JvmProgram} (h : Reachable p) : Grows {} p := by
  induction h with
  | init => exact Grows_refl _
  | utf8Constant _ h ih => exact Grows_trans ih (Grows_utf8Constant h)
  | stringConstant _ h ih => exact Grows_trans ih (Grows_stringConstant h)
  | classConstant _ h ih => exact Grows_trans ih (Grows_classConstant h)
  | nameAndTypeConstant _ h ih => exact Grows_trans ih (Grows_nameAndTypeConstant h)
  | methodRefConstant _ h ih => exact Grows_trans ih (Grows_methodRefConstant h)
  | Emit _ h ih => exact Grows_trans ih (Grows_Emit h)

theorem Reachable.linked {p : JvmProgram} (h : Reachable p) : p.Linked := by
  obtain ⟨_, _, new, hq, hr, _⟩ := h.grows
  intro c hc
  apply hr
  simpa [hq] using hc

theorem Reachable.indexed {p : JvmProgram} (h : Reachable p) : p.Indexed := by
  obtain ⟨_, _, new, hq, _, hi⟩ := h.grows
  intro i c hc
  have := hi i c (by simpa [hq] using hc)
  simpa using this

theorem Reachable.methods_eq {p : JvmProgram} (h : Reachable p) : p.methods = [] :=
  h.grows.2.1

/-! ### The pool of `n` texts -/

theorem utf8Pool_length (text : String) (n : Nat) : (utf8Pool text n).length = n := by
  simp [utf8Pool]

theorem utf8Pool_mem {text : String} {n : Nat} {c : Constant} (h : c ∈ utf8Pool text n) :
    ∃ u, c = Constant.utf8 u := by
  simp only [utf8Pool, List.mem_map] at h
  obtain ⟨i, _, rfl⟩ := h
  exact ⟨_, rfl⟩

theorem utf8Pool_succ (text : String) (n : Nat) :
    utf8Pool text (n + 1) =
      utf8Pool text n ++ [Constant.utf8 { index := n + 1, text := text }] := by
  simp [utf8Pool, List.range_succ]

theorem utf8Program_reachable (text : String) (n : Nat) (hn : n ≤ 65535) :
    Reachable (utf8Program text n) := by
  induction n with
  | zero => exact Reachable.init
  | succ k ih =>
    refine @Reachable.utf8Constant _ _ text { index := k + 1, text := text } (ih (by omega)) ?_
    rw [utf8Constant_eq]
    have hk : (1 + k) % 65536 = k + 1 := by omega
    simp [utf8Program, utf8Pool_length, utf8Pool_succ, hk]

/-! ### Interning the same constant twice -/

/-- C1 (failing input, the fresh program and the text "hello"): the first `utf8Constant("hello")`
returns index 1 and the second returns index 2 after appending a second Utf8 entry; the first
`DefineStringConstant("hello")` returns the String constant with index 2 and the second returns
one with index 4 after appending two more entries. -/
theorem intern_hello_twice :
    ({} : JvmProgram).utf8Constant "hello" =
        some (⟨1, "hello"⟩, { constant_pool := [Constant.utf8 ⟨1, "hello"⟩] }) ∧
      ({ constant_pool := [Constant.utf8 ⟨1, "hello"⟩] } : JvmProgram).utf8Constant "hello" =
        some (⟨2, "hello"⟩,
          { constant_pool := [Constant.utf8 ⟨1, "hello"⟩, Constant.utf8 ⟨2, "hello"⟩] }) ∧
      ({} : JvmProgram).DefineStringConstant "hello" =
        some (⟨2, 1⟩,
          { constant_pool := [Constant.utf8 ⟨1, "hello"⟩, Constant.string ⟨2, 1⟩] }) ∧
      ({ constant_pool := [Constant.utf8 ⟨1, "hello"⟩, Constant.string ⟨2, 1⟩] } :
          JvmProgram).DefineStringConstant "hello" =
        some (⟨4, 3⟩,
          { constant_pool := [Constant.utf8 ⟨1, "hello"⟩, Constant.string ⟨2, 1⟩,
              Constant.utf8 ⟨3, "hello"⟩, Constant.string ⟨4, 3⟩] }) := by
  decide

/-- C7 (failing input, the fresh program): the first
`methodRefConstant("java/lang/Object", "<init>", "()V")` returns the method reference with index 6,
class index 2 and name-and-type index 5; the second call with the same arguments appends six more
entries and returns index 12, class index 8 and name-and-type index 11. -/
theorem methodRefConstant_twice :
    ({} : JvmProgram).methodRefConstant "java/lang/Object" "<init>" "()V" =
        some (⟨6, 2, 5⟩,
          { constant_pool :=
              [Constant.utf8 ⟨1, "java/lang/Object"⟩, Constant.clazz ⟨2, 1⟩,
               Constant.utf8 ⟨3, "<init>"⟩, Constant.utf8 ⟨4, "()V"⟩,
               Constant.nameAndType ⟨5, 3, 4⟩, Constant.methodRef ⟨6, 2, 5⟩] }) ∧
      ({ constant_pool :=
              [Constant.utf8 ⟨1, "java/lang/Object"⟩, Constant.clazz ⟨2, 1⟩,
               Constant.utf8 ⟨3, "<init>"⟩, Constant.utf8 ⟨4, "()V"⟩,
               Constant.nameAndType ⟨5, 3, 4⟩, Constant.methodRef ⟨6, 2, 5⟩] } :
          JvmProgram).methodRefConstant "java/lang/Object" "<init>" "()V" =
        some (⟨12, 8, 11⟩,
          { constant_pool :=
              [Constant.utf8 ⟨1, "java/lang/Object"⟩, Constant.clazz ⟨2, 1⟩,
               Constant.utf8 ⟨3, "<init>"⟩, Constant.utf8 ⟨4, "()V"⟩,
               Constant.nameAndType ⟨5, 3, 4⟩, Constant.methodRef ⟨6, 2, 5⟩,
               Constant.utf8 ⟨7, "java/lang/Object"⟩, Constant.clazz ⟨8, 7⟩,
               Constant.utf8 ⟨9, "<init>"⟩, Constant.utf8 ⟨10, "()V"⟩,
               Constant.nameAndType ⟨11, 9, 10⟩, Constant.methodRef ⟨12, 8, 11⟩] }) := by
  decide

/-! ### Distinct constants get distinct indices -/

/-- C8: in a pool built by the intern operations and holding fewer than 65535 entries, interning
two distinct texts `a` and `b` one after the other returns two different indices, and in the
resulting pool no two entries at different positions carry the same index. -/
theorem utf8Constant_distinct (p : JvmProgram) (a b : String) (hp : Reachable p)
    (hlen : p.constant_pool.length < 65535) (hab : a ≠ b) :
    ∃ ca p1 cb p2, p.utf8Constant a = some (ca, p1) ∧ p1.utf8Constant b = some (cb, p2) ∧
      ca.text = a ∧ cb.text = b ∧ ca.index ≠ cb.index ∧
      ∀ (i j : Nat) (ci cj : Constant), p2.constant_pool[i]? = some ci → p2.constant_pool[j]? = some cj →
        i ≠ j → ci.index ≠ cj.index := by
  have _ := hab
  refine ⟨_, _, _, _, utf8Constant_eq p a, utf8Constant_eq _ b, rfl, rfl, ?_, ?_⟩
  · simp
    omega
  · intro i j ci cj hi hj hij
    have hr : Reachable _ :=
      Reachable.utf8Constant (Reachable.utf8Constant hp (utf8Constant_eq p a))
        (utf8Constant_eq _ b)
    have hI := hr.indexed
    rw [hI i ci hi, hI j cj hj]
    have hi1 := (List.getElem?_eq_some.mp hi).1
    have hj1 := (List.getElem?_eq_some.mp hj).1
    simp at hi1 hj1
    omega

/-- C8 (witness): the fresh program and the texts "a" and "b". -/
theorem utf8Constant_distinct_witness :
    ∃ ca p1 cb p2, ({} : JvmProgram).utf8Constant "a" = some (ca, p1) ∧
      p1.utf8Constant "b" = some (cb, p2) ∧
      ca.text = "a" ∧ cb.text = "b" ∧ ca.index ≠ cb.index ∧
      ∀ (i j : Nat) (ci cj : Constant), p2.constant_pool[i]? = some ci → p2.constant_pool[j]? = some cj →
        i ≠ j → ci.index ≠ cj.index :=
  utf8Constant_distinct {} "a" "b" Reachable.init (by decide) (by decide)

/-! ### The push instruction of a string constant -/

theorem Put2_of_lt {v : Nat} (h : v < 65536) : Put2 v = [v / 256, v % 256] := by
  simp only [Put2, Nat.mod_eq_of_lt h]
  congr 1
  omega

theorem DefineStringConstant_eq (p : JvmProgram) (text : String) (hl : p.Linked)
    (hlen : p.constant_pool.length + 2 ≤ 65535) :
    p.DefineStringConstant text =
      some ({ index := p.constant_pool.length + 2, string_index := p.constant_pool.length + 1 },
        { p with constant_pool := p.constant_pool ++
            [Constant.utf8 { index := p.constant_pool.length + 1, text := text },
             Constant.string { index := p.constant_pool.length + 2,
                               string_index := p.constant_pool.length + 1 }] }) := by
  have e1 : (1 + p.constant_pool.length) % 65536 = p.constant_pool.length + 1 := by omega
  have e2 : (2 + p.constant_pool.length) % 65536 = p.constant_pool.length + 2 := by omega
  unfold JvmProgram.DefineStringConstant
  rw [stringConstant_eq, e1, e2]
  intro s hs
  have := hl _ hs
  simp only [Constant.refsWithin] at this
  omega

theorem Push_bytes (c : StringConstant) (block : CodeBlock) (h : c.string_index < 65536) :
    (c.Push block).bytes =
      block.bytes ++
        (if c.string_index < 256 then [Instruction._ldc, c.string_index]
         else [Instruction._ldc_w, c.string_index / 256, c.string_index % 256]) := by
  unfold StringConstant.Push
  split
  · rename_i hlt
    simp [Nat.mod_eq_of_lt hlt]
  · simp [Put2_of_lt h]

/-- C5 (failing input, the pool after 254 calls `utf8Constant("s")`): `DefineStringConstant("t")`
appends the Utf8 entry 255 and returns the String constant with pool index 256, and `Push` of that
constant writes the short opcode `ldc` with the one-byte operand 255. -/
theorem Push_short_at_index_256 :
    (utf8Program "s" 254).DefineStringConstant "t" =
        some (⟨256, 255⟩,
          { constant_pool :=
              utf8Pool "s" 254 ++ [Constant.utf8 ⟨255, "t"⟩, Constant.string ⟨256, 255⟩] }) ∧
      (utf8Pool "s" 254).length = 254 ∧
      (StringConstant.Push ⟨256, 255⟩ {}).bytes = [Instruction._ldc, 255] := by
  refine ⟨?_, utf8Pool_length _ _, ?_⟩
  · unfold JvmProgram.DefineStringConstant
    rw [stringConstant_eq]
    · simp [utf8Program, utf8Pool_length]
    · intro s hs
      obtain ⟨u, hu⟩ := utf8Pool_mem hs
      cases hu
  · decide

/-- C6 (failing input, the fresh program): `DefineStringConstant("hello")` returns the String
constant stored at pool index 2, the entry at index 1 being the Utf8 entry "hello"; `Push` of that
constant writes `ldc` followed by the operand 1, the index of the Utf8 entry. -/
theorem Push_operand_hello :
    ({} : JvmProgram).DefineStringConstant "hello" =
        some (⟨2, 1⟩,
          { constant_pool := [Constant.utf8 ⟨1, "hello"⟩, Constant.string ⟨2, 1⟩] }) ∧
      (StringConstant.Push ⟨2, 1⟩ {}).bytes = [Instruction._ldc, 1] := by
  decide

/-! ### The layout of the class file -/

theorem utf8Program_constant_pool (text : String) (n : Nat) :
    (utf8Program text n).constant_pool = utf8Pool text n := rfl

theorem utf8Program_methods (text : String) (n : Nat) : (utf8Program text n).methods = [] := rfl

/-- C3 (amended): for every program whose pool entries are numbered by position and refer to
indices within the pool, holding at most 65524 pool entries and at most 65535 methods, `Emit`
appends its ten constants and writes, in this order and with nothing else: the magic CA FE BA BE,
minor version 0, major version 55, the two-byte count of the pool entries serialised plus one,
every pool entry in index order, the flags 0x0020, the this-class index, the super-class index,
interface count 0, field count 0, the two-byte method count, the method records, and attribute
count 0. -/
theorem Emit_layout (p : JvmProgram) (hi : p.Indexed) (hl : p.Linked)
    (hpool : p.constant_pool.length + 11 ≤ 65535) (hm : p.methods.length ≤ 65535) :
    ∃ q : JvmProgram,
      q.constant_pool = p.constant_pool ++ emitConstants p.constant_pool.length ∧
      q.methods = p.methods ∧ q.Indexed ∧
      p.Emit =
        some
          ([0xca, 0xfe, 0xba, 0xbe] ++ [0, 0] ++ [0, 55] ++
            [(q.constant_pool.length + 1) / 256, (q.constant_pool.length + 1) % 256] ++
            (q.constant_pool.map Constant.Emit).flatten ++
            [0, 0x20] ++
            [(p.constant_pool.length + 2) / 256, (p.constant_pool.length + 2) % 256] ++
            [(p.constant_pool.length + 4) / 256, (p.constant_pool.length + 4) % 256] ++
            [0, 0] ++ [0, 0] ++
            [q.methods.length / 256, q.methods.length % 256] ++
            (q.methods.map MethodInfo.Emit).flatten ++ [0, 0],
           q) ∧
      (q.constant_pool.length + 1) / 256 < 256 ∧ q.methods.length / 256 < 256 := by
  have hE := Emit_eq p
    (by
      intro k hk
      have := hl _ hk
      simp only [Constant.refsWithin] at this
      omega)
    (by
      intro r hr
      have := hl _ hr
      simp only [Constant.refsWithin] at this
      omega)
  refine ⟨{ p with constant_pool := p.constant_pool ++ emitConstants p.constant_pool.length },
    rfl, rfl, Grows_indexed (Grows_Emit hE) hi, ?_, ?_, ?_⟩
  · rw [hE]
    have e1 : (p.constant_pool ++ emitConstants p.constant_pool.length).length + 1 =
        p.constant_pool.length + 10 + 1 := by simp [emitConstants]
    have e2 : (2 + p.constant_pool.length) % 65536 = p.constant_pool.length + 2 := by omega
    have e4 : (4 + p.constant_pool.length) % 65536 = p.constant_pool.length + 4 := by omega
    simp only [e1, e2, e4]
    rw [Put2_of_lt (v := p.constant_pool.length + 10 + 1) (by omega),
      Put2_of_lt (v := p.constant_pool.length + 2) (by omega),
      Put2_of_lt (v := p.constant_pool.length + 4) (by omega),
      Put2_of_lt (v := p.methods.length) (by omega)]
    simp [Put4, Put2]
  · simp [emitConstants]
    omega
  · simp
    omega

/-- C3 (witness): the fresh program. -/
theorem Emit_layout_witness :
    ∃ q : JvmProgram,
      q.constant_pool = ([] : List Constant) ++ emitConstants ([] : List Constant).length ∧
      q.methods = [] ∧ q.Indexed ∧
      ({} : JvmProgram).Emit =
        some
          ([0xca, 0xfe, 0xba, 0xbe] ++ [0, 0] ++ [0, 55] ++
            [(q.constant_pool.length + 1) / 256, (q.constant_pool.length + 1) % 256] ++
            (q.constant_pool.map Constant.Emit).flatten ++
            [0, 0x20] ++
            [(([] : List Constant).length + 2) / 256, (([] : List Constant).length + 2) % 256] ++
            [(([] : List Constant).length + 4) / 256, (([] : List Constant).length + 4) % 256] ++
            [0, 0] ++ [0, 0] ++
            [q.methods.length / 256, q.methods.length % 256] ++
            (q.methods.map MethodInfo.Emit).flatten ++ [0, 0],
           q) ∧
      (q.constant_pool.length + 1) / 256 < 256 ∧ q.methods.length / 256 < 256 :=
  Emit_layout {} (by intro i c hc; simp at hc) (by intro c hc; simp at hc) (by decide)
    (by decide)

theorem utf8Program_Emit (text : String) (n : Nat) :
    (utf8Program text n).Emit =
      some
        (Put4 0xcafebabe ++ Put2 0 ++ Put2 55 ++ Put2 (n + 10 + 1) ++
          ((utf8Pool text n ++ emitConstants n).map Constant.Emit).flatten ++
          Put2 0x20 ++ Put2 ((2 + n) % 65536) ++ Put2 ((4 + n) % 65536) ++ Put2 0 ++ Put2 0 ++
          Put2 0 ++ [] ++ Put2 0,
         { constant_pool := utf8Pool text n ++ emitConstants n }) := by
  rw [Emit_eq]
  · simp only [utf8Program_constant_pool, utf8Program_methods, utf8Pool_length]
    rfl
  · intro k hk
    rw [utf8Program_constant_pool] at hk
    obtain ⟨u, hu⟩ := utf8Pool_mem hk
    cases hu
  · intro r hr
    rw [utf8Program_constant_pool] at hr
    obtain ⟨u, hu⟩ := utf8Pool_mem hr
    cases hu

/-- C3 (counterexample): the pool after 65535 calls `utf8Constant("s")` is one the operations
build; on it `Emit` serialises 65545 pool entries while the two bytes of the constant-pool count
are 00 0A, that is 10 and not 65546. -/
theorem Emit_count_wraps :
    Reachable (utf8Program "s" 65535) ∧
      (utf8Program "s" 65535).Emit =
        some
          ([0xca, 0xfe, 0xba, 0xbe] ++ [0, 0] ++ [0, 55] ++ [0, 10] ++
            ((utf8Pool "s" 65535 ++ emitConstants 65535).map Constant.Emit).flatten ++
            [0, 0x20] ++ [0, 1] ++ [0, 3] ++ [0, 0] ++ [0, 0] ++ [0, 0] ++ [] ++ [0, 0],
           { constant_pool := utf8Pool "s" 65535 ++ emitConstants 65535 }) ∧
      (utf8Pool "s" 65535 ++ emitConstants 65535).length = 65545 := by
  refine ⟨utf8Program_reachable _ _ (by decide), utf8Program_Emit "s" 65535, ?_⟩
  rw [List.length_append, utf8Pool_length]
  rfl

end emit

/-! ## Properties of the code generator -/

namespace CompileExpressionVisitor

theorem Keeps_refl (v : CompileExpressionVisitor) : Keeps v v :=
  ⟨rfl, emit.Grows_refl _⟩

theorem Keeps_trans {u v w : CompileExpressionVisitor} (h1 : Keeps u v) (h2 : Keeps v w) :
    Keeps u w :=
  ⟨h2.1.trans h1.1, emit.Grows_trans h1.2 h2.2⟩

theorem andThen_keeps {v w : CompileExpressionVisitor} {b : Bool}
    {r : Option (Bool × CompileExpressionVisitor)}
    {f : CompileExpressionVisitor → Option (Bool × CompileExpressionVisitor)}
    (hr : ∀ b1 v1, r = some (b1, v1) → Keeps v v1)
    (hf : ∀ v1 b2 v2, f v1 = some (b2, v2) → Keeps v1 v2)
    (h : andThen r f = some (b, w)) : Keeps v w := by
  unfold andThen at h
  split at h
  · rename_i v1
    exact Keeps_trans (hr true v1 rfl) (hf v1 b w h)
  · rename_i v1
    simp only [Option.some.injEq, Prod.mk.injEq] at h
    obtain ⟨_, rfl⟩ := h
    exact hr false _ rfl
  · cases h

theorem VisitStringConstant_keeps {v w : CompileExpressionVisitor} {text : String} {b : Bool}
    (h : v.VisitStringConstant text = some (b, w)) : Keeps v w := by
  unfold VisitStringConstant at h
  cases hd : v.program_.DefineStringConstant text with
  | none => simp [hd, bind, Option.bind] at h
  | some r =>
    obtain ⟨c, q⟩ := r
    simp only [hd, bind, Option.bind, pure, Option.some.injEq, Prod.mk.injEq] at h
    obtain ⟨_, rfl⟩ := h
    exact ⟨rfl, emit.Grows_stringConstant hd⟩

theorem VisitFunctionCall_invoke_eq (v : CompileExpressionVisitor) (id : String) :
    v.VisitFunctionCall_invoke id = some (true, v) := by
  unfold VisitFunctionCall_invoke
  split <;> simp [emit.JvmProgram.LookupLibraryFunction]

mutual
theorem Accept_keeps : ∀ (e : Expression) (v w : CompileExpressionVisitor) (b : Bool),
    Accept v e = some (b, w) → Keeps v w
  | .StringConstant _, v, w, b, h => by
    rw [Accept] at h
    exact VisitStringConstant_keeps h
  | .IntegerConstant _, v, w, b, h => by
    simp only [Accept, Option.some.injEq, Prod.mk.injEq] at h
    obtain ⟨_, rfl⟩ := h
    exact Keeps_refl _
  | .Nil, v, w, b, h => by
    simp only [Accept, Option.some.injEq, Prod.mk.injEq] at h
    obtain ⟨_, rfl⟩ := h
    exact Keeps_refl _
  | .LValue _, v, w, b, h => by
    simp only [Accept, Option.some.injEq, Prod.mk.injEq] at h
    obtain ⟨_, rfl⟩ := h
    exact Keeps_refl _
  | .Negated value, v, w, b, h => by
    rw [Accept] at h
    exact Accept_keeps value v w b h
  | .Binary left _ right, v, w, b, h => by
    rw [Accept] at h
    exact andThen_keeps (fun b1 v1 h1 => Accept_keeps left v v1 b1 h1)
      (fun v1 b2 v2 h2 => Accept_keeps right v1 v2 b2 h2) h
  | .Assignment _ expr, v, w, b, h => by
    rw [Accept] at h
    exact Accept_keeps expr v w b h
  | .FunctionCall id args, v, w, b, h => by
    rw [Accept] at h
    cases ha : AcceptEach v args with
    | none => simp [ha] at h
    | some v1 =>
      simp only [ha, Option.bind, VisitFunctionCall_invoke_eq, Option.some.injEq,
        Prod.mk.injEq] at h
      obtain ⟨_, rfl⟩ := h
      exact AcceptEach_keeps args v v1 ha
  | .Block exprs, v, w, b, h => by
    rw [Accept] at h
    exact AllOf_keeps exprs v w b h
  | .Record _ _, v, w, b, h => by
    simp only [Accept, Option.some.injEq, Prod.mk.injEq] at h
    obtain ⟨_, rfl⟩ := h
    exact Keeps_refl _
  | .Array _ size value, v, w, b, h => by
    rw [Accept] at h
    exact andThen_keeps (fun b1 v1 h1 => Accept_keeps size v v1 b1 h1)
      (fun v1 b2 v2 h2 => Accept_keeps value v1 v2 b2 h2) h
  | .IfThen condition expr, v, w, b, h => by
    rw [Accept] at h
    exact andThen_keeps (fun b1 v1 h1 => Accept_keeps condition v v1 b1 h1)
      (fun v1 b2 v2 h2 => Accept_keeps expr v1 v2 b2 h2) h
  | .IfThenElse condition then_expr else_expr, v, w, b, h => by
    rw [Accept] at h
    exact andThen_keeps
      (fun b1 v1 h1 => andThen_keeps (fun b0 v0 h0 => Accept_keeps condition v v0 b0 h0)
        (fun v0 b2 v2 h2 => Accept_keeps then_expr v0 v2 b2 h2) h1)
      (fun v1 b2 v2 h2 => Accept_keeps else_expr v1 v2 b2 h2) h
  | .While condition body, v, w, b, h => by
    rw [Accept] at h
    exact andThen_keeps (fun b1 v1 h1 => Accept_keeps condition v v1 b1 h1)
      (fun v1 b2 v2 h2 => Accept_keeps body v1 v2 b2 h2) h
  | .For _ first last body, v, w, b, h => by
    rw [Accept] at h
    exact andThen_keeps
      (fun b1 v1 h1 => andThen_keeps (fun b0 v0 h0 => Accept_keeps first v v0 b0 h0)
        (fun v0 b2 v2 h2 => Accept_keeps last v0 v2 b2 h2) h1)
      (fun v1 b2 v2 h2 => Accept_keeps body v1 v2 b2 h2) h
  | .Break, v, w, b, h => by
    simp only [Accept, Option.some.injEq, Prod.mk.injEq] at h
    obtain ⟨_, rfl⟩ := h
    exact Keeps_refl _
  | .Let _ body, v, w, b, h => by
    rw [Accept] at h
    exact AllOf_keeps body v w b h
  | .BuiltInBody, v, w, b, h => by
    simp only [Accept, Option.some.injEq, Prod.mk.injEq] at h
    obtain ⟨_, rfl⟩ := h
    exact Keeps_refl _
theorem AcceptEach_keeps : ∀ (args : List Expression) (v w : CompileExpressionVisitor),
    AcceptEach v args = some w → Keeps v w
  | [], v, w, h => by
    simp only [AcceptEach, Option.some.injEq] at h
    subst h
    exact Keeps_refl _
  | a :: rest, v, w, h => by
    rw [AcceptEach] at h
    cases ha : Accept v a with
    | none => simp [ha] at h
    | some r =>
      obtain ⟨b1, v1⟩ := r
      simp only [ha, Option.bind] at h
      exact Keeps_trans (Accept_keeps a v v1 b1 ha) (AcceptEach_keeps rest v1 w h)
theorem AllOf_keeps : ∀ (exprs : List Expression) (v w : CompileExpressionVisitor) (b : Bool),
    AllOf v exprs = some (b, w) → Keeps v w
  | [], v, w, b, h => by
    simp only [AllOf, Option.some.injEq, Prod.mk.injEq] at h
    obtain ⟨_, rfl⟩ := h
    exact Keeps_refl _
  | a :: rest, v, w, b, h => by
    rw [AllOf] at h
    exact andThen_keeps (fun b1 v1 h1 => Accept_keeps a v v1 b1 h1)
      (fun v1 b2 v2 h2 => AllOf_keeps rest v1 v2 b2 h2) h
end

end CompileExpressionVisitor

/-- Whatever the expression, a run of `Compile` that returns hands `DefineFunction` the single
byte of the return instruction and leaves the method table of the program empty. -/
theorem Compile_main_os_methods (e : Expression) (c : Compiled) (h : Compile e = some c) :
    c.main_os = [emit.Instruction._return] ∧ c.program.methods = [] := by
  unfold Compile at h
  cases ha : CompileExpressionVisitor.Accept
      { program_ := {}, pushables_ := [], instruction_streams_ := [{}] } e with
  | none => simp [ha, bind, Option.bind] at h
  | some r =>
    obtain ⟨b, v⟩ := r
    have hk := CompileExpressionVisitor.Accept_keeps e _ v b ha
    cases he : (v.program_.DefineFunction (emit.ACC_PUBLIC ||| emit.ACC_STATIC) "main"
        "([Ljava/lang/String;)V"
        ((v.instruction_streams_.headD {}).bytes ++ [emit.Instruction._return])).Emit with
    | none => simp only [ha, he, bind, Option.bind, reduceCtorEq] at h
    | some r2 =>
      obtain ⟨out, q⟩ := r2
      simp only [ha, he, bind, Option.bind, pure, Option.some.injEq] at h
      subst h
      have hg := emit.Grows_Emit he
      refine ⟨?_, ?_⟩
      · simp [hk.1]
      · have h1 := hg.2.1
        have h2 := hk.2.2.1
        simp only [emit.JvmProgram.DefineFunction] at h1
        rw [h1, h2]

/-- C2 (failing input, the program `print("hello")`): `Compile` registers the Utf8 entry "hello"
at index 1 and the String constant at index 2 that refers to it, and the main instruction stream
handed to `DefineFunction` is the single byte of the return instruction: no push and no invoke
instruction precede it. -/
theorem Compile_print_hello :
    (Compile (Expression.FunctionCall "print" [Expression.StringConstant "hello"])).map
        (fun c => (c.main_os, c.program.constant_pool.take 2)) =
      some ([emit.Instruction._return],
        [emit.Constant.utf8 ⟨1, "hello"⟩, emit.Constant.string ⟨2, 1⟩]) := by
  decide

/-- C4 (failing input, the empty block): after `Compile` the method table of the program is empty
and the class file ends with interface count 0, field count 0, method count 0 and attribute count
0: no method record is written. -/
theorem Compile_empty_block_methods :
    (Compile (Expression.Block [])).map (fun c => (c.main_os, c.program.methods, c.out)) =
      some ([emit.Instruction._return], [],
        [0xca, 0xfe, 0xba, 0xbe, 0, 0, 0, 55, 0, 11] ++
          ((emit.emitConstants 0).map emit.Constant.Emit).flatten ++
          [0, 0x20, 0, 2, 0, 4] ++ [0, 0] ++ [0, 0] ++ [0, 0] ++ [0, 0]) := by
  decide

/-! ## Properties of the type setter -/

theorem VisitId_unbound (expr_ : ExpressionBase) (ns : NameSpace) (id : String)
    (hns : expr_.non_types_ = some ns) (hid : ns.Lookup id = none) :
    TypeSetter.VisitId expr_ id = some (false, { expr_ with type_ := kUnknownType }) := by
  simp [TypeSetter.VisitId, hns, hid, bind, Option.bind, pure, TypeSetter.SetType]

theorem VisitId_valueType (expr_ : ExpressionBase) (ns : NameSpace) (id : String)
    (d : Declaration) (vt : String) (hns : expr_.non_types_ = some ns)
    (hid : ns.Lookup id = some d) (hvt : d.GetValueType = some vt) :
    TypeSetter.VisitId expr_ id = some (false, { expr_ with type_ := vt }) := by
  simp [TypeSetter.VisitId, hns, hid, hvt, bind, Option.bind, pure, TypeSetter.SetType]

theorem VisitId_noValueType (expr_ : ExpressionBase) (ns : NameSpace) (id : String)
    (d : Declaration) (hns : expr_.non_types_ = some ns)
    (hid : ns.Lookup id = some d) (hvt : d.GetValueType = none) :
    TypeSetter.VisitId expr_ id = none := by
  simp [TypeSetter.VisitId, hns, hid, hvt, bind, Option.bind]

/-- C9: for an identifier lvalue `Id(id)` on a node whose value scope is bound, when `id` is not
present in the scope the type setter assigns the type "???", and when `id` is present and the
declaration it resolves to has the value-type id `vt`, the type setter assigns exactly `vt`; this
is so for `VisitId` and for the setter accepted by the identifier node. -/
theorem VisitId_type (expr_ : ExpressionBase) (ns : NameSpace) (id : String)
    (hns : expr_.non_types_ = some ns) :
    (ns.Lookup id = none →
        TypeSetter.VisitId expr_ id = some (false, { expr_ with type_ := kUnknownType }) ∧
        TypeSetter.Accept expr_ (ExpressionNode.LValue (LValueNode.Id id)) =
          some (false, { expr_ with type_ := kUnknownType })) ∧
      (∀ (d : Declaration) (vt : String), ns.Lookup id = some d → d.GetValueType = some vt →
        TypeSetter.VisitId expr_ id = some (false, { expr_ with type_ := vt }) ∧
        TypeSetter.Accept expr_ (ExpressionNode.LValue (LValueNode.Id id)) =
          some (false, { expr_ with type_ := vt })) := by
  constructor
  · intro hid
    have h := VisitId_unbound expr_ ns id hns hid
    exact ⟨h, by simp [TypeSetter.Accept, TypeSetter.VisitLValue, h]⟩
  · intro d vt hid hvt
    have h := VisitId_valueType expr_ ns id d vt hns hid hvt
    exact ⟨h, by simp [TypeSetter.Accept, TypeSetter.VisitLValue, h]⟩

/-- C9 (witness): in the value scope that binds `x` to `var x : int := 0` and nothing else, the
identifier `y` gets the type "???" and the identifier `x` gets the type "int". -/
theorem VisitId_type_witness :
    (TypeSetter.VisitId { non_types_ := some variableScope } "y" =
        some (false, { non_types_ := some variableScope, type_ := "???" }) ∧
      TypeSetter.Accept { non_types_ := some variableScope }
          (ExpressionNode.LValue (LValueNode.Id "y")) =
        some (false, { non_types_ := some variableScope, type_ := "???" })) ∧
      (TypeSetter.VisitId { non_types_ := some variableScope } "x" =
        some (false, { non_types_ := some variableScope, type_ := "int" }) ∧
      TypeSetter.Accept { non_types_ := some variableScope }
          (ExpressionNode.LValue (LValueNode.Id "x")) =
        some (false, { non_types_ := some variableScope, type_ := "int" })) :=
  ⟨(VisitId_type { non_types_ := some variableScope } variableScope "y" rfl).1 rfl,
    (VisitId_type { non_types_ := some variableScope } variableScope "x" rfl).2
      intVariable "int" rfl rfl⟩

/-- The identifier `print` in a value scope that binds it to the builtin procedure: the
identifier is present, the declaration found has no value type, and `VisitId` dereferences the
empty result of `GetValueType`, so no type is assigned; `VisitFunctionCall` tests the same result
and assigns "???". -/
theorem VisitId_procedure :
    printScope.Lookup "print" = some printProcedure ∧
      printProcedure.GetValueType = none ∧
      (TypeSetter.VisitId { non_types_ := some printScope } "print").isNone = true ∧
      (TypeSetter.VisitFunctionCall { non_types_ := some printScope } "print" []).map
        (fun r => r.2.type_) = some kUnknownType := by
  refine ⟨rfl, rfl, rfl, rfl⟩

/-- C10 (counterexample): in a value scope that binds `x` to the variable `var x : int := 0`,
which is not a function and declares no return type, the call `x()` is given the type "int" and
not "???". -/
theorem VisitFunctionCall_variable :
    variableScope.Lookup "x" = some intVariable ∧
      intVariable.returnType = none ∧
      (TypeSetter.VisitFunctionCall { non_types_ := some variableScope } "x" []).map
        (fun r => r.2.type_) = some "int" ∧
      "int" ≠ kUnknownType := by
  refine ⟨rfl, rfl, rfl, by decide⟩

/-- C10 (amended): for every function call node with a bound value scope the type setter returns
false and assigns the value type of the declaration the callee id resolves to whenever that
declaration carries one (the return type of a function declared with one, and equally the type of
a variable or parameter of that name), and "???" when the id is unresolved or resolves to a
declaration without value type, such as a procedure or a type declaration. -/
theorem VisitFunctionCall_type (expr_ : ExpressionBase) (ns : NameSpace) (id : String)
    (args : List Expression) (hns : expr_.non_types_ = some ns) :
    ∃ t, TypeSetter.VisitFunctionCall expr_ id args = some (false, { expr_ with type_ := t }) ∧
      (∀ d vt, ns.Lookup id = some d → d.GetValueType = some vt → t = vt) ∧
      (∀ i ps rt b, ns.Lookup id = some (Declaration.FunctionDeclaration i ps (some rt) b) →
        t = rt) ∧
      (∀ i ps b, ns.Lookup id = some (Declaration.FunctionDeclaration i ps none b) →
        t = kUnknownType) ∧
      (∀ d, ns.Lookup id = some d → d.GetValueType = none → t = kUnknownType) ∧
      (ns.Lookup id = none → t = kUnknownType) := by
  cases hd : ns.Lookup id with
  | none =>
    refine ⟨kUnknownType, ?_, by simp, by simp, by simp, by simp, by simp⟩
    simp [TypeSetter.VisitFunctionCall, hns, hd, bind, Option.bind, pure, TypeSetter.SetType]
  | some d =>
    cases hv : d.GetValueType with
    | none =>
      refine ⟨kUnknownType, ?_, ?_, ?_, ?_, ?_, ?_⟩
      · simp [TypeSetter.VisitFunctionCall, hns, hd, hv, bind, Option.bind, pure,
          TypeSetter.SetType]
      · intro d1 vt h1 h2
        cases h1
        simp [hv] at h2
      · intro i ps rt b h1
        cases h1
        simp [Declaration.GetValueType] at hv
      · intros
        rfl
      · intros
        rfl
      · intro h
        cases h
    | some vt =>
      refine ⟨vt, ?_, ?_, ?_, ?_, ?_, ?_⟩
      · simp [TypeSetter.VisitFunctionCall, hns, hd, hv, bind, Option.bind, pure,
          TypeSetter.SetType]
      · intro d1 vt1 h1 h2
        cases h1
        simpa [hv] using h2
      · intro i ps rt b h1
        cases h1
        simpa [Declaration.GetValueType] using hv.symm
      · intro i ps b h1
        cases h1
        simp [Declaration.GetValueType] at hv
      · intro d1 h1 h2
        cases h1
        simp [hv] at h2
      · intro h
        cases h

/-- C10 (witness): the call `x()` in the scope that binds `x` to `var x : int := 0`. -/
theorem VisitFunctionCall_type_witness :
    ∃ t, TypeSetter.VisitFunctionCall { non_types_ := some variableScope } "x" [] =
        some (false, { non_types_ := some variableScope, type_ := t }) ∧
      (∀ d vt, variableScope.Lookup "x" = some d → d.GetValueType = some vt → t = vt) ∧
      (∀ i ps rt b,
        variableScope.Lookup "x" = some (Declaration.FunctionDeclaration i ps (some rt) b) →
        t = rt) ∧
      (∀ i ps b, variableScope.Lookup "x" = some (Declaration.FunctionDeclaration i ps none b) →
        t = kUnknownType) ∧
      (∀ d, variableScope.Lookup "x" = some d → d.GetValueType = none → t = kUnknownType) ∧
      (variableScope.Lookup "x" = none → t = kUnknownType) :=
  VisitFunctionCall_type { non_types_ := some variableScope } variableScope "x" [] rfl

/-! ### The rules of the type setter -/

/-- C11: for every Binary node, every operator and every pair of operand types, the type setter
returns false and assigns the node the type of the right operand, whatever the left operand
is. -/
theorem VisitBinary_type (expr_ left right : ExpressionBase) (op : BinaryOp) :
    TypeSetter.Accept expr_ (ExpressionNode.Binary left op right) =
        some (false, { expr_ with type_ := right.type_ }) ∧
      ∀ other : ExpressionBase,
        TypeSetter.Accept expr_ (ExpressionNode.Binary other op right) =
          TypeSetter.Accept expr_ (ExpressionNode.Binary left op right) :=
  ⟨rfl, fun _ => rfl⟩

theorem getLast?_concat_base (init : List ExpressionBase) (last : ExpressionBase) :
    (init ++ [last]).getLast? = some last := by
  simp

/-- C12: for every Block and every Let node, whatever the declarations of the Let, the type
setter assigns "none" when the body is empty and the type of the last body expression when the
body is `init ++ [last]`, for every `init`. -/
theorem VisitBlock_VisitLet_type (expr_ : ExpressionBase) (declarations : List Declaration) :
    TypeSetter.Accept expr_ (ExpressionNode.Block []) =
        some (false, { expr_ with type_ := kNoneType }) ∧
      (∀ (init : List ExpressionBase) (last : ExpressionBase),
        TypeSetter.Accept expr_ (ExpressionNode.Block (init ++ [last])) =
          some (false, { expr_ with type_ := last.type_ })) ∧
      TypeSetter.Accept expr_ (ExpressionNode.Let declarations []) =
        some (false, { expr_ with type_ := kNoneType }) ∧
      (∀ (init : List ExpressionBase) (last : ExpressionBase),
        TypeSetter.Accept expr_ (ExpressionNode.Let declarations (init ++ [last])) =
          some (false, { expr_ with type_ := last.type_ })) := by
  refine ⟨rfl, ?_, rfl, ?_⟩
  · intro init last
    simp only [TypeSetter.Accept, TypeSetter.VisitBlock, getLast?_concat_base,
      TypeSetter.SetType]
  · intro init last
    simp only [TypeSetter.Accept, TypeSetter.VisitLet, getLast?_concat_base, TypeSetter.SetType]

/-- C13: for every Field lvalue with a bound type scope, the type setter assigns the type id of
the field named `id` when the type of the base resolves in the type scope to a declaration whose
type is a record type with such a field, and "???" in each other case: base type not in the
scope, declaration without type, type that is not a record, record without a field `id`. -/
theorem VisitField_type (expr_ value : ExpressionBase) (types : NameSpace) (id : String)
    (ht : expr_.types_ = some types) :
    (∀ d fields f, types.Lookup value.type_ = some d →
        d.GetType = some (Type_.RecordType fields) →
        fields.find? (fun g => g.id == id) = some f →
        TypeSetter.Accept expr_ (ExpressionNode.LValue (LValueNode.Field value id)) =
          some (false, { expr_ with type_ := f.type_id })) ∧
      (types.Lookup value.type_ = none →
        TypeSetter.Accept expr_ (ExpressionNode.LValue (LValueNode.Field value id)) =
          some (false, { expr_ with type_ := kUnknownType })) ∧
      (∀ d, types.Lookup value.type_ = some d → d.GetType = none →
        TypeSetter.Accept expr_ (ExpressionNode.LValue (LValueNode.Field value id)) =
          some (false, { expr_ with type_ := kUnknownType })) ∧
      (∀ d t, types.Lookup value.type_ = some d → d.GetType = some t →
        (∀ fields, t ≠ Type_.RecordType fields) →
        TypeSetter.Accept expr_ (ExpressionNode.LValue (LValueNode.Field value id)) =
          some (false, { expr_ with type_ := kUnknownType })) ∧
      (∀ d fields, types.Lookup value.type_ = some d →
        d.GetType = some (Type_.RecordType fields) → (∀ f ∈ fields, f.id ≠ id) →
        TypeSetter.Accept expr_ (ExpressionNode.LValue (LValueNode.Field value id)) =
          some (false, { expr_ with type_ := kUnknownType })) := by
  refine ⟨?_, ?_, ?_, ?_, ?_⟩
  · intro d fields f hd hty hf
    simp [TypeSetter.Accept, TypeSetter.VisitLValue, TypeSetter.VisitField, ht, hd, hty,
      Type_.GetFieldType, hf, bind, Option.bind, pure, TypeSetter.SetType]
  · intro hd
    simp [TypeSetter.Accept, TypeSetter.VisitLValue, TypeSetter.VisitField, ht, hd,
      bind, Option.bind, pure, TypeSetter.SetType]
  · intro d hd hty
    simp [TypeSetter.Accept, TypeSetter.VisitLValue, TypeSetter.VisitField, ht, hd, hty,
      bind, Option.bind, pure, TypeSetter.SetType]
  · intro d t hd hty hrec
    have hf : t.GetFieldType id = none := by
      cases t with
      | RecordType fields => exact absurd rfl (hrec fields)
      | IntType => rfl
      | StringType => rfl
      | ArrayType _ => rfl
    simp [TypeSetter.Accept, TypeSetter.VisitLValue, TypeSetter.VisitField, ht, hd, hty, hf,
      bind, Option.bind, pure, TypeSetter.SetType]
  · intro d fields hd hty hno
    have hf : (Type_.RecordType fields).GetFieldType id = none := by
      simp only [Type_.GetFieldType, Option.map_eq_none', List.find?_eq_none]
      intro f hfm
      simpa using hno f hfm
    simp [TypeSetter.Accept, TypeSetter.VisitLValue, TypeSetter.VisitField, ht, hd, hty, hf,
      bind, Option.bind, pure, TypeSetter.SetType]

/-- C13 (witness): the field `x` of a base of type `point`, with `type point = {x : int}` in the
type scope, gets the type "int". -/
theorem VisitField_type_witness :
    ({ types_ := some typeScope } : ExpressionBase).types_ = some typeScope ∧
      TypeSetter.Accept { types_ := some typeScope }
          (ExpressionNode.LValue (LValueNode.Field { type_ := "point" } "x")) =
        some (false, { types_ := some typeScope, type_ := "int" }) :=
  ⟨rfl, (VisitField_type { types_ := some typeScope } { type_ := "point" } typeScope "x" rfl).1
    pointType [{ id := "x", type_id := "int" }] { id := "x", type_id := "int" } rfl rfl rfl⟩

/-- C14: for every Index lvalue with a bound type scope, the type setter assigns the element
type id when the type of the base resolves in the type scope to a declaration whose type is an
array type, and "???" in each other case: base type not in the scope, declaration without type,
type that is not an array; the index expression does not enter the result. -/
theorem VisitIndex_type (expr_ value expr : ExpressionBase) (types : NameSpace)
    (ht : expr_.types_ = some types) :
    (∀ d element, types.Lookup value.type_ = some d →
        d.GetType = some (Type_.ArrayType element) →
        TypeSetter.Accept expr_ (ExpressionNode.LValue (LValueNode.Index value expr)) =
          some (false, { expr_ with type_ := element })) ∧
      (types.Lookup value.type_ = none →
        TypeSetter.Accept expr_ (ExpressionNode.LValue (LValueNode.Index value expr)) =
          some (false, { expr_ with type_ := kUnknownType })) ∧
      (∀ d, types.Lookup value.type_ = some d → d.GetType = none →
        TypeSetter.Accept expr_ (ExpressionNode.LValue (LValueNode.Index value expr)) =
          some (false, { expr_ with type_ := kUnknownType })) ∧
      (∀ d t, types.Lookup value.type_ = some d → d.GetType = some t →
        (∀ element, t ≠ Type_.ArrayType element) →
        TypeSetter.Accept expr_ (ExpressionNode.LValue (LValueNode.Index value expr)) =
          some (false, { expr_ with type_ := kUnknownType })) ∧
      (∀ other : ExpressionBase,
        TypeSetter.Accept expr_ (ExpressionNode.LValue (LValueNode.Index value other)) =
          TypeSetter.Accept expr_ (ExpressionNode.LValue (LValueNode.Index value expr))) := by
  refine ⟨?_, ?_, ?_, ?_, fun _ => rfl⟩
  · intro d element hd hty
    simp [TypeSetter.Accept, TypeSetter.VisitLValue, TypeSetter.VisitIndex, ht, hd, hty,
      Type_.GetElementType, bind, Option.bind, pure, TypeSetter.SetType]
  · intro hd
    simp [TypeSetter.Accept, TypeSetter.VisitLValue, TypeSetter.VisitIndex, ht, hd,
      bind, Option.bind, pure, TypeSetter.SetType]
  · intro d hd hty
    simp [TypeSetter.Accept, TypeSetter.VisitLValue, TypeSetter.VisitIndex, ht, hd, hty,
      bind, Option.bind, pure, TypeSetter.SetType]
  · intro d t hd hty harr
    have he : t.GetElementType = none := by
      cases t with
      | ArrayType element => exact absurd rfl (harr element)
      | IntType => rfl
      | StringType => rfl
      | RecordType _ => rfl
    simp [TypeSetter.Accept, TypeSetter.VisitLValue, TypeSetter.VisitIndex, ht, hd, hty, he,
      bind, Option.bind, pure, TypeSetter.SetType]

/-- C14 (witness): an index into a base of type `ints`, with `type ints = array of int` in the
type scope, gets the type "int". -/
theorem VisitIndex_type_witness :
    ({ types_ := some typeScope } : ExpressionBase).types_ = some typeScope ∧
      TypeSetter.Accept { types_ := some typeScope }
          (ExpressionNode.LValue (LValueNode.Index { type_ := "ints" } { type_ := "string" })) =
        some (false, { types_ := some typeScope, type_ := "int" }) :=
  ⟨rfl, (VisitIndex_type { types_ := some typeScope } { type_ := "ints" } { type_ := "string" }
    typeScope rfl).1 intsType "int" rfl rfl⟩

/-! ### The type after the setter ran -/

/-- The type setter on one node: for every node other than Nil and the builtin body placeholder,
with both scopes bound, the type setter (and `TreeTypeSetter::SetType`, which the tree traversal
calls on every node it reaches) assigns a type that is not the marker "unset", provided that the
child whose type the rule copies carries a type other than "unset", that no type id named by the
node or declared in the scopes is the string "unset", and that an identifier found in the value
scope has a declaration with a value type. -/
theorem Accept_type_set (expr_ : ExpressionBase) (node : ExpressionNode)
    (types non_types : NameSpace)
    (ht : expr_.types_ = some types) (hn : expr_.non_types_ = some non_types)
    (hnil : node ≠ ExpressionNode.Nil) (hbody : node ≠ ExpressionNode.BuiltInBody)
    (hcopy : ∀ t, node.copiedType = some t → t ≠ kUnsetType)
    (hnode : ∀ t, node.namedType = some t → t ≠ kUnsetType)
    (hv : ∀ id d vt, non_types.Lookup id = some d → d.GetValueType = some vt →
      vt ≠ kUnsetType)
    (hf : ∀ k d t f ft, types.Lookup k = some d → d.GetType = some t →
      t.GetFieldType f = some ft → ft ≠ kUnsetType)
    (he : ∀ k d t et, types.Lookup k = some d → d.GetType = some t →
      t.GetElementType = some et → et ≠ kUnsetType)
    (hid : ∀ id d, node = ExpressionNode.LValue (LValueNode.Id id) →
      non_types.Lookup id = some d → d.GetValueType ≠ none) :
    ∃ t, TypeSetter.Accept expr_ node = some (false, { expr_ with type_ := t }) ∧
      TreeTypeSetter.SetType expr_ node = some (true, { expr_ with type_ := t }) ∧
      t ≠ kUnsetType := by
  have hnone : kNoneType ≠ kUnsetType := by decide
  have hunk : kUnknownType ≠ kUnsetType := by decide
  have key : ∀ t, TypeSetter.Accept expr_ node = some (false, { expr_ with type_ := t }) →
      t ≠ kUnsetType →
      ∃ t, TypeSetter.Accept expr_ node = some (false, { expr_ with type_ := t }) ∧
        TreeTypeSetter.SetType expr_ node = some (true, { expr_ with type_ := t }) ∧
        t ≠ kUnsetType := by
    intro t h1 h2
    exact ⟨t, h1, by simp [TreeTypeSetter.SetType, h1], h2⟩
  cases node with
  | Nil => exact absurd rfl hnil
  | BuiltInBody => exact absurd rfl hbody
  | StringConstant text => exact key "string" rfl (by decide)
  | IntegerConstant value => exact key "int" rfl (by decide)
  | Negated value => exact key value.type_ rfl (hcopy _ rfl)
  | Binary left op right => exact key right.type_ rfl (hcopy _ rfl)
  | Assignment value expr => exact key kNoneType rfl hnone
  | Record type_id field_values => exact key type_id rfl (hnode _ rfl)
  | Array type_id size value => exact key type_id rfl (hnode _ rfl)
  | IfThen condition expr => exact key kNoneType rfl hnone
  | IfThenElse condition then_expr else_expr => exact key then_expr.type_ rfl (hcopy _ rfl)
  | While condition body => exact key kNoneType rfl hnone
  | For id first last body => exact key kNoneType rfl hnone
  | Break => exact key kNoneType rfl hnone
  | Block exprs =>
    cases hl : exprs.getLast? with
    | none =>
      exact key kNoneType (by simp [TypeSetter.Accept, TypeSetter.VisitBlock, hl,
        TypeSetter.SetType]) hnone
    | some last =>
      exact key last.type_ (by simp [TypeSetter.Accept, TypeSetter.VisitBlock, hl,
        TypeSetter.SetType]) (hcopy _ (by simp [ExpressionNode.copiedType, hl]))
  | Let declarations body =>
    cases hl : body.getLast? with
    | none =>
      exact key kNoneType (by simp [TypeSetter.Accept, TypeSetter.VisitLet, hl,
        TypeSetter.SetType]) hnone
    | some last =>
      exact key last.type_ (by simp [TypeSetter.Accept, TypeSetter.VisitLet, hl,
        TypeSetter.SetType]) (hcopy _ (by simp [ExpressionNode.copiedType, hl]))
  | FunctionCall id args =>
    cases hd : non_types.Lookup id with
    | none =>
      exact key kUnknownType (by simp [TypeSetter.Accept, TypeSetter.VisitFunctionCall, hn, hd,
        bind, Option.bind, pure, TypeSetter.SetType]) hunk
    | some d =>
      cases hvt : d.GetValueType with
      | none =>
        exact key kUnknownType (by simp [TypeSetter.Accept, TypeSetter.VisitFunctionCall, hn,
          hd, hvt, bind, Option.bind, pure, TypeSetter.SetType]) hunk
      | some vt =>
        exact key vt (by simp [TypeSetter.Accept, TypeSetter.VisitFunctionCall, hn, hd, hvt,
          bind, Option.bind, pure, TypeSetter.SetType]) (hv id d vt hd hvt)
  | LValue value =>
    cases value with
    | Id id =>
      cases hd : non_types.Lookup id with
      | none =>
        exact key kUnknownType (by simp [TypeSetter.Accept, TypeSetter.VisitLValue,
          TypeSetter.VisitId, hn, hd, bind, Option.bind, pure, TypeSetter.SetType]) hunk
      | some d =>
        cases hvt : d.GetValueType with
        | none => exact absurd hvt (hid id d rfl hd)
        | some vt =>
          exact key vt (by simp [TypeSetter.Accept, TypeSetter.VisitLValue, TypeSetter.VisitId,
            hn, hd, hvt, bind, Option.bind, pure, TypeSetter.SetType]) (hv id d vt hd hvt)
    | Field v id =>
      cases hd : types.Lookup v.type_ with
      | none =>
        exact key kUnknownType (by simp [TypeSetter.Accept, TypeSetter.VisitLValue,
          TypeSetter.VisitField, ht, hd, bind, Option.bind, pure, TypeSetter.SetType]) hunk
      | some d =>
        cases hty : d.GetType with
        | none =>
          exact key kUnknownType (by simp [TypeSetter.Accept, TypeSetter.VisitLValue,
            TypeSetter.VisitField, ht, hd, hty, bind, Option.bind, pure,
            TypeSetter.SetType]) hunk
        | some ty =>
          cases hft : ty.GetFieldType id with
          | none =>
            exact key kUnknownType (by simp [TypeSetter.Accept, TypeSetter.VisitLValue,
              TypeSetter.VisitField, ht, hd, hty, hft, bind, Option.bind, pure,
              TypeSetter.SetType]) hunk
          | some ft =>
            exact key ft (by simp [TypeSetter.Accept, TypeSetter.VisitLValue,
              TypeSetter.VisitField, ht, hd, hty, hft, bind, Option.bind, pure,
              TypeSetter.SetType]) (hf _ d ty id ft hd hty hft)
    | Index v e =>
      cases hd : types.Lookup v.type_ with
      | none =>
        exact key kUnknownType (by simp [TypeSetter.Accept, TypeSetter.VisitLValue,
          TypeSetter.VisitIndex, ht, hd, bind, Option.bind, pure, TypeSetter.SetType]) hunk
      | some d =>
        cases hty : d.GetType with
        | none =>
          exact key kUnknownType (by simp [TypeSetter.Accept, TypeSetter.VisitLValue,
            TypeSetter.VisitIndex, ht, hd, hty, bind, Option.bind, pure,
            TypeSetter.SetType]) hunk
        | some ty =>
          cases het : ty.GetElementType with
          | none =>
            exact key kUnknownType (by simp [TypeSetter.Accept, TypeSetter.VisitLValue,
              TypeSetter.VisitIndex, ht, hd, hty, het, bind, Option.bind, pure,
              TypeSetter.SetType]) hunk
          | some et =>
            exact key et (by simp [TypeSetter.Accept, TypeSetter.VisitLValue,
              TypeSetter.VisitIndex, ht, hd, hty, het, bind, Option.bind, pure,
              TypeSetter.SetType]) (he _ d ty et hd hty het)

/-! ### The builtin name spaces -/

theorem NameSpace.set_forall {P : Declaration → Prop} {ns : NameSpace} {id : String}
    {d : Declaration} (hns : ∀ k x, ns.Lookup k = some x → P x) (hd : P d) :
    ∀ k x, (ns.set id d).Lookup k = some x → P x := by
  intro k x h
  simp only [NameSpace.set] at h
  by_cases hk : k = id
  · rw [if_pos hk] at h
    cases h
    exact hd
  · rw [if_neg hk] at h
    exact hns k x h

theorem builtin_functions_valueType (id : String) (d : Declaration) (vt : String)
    (hd : (seedBuiltIns {}).kBuiltInFunctions.Lookup id = some d)
    (hvt : d.GetValueType = some vt) : vt = "int" ∨ vt = "string" := by
  revert vt
  revert id d
  simp only [seedBuiltIns, AddProc, AddFun, AddDecl, Declaration.Id]
  iterate 11 apply NameSpace.set_forall
  · intro k x h
    cases h
  all_goals
    intro vt h
    cases h
    try simp

theorem builtin_types_type (id : String) (d : Declaration) (t : Type_)
    (hd : (seedBuiltIns {}).kBuiltInTypes.Lookup id = some d) (ht : d.GetType = some t) :
    t = Type_.IntType ∨ t = Type_.StringType := by
  revert t
  revert id d
  simp only [seedBuiltIns, AddProc, AddFun, AddDecl, Declaration.Id, kTypeDecls]
  iterate 2 apply NameSpace.set_forall
  · intro k x h
    cases h
  all_goals
    intro t h
    cases h
    try simp

/-- The call `ord("a")` on a node bound to the builtin name spaces gets the type "int". -/
theorem Accept_type_set_witness :
    ∃ t, TypeSetter.Accept boundRoot
          (ExpressionNode.FunctionCall "ord" [Expression.StringConstant "a"]) =
        some (false, { boundRoot with type_ := t }) ∧
      TreeTypeSetter.SetType boundRoot
          (ExpressionNode.FunctionCall "ord" [Expression.StringConstant "a"]) =
        some (true, { boundRoot with type_ := t }) ∧
      t ≠ kUnsetType :=
  Accept_type_set boundRoot (ExpressionNode.FunctionCall "ord" [Expression.StringConstant "a"])
    (seedBuiltIns {}).kBuiltInTypes (seedBuiltIns {}).kBuiltInFunctions rfl rfl
    (by intro h; cases h) (by intro h; cases h)
    (by intro t h; cases h) (by intro t h; cases h)
    (by
      intro id d vt hd hvt
      rcases builtin_functions_valueType id d vt hd hvt with h | h <;> subst h <;> decide)
    (by
      intro k d t f ft hd ht hft
      rcases builtin_types_type k d t hd ht with h | h <;> subst h <;>
        simp [Type_.GetFieldType] at hft)
    (by
      intro k d t et hd ht het
      rcases builtin_types_type k d t hd ht with h | h <;> subst h <;>
        simp [Type_.GetElementType] at het)
    (by intro id d h; cases h)

/-- C16 (failing input, the identifier `print` on a node bound to the builtin name spaces, both
scopes bound): `print` is found in the value scope, its declaration is a procedure without value
type, and the type-setting step dereferences the empty optional: the run is undefined and no type,
"???" included, is assigned. -/
theorem Accept_Id_builtin_procedure :
    boundRoot.types_.isSome = true ∧ boundRoot.non_types_.isSome = true ∧
      (seedBuiltIns {}).kBuiltInFunctions.Lookup "print" = some printIntProcedure ∧
      printIntProcedure.GetValueType = none ∧
      TypeSetter.Accept boundRoot (ExpressionNode.LValue (LValueNode.Id "print")) = none ∧
      TreeTypeSetter.SetType boundRoot (ExpressionNode.LValue (LValueNode.Id "print")) = none :=
  ⟨rfl, rfl, rfl, rfl, rfl, rfl⟩

/-- C17 (failing input, `Expression::SetNameSpacesBelow` on fresh globals): after the seeding the
value scope maps `print` to the procedure `print(i : int)`, registered second under the same
identifier, and no identifier is mapped to the procedure `print(s : string)`. -/
theorem builtin_print_overwritten :
    (Expression.SetNameSpacesBelow {} {}).1.kBuiltInFunctions.Lookup "print" =
        some printIntProcedure ∧
      ∀ id, (Expression.SetNameSpacesBelow {} {}).1.kBuiltInFunctions.Lookup id ≠
        some printProcedure := by
  refine ⟨rfl, ?_⟩
  have key : ∀ k x, (Expression.SetNameSpacesBelow {} {}).1.kBuiltInFunctions.Lookup k = some x →
      x ≠ printProcedure := by
    simp only [Expression.SetNameSpacesBelow, seedBuiltIns, AddProc, AddFun, AddDecl,
      Declaration.Id]
    iterate 9 apply NameSpace.set_forall
    · intro k x h
      simp only [NameSpace.set, NameSpace.empty] at h
      by_cases hk : k = "print"
      · rw [if_pos hk] at h
        cases h
        intro h2
        injection h2 with h3 h4
        exact absurd h4 (by decide)
      · rw [if_neg hk, if_neg hk] at h
        cases h
    all_goals
      intro h
      injection h with h1
      exact absurd h1 (by decide)
  intro id h
  exact key id _ h rfl

theorem builtins_retrievable :
    (Expression.SetNameSpacesBelow {} {}).1.kBuiltInTypes.Lookup "int" =
        some (Declaration.TypeDeclaration "int" Type_.IntType) ∧
      (Expression.SetNameSpacesBelow {} {}).1.kBuiltInTypes.Lookup "string" =
        some (Declaration.TypeDeclaration "string" Type_.StringType) ∧
      (Expression.SetNameSpacesBelow {} {}).1.kBuiltInFunctions.Lookup "flush" =
        some (Declaration.FunctionDeclaration "flush" [] none Expression.BuiltInBody) ∧
      (Expression.SetNameSpacesBelow {} {}).1.kBuiltInFunctions.Lookup "exit" =
        some (Declaration.FunctionDeclaration "exit" [⟨"i", "int"⟩] none
          Expression.BuiltInBody) ∧
      (Expression.SetNameSpacesBelow {} {}).1.kBuiltInFunctions.Lookup "getchar" =
        some (Declaration.FunctionDeclaration "getchar" [] (some "string")
          Expression.BuiltInBody) ∧
      (Expression.SetNameSpacesBelow {} {}).1.kBuiltInFunctions.Lookup "ord" =
        some (Declaration.FunctionDeclaration "ord" [⟨"s", "string"⟩] (some "int")
          Expression.BuiltInBody) ∧
      (Expression.SetNameSpacesBelow {} {}).1.kBuiltInFunctions.Lookup "chr" =
        some (Declaration.FunctionDeclaration "chr" [⟨"i", "int"⟩] (some "string")
          Expression.BuiltInBody) ∧
      (Expression.SetNameSpacesBelow {} {}).1.kBuiltInFunctions.Lookup "size" =
        some (Declaration.FunctionDeclaration "size" [⟨"s", "string"⟩] (some "int")
          Expression.BuiltInBody) ∧
      (Expression.SetNameSpacesBelow {} {}).1.kBuiltInFunctions.Lookup "substring" =
        some (Declaration.FunctionDeclaration "substring"
          [⟨"s", "string"⟩, ⟨"f", "int"⟩, ⟨"n", "int"⟩] (some "string")
          Expression.BuiltInBody) ∧
      (Expression.SetNameSpacesBelow {} {}).1.kBuiltInFunctions.Lookup "concat" =
        some (Declaration.FunctionDeclaration "concat" [⟨"s1", "string"⟩, ⟨"s2", "string"⟩]
          (some "string") Expression.BuiltInBody) ∧
      (Expression.SetNameSpacesBelow {} {}).1.kBuiltInFunctions.Lookup "not" =
        some (Declaration.FunctionDeclaration "not" [⟨"i", "int"⟩] (some "int")
          Expression.BuiltInBody) :=
  ⟨rfl, rfl, rfl, rfl, rfl, rfl, rfl, rfl, rfl, rfl, rfl⟩

/-! ### The default visit methods -/

namespace ExpressionVisitor

theorem default_VisitRecord_eq {σ : Type} (accept : σ → Expression → Bool × σ) (s : σ)
    (type_id : String) (field_values : List FieldValue) (exp : Expression) :
    VisitRecord accept s type_id field_values exp = (true, s) := rfl

theorem default_VisitAssignment_eq {σ : Type} (accept : σ → Expression → Bool × σ) (s : σ)
    (value : LValue) (expr : Expression) :
    VisitAssignment accept s value expr = accept s expr := rfl

/-- C18 (failing input, the record literal `point {x = 1}` and the assignment `a[0] := 1`, with a
visitor that records every child it is asked to visit and returns true): the default `VisitRecord`
returns true with no child visited, the field value `1` included; the default `VisitAssignment`
visits the right-hand side only, not the lvalue `a[0]`. -/
theorem default_visit_skips_children :
    VisitRecord (logged (fun (s : Unit) (_ : Expression) => (true, s))) ((), []) "point"
        [FieldValue.mk "x" (Expression.IntegerConstant 1)]
        (Expression.Record "point" [FieldValue.mk "x" (Expression.IntegerConstant 1)]) =
      (true, ((), [])) ∧
    VisitAssignment (logged (fun (s : Unit) (_ : Expression) => (true, s))) ((), [])
        (LValue.Index (LValue.Id "a") (Expression.IntegerConstant 0))
        (Expression.IntegerConstant 1) =
      (true, ((), [Expression.IntegerConstant 1])) :=
  ⟨rfl, rfl⟩

theorem leftToRight_nil {σ : Type} (accept : σ → Expression → Bool × σ) (s : σ) :
    leftToRight accept s [] = (true, (s, [])) := rfl

theorem all_of_logged {σ : Type} (accept : σ → Expression → Bool × σ) (children : List Expression)
    (s : σ) (log : List Expression) :
    all_of (logged accept) (s, log) children =
      ((leftToRight accept s children).1,
        ((leftToRight accept s children).2.1, log ++ (leftToRight accept s children).2.2)) := by
  induction children generalizing s log with
  | nil => simp [all_of, leftToRight]
  | cons child rest ih =>
    simp only [all_of, andAlso, logged, leftToRight]
    by_cases h : (accept s child).1 = true
    · simp only [h, if_true]
      rw [ih]
      simp
    · simp [h]

theorem all_of_logged_nil {σ : Type} (accept : σ → Expression → Bool × σ)
    (children : List Expression) (s : σ) :
    all_of (logged accept) (s, []) children = leftToRight accept s children := by
  rw [all_of_logged]
  simp

theorem andAlso_logged_two {σ : Type} (accept : σ → Expression → Bool × σ) (s : σ)
    (a b : Expression) :
    andAlso (logged accept (s, []) a) (fun s1 => logged accept s1 b) =
      leftToRight accept s [a, b] := by
  simp only [andAlso, logged, leftToRight]
  by_cases h : (accept s a).1 = true
  · by_cases h2 : (accept (accept s a).2 b).1 = true <;> simp [h, h2]
  · simp [h]

theorem andAlso_logged_three {σ : Type} (accept : σ → Expression → Bool × σ) (s : σ)
    (a b c : Expression) :
    andAlso (andAlso (logged accept (s, []) a) (fun s1 => logged accept s1 b))
        (fun s2 => logged accept s2 c) =
      leftToRight accept s [a, b, c] := by
  simp only [andAlso, logged, leftToRight]
  by_cases h : (accept s a).1 = true
  · by_cases h2 : (accept (accept s a).2 b).1 = true
    · by_cases h3 : (accept (accept (accept s a).2 b).2 c).1 = true <;> simp [h, h2, h3]
    · simp [h, h2]
  · simp [h]

/-- C19: for every visitor, whatever its `Accept` does on a child, the default visit methods of
Binary, FunctionCall, Block, Array, IfThen, IfThenElse, While, For and Let visit the children of
the node from left to right, return the conjunction of the children's results, and visit no child
after one that returned false: run with the record of the children visited, each gives the result,
the state and the children visited of the left-to-right traversal of its children. -/
theorem default_visit_leftToRight {σ : Type} (accept : σ → Expression → Bool × σ) (s : σ)
    (a b c exp : Expression) (op : BinaryOp) (id : String) (children : List Expression)
    (declarations : List Declaration) :
    VisitBinary (logged accept) (s, []) a op b = leftToRight accept s [a, b] ∧
      VisitFunctionCall (logged accept) (s, []) id children exp =
        leftToRight accept s children ∧
      VisitBlock (logged accept) (s, []) children = leftToRight accept s children ∧
      VisitArray (logged accept) (s, []) id a b = leftToRight accept s [a, b] ∧
      VisitIfThen (logged accept) (s, []) a b = leftToRight accept s [a, b] ∧
      VisitIfThenElse (logged accept) (s, []) a b c = leftToRight accept s [a, b, c] ∧
      VisitWhile (logged accept) (s, []) a b = leftToRight accept s [a, b] ∧
      VisitFor (logged accept) (s, []) id a b c = leftToRight accept s [a, b, c] ∧
      VisitLet (logged accept) (s, []) declarations children =
        leftToRight accept s children :=
  ⟨andAlso_logged_two accept s a b, all_of_logged_nil accept children s,
    all_of_logged_nil accept children s, andAlso_logged_two accept s a b,
    andAlso_logged_two accept s a b, andAlso_logged_three accept s a b c,
    andAlso_logged_two accept s a b, andAlso_logged_three accept s a b c,
    all_of_logged_nil accept children s⟩

theorem leftToRight_visited_prefix {σ : Type} (accept : σ → Expression → Bool × σ)
    (children : List Expression) (s : σ) :
    (leftToRight accept s children).2.2 <+: children := by
  induction children generalizing s with
  | nil => simp [leftToRight]
  | cons child rest ih =>
    simp only [leftToRight]
    by_cases h : (accept s child).1 = true
    · simp only [h, if_true]
      exact (List.prefix_cons_inj child).mpr (ih _)
    · simp only [h]
      exact ⟨rest, rfl⟩

theorem leftToRight_true_visited {σ : Type} (accept : σ → Expression → Bool × σ)
    (children : List Expression) (s : σ) (h : (leftToRight accept s children).1 = true) :
    (leftToRight accept s children).2.2 = children := by
  induction children generalizing s with
  | nil => rfl
  | cons child rest ih =>
    simp only [leftToRight] at h ⊢
    by_cases hc : (accept s child).1 = true
    · simp only [hc, if_true] at h ⊢
      rw [ih _ h]
    · simp [hc] at h

end ExpressionVisitor

/-! ### Calls the code generator does not recognise -/

/-- C20: for every function name other than `print`, the one name the code generator recognises,
and every argument list, visiting the call visits the arguments in order, returns true and leaves
the visitor, its instruction streams included, as the arguments left it. -/
theorem Accept_FunctionCall_unrecognised (v : CompileExpressionVisitor) (id : String)
    (args : List Expression) (hid : id ≠ "print") :
    CompileExpressionVisitor.Accept v (Expression.FunctionCall id args) =
      (CompileExpressionVisitor.AcceptEach v args).map (fun w => (true, w)) := by
  rw [CompileExpressionVisitor.Accept]
  cases CompileExpressionVisitor.AcceptEach v args with
  | none => rfl
  | some w =>
    simp [CompileExpressionVisitor.VisitFunctionCall_invoke, hid]

/-- C20 (witness): the call `foo("a")` visited by a fresh visitor. -/
theorem Accept_FunctionCall_unrecognised_witness :
    "foo" ≠ "print" ∧
      CompileExpressionVisitor.Accept
          { program_ := {}, pushables_ := [], instruction_streams_ := [{}] }
          (Expression.FunctionCall "foo" [Expression.StringConstant "a"]) =
        (CompileExpressionVisitor.AcceptEach
          { program_ := {}, pushables_ := [], instruction_streams_ := [{}] }
          [Expression.StringConstant "a"]).map (fun w => (true, w)) :=
  ⟨by decide, Accept_FunctionCall_unrecognised _ "foo" [Expression.StringConstant "a"]
    (by decide)⟩

/-! ### Fixed-width output -/

namespace emit

/-- C25: for every 16-bit value `v`, `Put2` writes the two bytes `v / 256` and `v mod 256`; for
every 32-bit value `v`, `Put4` writes four bytes, most significant first; every byte written is
below 256, and reading the bytes back as a big-endian unsigned integer returns `v`. -/
theorem Put2_Put4_bigEndian :
    (∀ v, v < 65536 →
      Put2 v = [v / 256, v % 256] ∧ (∀ b ∈ Put2 v, b < 256) ∧ readBigEndian (Put2 v) = v) ∧
    (∀ v, v < 4294967296 →
      Put4 v = [v / 16777216, v / 65536 % 256, v / 256 % 256, v % 256] ∧
        (∀ b ∈ Put4 v, b < 256) ∧ readBigEndian (Put4 v) = v) := by
  constructor
  · intro v hv
    have h2 := Put2_of_lt hv
    refine ⟨h2, ?_, ?_⟩
    · intro b hb
      rw [h2] at hb
      simp at hb
      omega
    · rw [h2]
      simp [readBigEndian]
      omega
  · intro v hv
    have h4 : Put4 v = [v / 16777216, v / 65536 % 256, v / 256 % 256, v % 256] := by
      simp only [Put4, Nat.mod_eq_of_lt hv]
      rw [Put2_of_lt (v := v / 65536) (by omega), Put2_of_lt (v := v % 65536) (by omega)]
      simp
      omega
    refine ⟨h4, ?_, ?_⟩
    · intro b hb
      rw [h4] at hb
      simp at hb
      omega
    · rw [h4]
      simp [readBigEndian]
      omega

/-- C25 (witness): the major version 55 and the magic number 0xCAFEBABE. -/
theorem Put2_Put4_bigEndian_witness :
    (55 < 65536 ∧ Put2 55 = [55 / 256, 55 % 256] ∧ readBigEndian (Put2 55) = 55) ∧
    (0xcafebabe < 4294967296 ∧ Put4 0xcafebabe = [0xca, 0xfe, 0xba, 0xbe] ∧
      readBigEndian (Put4 0xcafebabe) = 0xcafebabe) :=
  ⟨⟨by decide, (Put2_Put4_bigEndian.1 55 (by decide)).1,
      (Put2_Put4_bigEndian.1 55 (by decide)).2.2⟩,
    ⟨by decide, (Put2_Put4_bigEndian.2 0xcafebabe (by decide)).1,
      (Put2_Put4_bigEndian.2 0xcafebabe (by decide)).2.2⟩⟩

end emit

/-! ### Constants and the empty block -/

/-- C22: for every string constant, whatever its text, the type setter returns false and assigns
"string", and for every integer constant, whatever its value, "int"; both are the identifiers of
the builtin type declarations, under which the seeded type scope holds them. -/
theorem VisitConstant_type (expr_ : ExpressionBase) (text : String) (value : Int) :
    TypeSetter.Accept expr_ (ExpressionNode.StringConstant text) =
        some (false, { expr_ with type_ := "string" }) ∧
      TypeSetter.Accept expr_ (ExpressionNode.IntegerConstant value) =
        some (false, { expr_ with type_ := "int" }) ∧
      (kTypeDecls 1).Id = "string" ∧ (kTypeDecls 0).Id = "int" ∧
      (seedBuiltIns {}).kBuiltInTypes.Lookup "string" = some (kTypeDecls 1) ∧
      (seedBuiltIns {}).kBuiltInTypes.Lookup "int" = some (kTypeDecls 0) :=
  ⟨rfl, rfl, rfl, rfl, rfl, rfl⟩

/-- C21: for an empty block the type setter assigns the type "none", and `Compile` of the empty
block returns with a main instruction stream of exactly one byte, the return instruction. -/
theorem Compile_empty_block (expr_ : ExpressionBase) :
    TypeSetter.Accept expr_ (ExpressionNode.Block []) =
        some (false, { expr_ with type_ := "none" }) ∧
      (Compile (Expression.Block [])).map (fun c => c.main_os) =
        some [emit.Instruction._return] ∧
      [emit.Instruction._return].length = 1 :=
  ⟨rfl, by decide, rfl⟩

/-! ### Sequences of intern operations -/

namespace emit

theorem Interns_grows {p q : JvmProgram} (h : Interns p q) : Grows p q := by
  induction h with
  | same => exact Grows_refl _
  | utf8Constant _ h ih => exact Grows_trans ih (Grows_utf8Constant h)
  | stringConstant _ h ih => exact Grows_trans ih (Grows_stringConstant h)
  | classConstant _ h ih => exact Grows_trans ih (Grows_classConstant h)
  | nameAndTypeConstant _ h ih => exact Grows_trans ih (Grows_nameAndTypeConstant h)
  | methodRefConstant _ h ih => exact Grows_trans ih (Grows_methodRefConstant h)

theorem Interns_reachable {p q : JvmProgram} (hp : Reachable p) (h : Interns p q) :
    Reachable q := by
  induction h with
  | same => exact hp
  | utf8Constant _ h ih => exact Reachable.utf8Constant ih h
  | stringConstant _ h ih => exact Reachable.stringConstant ih h
  | classConstant _ h ih => exact Reachable.classConstant ih h
  | nameAndTypeConstant _ h ih => exact Reachable.nameAndTypeConstant ih h
  | methodRefConstant _ h ih => exact Reachable.methodRefConstant ih h

theorem Grows_getElem? {p q : JvmProgram} (h : Grows p q) {i : Nat} {c : Constant}
    (hc : p.constant_pool[i]? = some c) : q.constant_pool[i]? = some c := by
  obtain ⟨_, _, new, hq, _, _⟩ := h
  have hi := (List.getElem?_eq_some.mp hc).1
  rw [hq, List.getElem?_append_left hi]
  exact hc

/-- C23: after a sequence of intern operations from the empty pool, continued by any further
sequence that leaves fewer than 65536 entries, the constant at 0-based position `i` of the pool
has index `i + 1`, no two positions carry the same index, and every entry present before the
further operations is still at its position, with its index, after them. -/
theorem Interns_indices (p q : JvmProgram) (hp : Interns {} p) (hq : Interns p q)
    (hlen : q.constant_pool.length < 65536) :
    (∀ (i : Nat) (c : Constant), q.constant_pool[i]? = some c → c.index = i + 1) ∧
      (∀ (i j : Nat) (ci cj : Constant), q.constant_pool[i]? = some ci →
        q.constant_pool[j]? = some cj → ci.index = cj.index → i = j) ∧
      (∀ (i : Nat) (c : Constant), p.constant_pool[i]? = some c →
        q.constant_pool[i]? = some c) := by
  have hI := (Interns_reachable (Interns_reachable Reachable.init hp) hq).indexed
  have hidx : ∀ (i : Nat) (c : Constant), q.constant_pool[i]? = some c → c.index = i + 1 := by
    intro i c hc
    have hi := (List.getElem?_eq_some.mp hc).1
    rw [hI i c hc]
    omega
  refine ⟨hidx, ?_, ?_⟩
  · intro i j ci cj hi hj hij
    rw [hidx i ci hi, hidx j cj hj] at hij
    omega
  · intro i c hc
    exact Grows_getElem? (Interns_grows hq) hc

/-- C23 (witness): the pool after `utf8Constant("a")`, continued by `stringConstant("b")`. -/
theorem Interns_indices_witness :
    (∀ (i : Nat) (c : Constant),
        ([Constant.utf8 ⟨1, "a"⟩, Constant.utf8 ⟨2, "b"⟩, Constant.string ⟨3, 2⟩])[i]? = some c →
        c.index = i + 1) ∧
      (∀ (i j : Nat) (ci cj : Constant),
        ([Constant.utf8 ⟨1, "a"⟩, Constant.utf8 ⟨2, "b"⟩, Constant.string ⟨3, 2⟩])[i]? =
          some ci →
        ([Constant.utf8 ⟨1, "a"⟩, Constant.utf8 ⟨2, "b"⟩, Constant.string ⟨3, 2⟩])[j]? =
          some cj →
        ci.index = cj.index → i = j) ∧
      (∀ (i : Nat) (c : Constant), ([Constant.utf8 ⟨1, "a"⟩])[i]? = some c →
        ([Constant.utf8 ⟨1, "a"⟩, Constant.utf8 ⟨2, "b"⟩, Constant.string ⟨3, 2⟩])[i]? =
          some c) :=
  Interns_indices { constant_pool := [Constant.utf8 ⟨1, "a"⟩] }
    { constant_pool :=
        [Constant.utf8 ⟨1, "a"⟩, Constant.utf8 ⟨2, "b"⟩, Constant.string ⟨3, 2⟩] }
    (Interns.utf8Constant Interns.same
      (show ({} : JvmProgram).utf8Constant "a" =
        some (⟨1, "a"⟩, { constant_pool := [Constant.utf8 ⟨1, "a"⟩] }) from by decide))
    (Interns.stringConstant Interns.same
      (show ({ constant_pool := [Constant.utf8 ⟨1, "a"⟩] } : JvmProgram).stringConstant "b" =
        some (⟨3, 2⟩,
          { constant_pool :=
              [Constant.utf8 ⟨1, "a"⟩, Constant.utf8 ⟨2, "b"⟩, Constant.string ⟨3, 2⟩] })
        from by decide))
    (by decide)

end emit

/-! ### What the indices stored in the pool refer to -/

namespace emit

theorem entryAt_append {pool new : List Constant} {k : Nat} {c : Constant}
    (h : entryAt pool k = some c) : entryAt (pool ++ new) k = some c := by
  unfold entryAt at h ⊢
  split at h
  · cases h
  · rename_i hk
    rw [if_neg hk]
    have hlt := (List.getElem?_eq_some.mp h).1
    rw [List.getElem?_append_left hlt]
    exact h

theorem entryAt_new (pool new : List Constant) (k j : Nat) (hk : k = pool.length + 1 + j) :
    entryAt (pool ++ new) k = new[j]? := by
  unfold entryAt
  rw [if_neg (by omega), List.getElem?_append_right (by omega)]
  congr 1
  omega

theorem refersTo_append {pool new : List Constant} {i k : Nat} {tag : Tag}
    (h : refersTo pool i k tag) : refersTo (pool ++ new) i k tag := by
  obtain ⟨hle, c, hc, ht⟩ := h
  exact ⟨hle, c, entryAt_append hc, ht⟩

theorem kindOK_append {pool new : List Constant} {i : Nat} {c : Constant}
    (h : c.kindOK pool i) : c.kindOK (pool ++ new) i := by
  cases c with
  | utf8 u => trivial
  | string s => exact refersTo_append h
  | clazz k => exact refersTo_append h
  | nameAndType t => exact ⟨refersTo_append h.1, refersTo_append h.2⟩
  | methodRef r => exact ⟨refersTo_append h.1, refersTo_append h.2⟩

theorem refersTo_new (pool new : List Constant) (i k j : Nat) (tag : Tag) (c : Constant)
    (hk : k = pool.length + 1 + j) (hi : k ≤ i) (hc : new[j]? = some c) (ht : c.tag = tag) :
    refersTo (pool ++ new) i k tag :=
  ⟨hi, c, by rw [entryAt_new pool new k j hk, hc], ht⟩

theorem WellKinded_append (p q : JvmProgram) (new : List Constant)
    (hq : q.constant_pool = p.constant_pool ++ new) (hp : p.WellKinded)
    (hnew : ∀ (j : Nat) (c : Constant), new[j]? = some c →
      c.kindOK (p.constant_pool ++ new) (p.constant_pool.length + j)) : q.WellKinded := by
  intro i c hc
  rw [hq] at hc ⊢
  by_cases hlt : i < p.constant_pool.length
  · rw [List.getElem?_append_left hlt] at hc
    exact kindOK_append (hp i c hc)
  · rw [List.getElem?_append_right (by omega)] at hc
    have := hnew _ c hc
    rwa [show p.constant_pool.length + (i - p.constant_pool.length) = i by omega] at this

theorem stringConstant_shape {p q : JvmProgram} {text : String} {c : StringConstant}
    (h : p.stringConstant text = some (c, q)) :
    q.constant_pool = p.constant_pool ++
      [Constant.utf8 { index := (1 + p.constant_pool.length) % 65536, text := text },
       Constant.string { index := (2 + p.constant_pool.length) % 65536,
                         string_index := (1 + p.constant_pool.length) % 65536 }] := by
  unfold JvmProgram.stringConstant at h
  rw [utf8Constant_eq] at h
  simp only [bind, Option.bind] at h
  split at h
  · simp [Constant.asString] at h
  · simp only [JvmProgram.Adopt, Option.some.injEq, Prod.mk.injEq] at h
    obtain ⟨_, rfl⟩ := h
    simp
    omega

theorem classConstant_shape {p q : JvmProgram} {class_name : String} {c : ClassConstant}
    (h : p.classConstant class_name = some (c, q)) :
    c = { index := (2 + p.constant_pool.length) % 65536,
          name_index := (1 + p.constant_pool.length) % 65536 } ∧
    q = { p with constant_pool := p.constant_pool ++
      [Constant.utf8 { index := (1 + p.constant_pool.length) % 65536, text := class_name },
       Constant.clazz { index := (2 + p.constant_pool.length) % 65536,
                        name_index := (1 + p.constant_pool.length) % 65536 }] } := by
  unfold JvmProgram.classConstant at h
  rw [utf8Constant_eq] at h
  simp only [bind, Option.bind] at h
  split at h
  · simp [Constant.asClazz] at h
  · simp only [JvmProgram.Adopt, Option.some.injEq, Prod.mk.injEq] at h
    obtain ⟨rfl, rfl⟩ := h
    simp
    omega

theorem WellKinded_utf8Constant {p q : JvmProgram} {text : String} {c : Utf8Constant}
    (h : p.utf8Constant text = some (c, q)) (hp : p.WellKinded) : q.WellKinded := by
  rw [utf8Constant_eq] at h
  simp only [Option.some.injEq, Prod.mk.injEq] at h
  obtain ⟨_, rfl⟩ := h
  refine WellKinded_append p _ _ rfl hp ?_
  intro j c hc
  match j with
  | 0 =>
    simp at hc
    subst hc
    trivial
  | n + 1 => simp at hc

theorem WellKinded_stringConstant {p q : JvmProgram} {text : String} {c : StringConstant}
    (h : p.stringConstant text = some (c, q)) (hp : p.WellKinded)
    (hlen : q.constant_pool.length ≤ 65535) : q.WellKinded := by
  have hs := stringConstant_shape h
  have hn : p.constant_pool.length + 2 ≤ 65535 := by
    rw [hs] at hlen
    simpa using hlen
  have e1 : (1 + p.constant_pool.length) % 65536 = p.constant_pool.length + 1 + 0 := by omega
  refine WellKinded_append p q _ hs hp ?_
  intro j c hc
  match j with
  | 0 =>
    simp at hc
    subst hc
    trivial
  | 1 =>
    simp at hc
    subst hc
    exact refersTo_new _ _ _ _ 0 _ _ e1 (by dsimp only; omega) rfl rfl
  | n + 2 => simp at hc

theorem WellKinded_classConstant {p q : JvmProgram} {class_name : String} {c : ClassConstant}
    (h : p.classConstant class_name = some (c, q)) (hp : p.WellKinded)
    (hlen : q.constant_pool.length ≤ 65535) : q.WellKinded := by
  have hs := (classConstant_shape h).2
  have hn : p.constant_pool.length + 2 ≤ 65535 := by
    rw [hs] at hlen
    simpa using hlen
  have e1 : (1 + p.constant_pool.length) % 65536 = p.constant_pool.length + 1 + 0 := by omega
  refine WellKinded_append p q _ (by rw [hs]) hp ?_
  intro j c hc
  match j with
  | 0 =>
    simp at hc
    subst hc
    trivial
  | 1 =>
    simp at hc
    subst hc
    exact refersTo_new _ _ _ _ 0 _ _ e1 (by dsimp only; omega) rfl rfl
  | n + 2 => simp at hc

theorem WellKinded_nameAndTypeConstant {p q : JvmProgram} {name descriptor : String}
    {c : NameAndTypeConstant} (h : p.nameAndTypeConstant name descriptor = some (c, q))
    (hp : p.WellKinded) (hlen : q.constant_pool.length ≤ 65535) : q.WellKinded := by
  rw [nameAndTypeConstant_eq] at h
  simp only [Option.some.injEq, Prod.mk.injEq] at h
  obtain ⟨_, rfl⟩ := h
  have hn : p.constant_pool.length + 3 ≤ 65535 := by simpa using hlen
  have e1 : (1 + p.constant_pool.length) % 65536 = p.constant_pool.length + 1 + 0 := by omega
  have e2 : (2 + p.constant_pool.length) % 65536 = p.constant_pool.length + 1 + 1 := by omega
  refine WellKinded_append p _ _ rfl hp ?_
  intro j c hc
  match j with
  | 0 =>
    simp at hc
    subst hc
    trivial
  | 1 =>
    simp at hc
    subst hc
    trivial
  | 2 =>
    simp at hc
    subst hc
    exact ⟨refersTo_new _ _ _ _ 0 _ _ e1 (by dsimp only; omega) rfl rfl,
      refersTo_new _ _ _ _ 1 _ _ e2 (by dsimp only; omega) rfl rfl⟩
  | n + 3 => simp at hc

theorem WellKinded_methodRefConstant {p q : JvmProgram} {class_name name type : String}
    {c : MethodRefConstant} (h : p.methodRefConstant class_name name type = some (c, q))
    (hp : p.WellKinded) (hlen : q.constant_pool.length ≤ 65535) : q.WellKinded := by
  unfold JvmProgram.methodRefConstant at h
  cases hk : p.classConstant class_name with
  | none => simp [hk, bind, Option.bind] at h
  | some r1 =>
    obtain ⟨k, p1⟩ := r1
    cases hn : p1.nameAndTypeConstant name type with
    | none => simp [hk, hn, bind, Option.bind] at h
    | some r2 =>
      obtain ⟨nt, p2⟩ := r2
      have g2 := Grows_length_le (Grows_nameAndTypeConstant hn)
      have w1 : p2.constant_pool.length ≤ 65535 → p2.WellKinded := fun hl =>
        WellKinded_nameAndTypeConstant hn
          (WellKinded_classConstant hk hp (Nat.le_trans g2 hl)) hl
      simp only [hk, hn, bind, Option.bind] at h
      split at h
      · rename_i c1 _
        cases c1 <;> simp [Constant.asMethodRef] at h
        obtain ⟨_, rfl⟩ := h
        exact w1 hlen
      · simp only [JvmProgram.Adopt, Option.some.injEq, Prod.mk.injEq] at h
        obtain ⟨_, rfl⟩ := h
        have hl2 : p2.constant_pool.length + 1 ≤ 65535 := by simpa using hlen
        refine WellKinded_append p2 _ _ rfl (w1 (by omega)) ?_
        intro j c hc
        match j with
        | 0 =>
          simp at hc
          subst hc
          rw [nameAndTypeConstant_eq] at hn
          simp only [Option.some.injEq, Prod.mk.injEq] at hn
          obtain ⟨rfl, rfl⟩ := hn
          obtain ⟨rfl, rfl⟩ := classConstant_shape hk
          have hn6 : p.constant_pool.length + 6 ≤ 65535 := by simpa using hl2
          have e2 : (2 + p.constant_pool.length) % 65536 = p.constant_pool.length + 1 + 1 := by
            omega
          have e5 : (3 + (p.constant_pool ++
              [Constant.utf8 { index := (1 + p.constant_pool.length) % 65536,
                               text := class_name },
               Constant.clazz { index := (2 + p.constant_pool.length) % 65536,
                                name_index := (1 + p.constant_pool.length) % 65536 }]).length)
                % 65536 = p.constant_pool.length + 1 + 4 := by
            simp
            omega
          simp only [Constant.kindOK, List.append_assoc]
          exact ⟨refersTo_new _ _ _ _ 1 _ _ e2 (by simp; omega) rfl rfl,
            refersTo_new _ _ _ _ 4 _ _ e5 (by simp; omega) rfl rfl⟩
        | n + 1 => simp at hc

theorem Interns_wellKinded {p : JvmProgram} (h : Interns {} p)
    (hlen : p.constant_pool.length ≤ 65535) : p.WellKinded := by
  induction h with
  | same =>
    intro i c hc
    simp at hc
  | utf8Constant _ ho ih =>
    exact WellKinded_utf8Constant ho
      (ih (Nat.le_trans (Grows_length_le (Grows_utf8Constant ho)) hlen))
  | stringConstant _ ho ih =>
    exact WellKinded_stringConstant ho
      (ih (Nat.le_trans (Grows_length_le (Grows_stringConstant ho)) hlen)) hlen
  | classConstant _ ho ih =>
    exact WellKinded_classConstant ho
      (ih (Nat.le_trans (Grows_length_le (Grows_classConstant ho)) hlen)) hlen
  | nameAndTypeConstant _ ho ih =>
    exact WellKinded_nameAndTypeConstant ho
      (ih (Nat.le_trans (Grows_length_le (Grows_nameAndTypeConstant ho)) hlen)) hlen
  | methodRefConstant _ ho ih =>
    exact WellKinded_methodRefConstant ho
      (ih (Nat.le_trans (Grows_length_le (Grows_methodRefConstant ho)) hlen)) hlen

theorem utf8Program_interns (text : String) (n : Nat) (hn : n ≤ 65535) :
    Interns {} (utf8Program text n) := by
  induction n with
  | zero => exact Interns.same
  | succ k ih =>
    refine @Interns.utf8Constant _ _ _ text { index := k + 1, text := text } (ih (by omega)) ?_
    rw [utf8Constant_eq]
    have hk : (1 + k) % 65536 = k + 1 := by omega
    simp [utf8Program, utf8Pool_length, utf8Pool_succ, hk]

theorem utf8Program_stringConstant (text t : String) (n : Nat) :
    (utf8Program text n).stringConstant t =
      some ({ index := (2 + n) % 65536, string_index := (1 + n) % 65536 },
        { constant_pool := utf8Pool text n ++
            [Constant.utf8 { index := (1 + n) % 65536, text := t },
             Constant.string { index := (2 + n) % 65536, string_index := (1 + n) % 65536 }] }) := by
  rw [stringConstant_eq]
  · simp only [utf8Program_constant_pool, utf8Pool_length]
    rfl
  · intro k hk
    rw [utf8Program_constant_pool] at hk
    obtain ⟨u, hu⟩ := utf8Pool_mem hk
    cases hu

theorem string_index_zero_not_wellKinded (pool : List Constant) (u : Utf8Constant) (k : Nat) :
    ¬ JvmProgram.WellKinded
      { constant_pool :=
          pool ++ [Constant.utf8 u, Constant.string { index := k, string_index := 0 }] } := by
  intro h
  have hget : (pool ++ [Constant.utf8 u,
      Constant.string { index := k, string_index := 0 }])[pool.length + 1]? =
      some (Constant.string { index := k, string_index := 0 }) := by
    rw [List.getElem?_append_right (by omega)]
    simp
  obtain ⟨_, c, hc, _⟩ := h (pool.length + 1) _ hget
  simp [entryAt] at hc

theorem WellKinded_emitConstants (p : JvmProgram) (hp : p.WellKinded)
    (hlen : p.constant_pool.length + 10 ≤ 65535) :
    JvmProgram.WellKinded
      { p with constant_pool := p.constant_pool ++ emitConstants p.constant_pool.length } := by
  have e1 : (1 + p.constant_pool.length) % 65536 = p.constant_pool.length + 1 + 0 := by omega
  have e3 : (3 + p.constant_pool.length) % 65536 = p.constant_pool.length + 1 + 2 := by omega
  have e5 : (5 + p.constant_pool.length) % 65536 = p.constant_pool.length + 1 + 4 := by omega
  have e6 : (6 + p.constant_pool.length) % 65536 = p.constant_pool.length + 1 + 5 := by omega
  have e7 : (7 + p.constant_pool.length) % 65536 = p.constant_pool.length + 1 + 6 := by omega
  have e8 : (8 + p.constant_pool.length) % 65536 = p.constant_pool.length + 1 + 7 := by omega
  have e9 : (9 + p.constant_pool.length) % 65536 = p.constant_pool.length + 1 + 8 := by omega
  refine WellKinded_append p _ _ rfl hp ?_
  intro j c hc
  match j with
  | 0 | 2 | 4 | 6 | 7 =>
    simp [emitConstants] at hc
    subst hc
    trivial
  | 1 =>
    simp [emitConstants] at hc
    subst hc
    exact refersTo_new _ _ _ _ 0 _ _ e1 (by dsimp only; omega) rfl rfl
  | 3 =>
    simp [emitConstants] at hc
    subst hc
    exact refersTo_new _ _ _ _ 2 _ _ e3 (by dsimp only; omega) rfl rfl
  | 5 =>
    simp [emitConstants] at hc
    subst hc
    exact refersTo_new _ _ _ _ 4 _ _ e5 (by dsimp only; omega) rfl rfl
  | 8 =>
    simp [emitConstants] at hc
    subst hc
    exact ⟨refersTo_new _ _ _ _ 6 _ _ e7 (by dsimp only; omega) rfl rfl,
      refersTo_new _ _ _ _ 7 _ _ e8 (by dsimp only; omega) rfl rfl⟩
  | 9 =>
    simp [emitConstants] at hc
    subst hc
    exact ⟨refersTo_new _ _ _ _ 5 _ _ e6 (by dsimp only; omega) rfl rfl,
      refersTo_new _ _ _ _ 8 _ _ e9 (by dsimp only; omega) rfl rfl⟩
  | n + 10 => simp [emitConstants] at hc

theorem classNamed_emitConstants (pool : List Constant) (hlen : pool.length + 10 ≤ 65535) :
    classNamed (pool ++ emitConstants pool.length) (pool.length + 2) "Main" ∧
      classNamed (pool ++ emitConstants pool.length) (pool.length + 4) "java/lang/Object" := by
  have e1 : (1 + pool.length) % 65536 = pool.length + 1 + 0 := by omega
  have e3 : (3 + pool.length) % 65536 = pool.length + 1 + 2 := by omega
  constructor
  · refine ⟨{ index := (2 + pool.length) % 65536, name_index := (1 + pool.length) % 65536 },
      { index := (1 + pool.length) % 65536, text := "Main" }, ?_, ?_, rfl⟩
    · rw [entryAt_new pool _ _ 1 (by omega)]
      rfl
    · rw [entryAt_new pool _ _ 0 e1]
      rfl
  · refine ⟨{ index := (4 + pool.length) % 65536, name_index := (3 + pool.length) % 65536 },
      { index := (3 + pool.length) % 65536, text := "java/lang/Object" }, ?_, ?_, rfl⟩
    · rw [entryAt_new pool _ _ 3 (by omega)]
      rfl
    · rw [entryAt_new pool _ _ 2 e3]
      rfl

theorem Interns_Emit_eq (p : JvmProgram) (hp : Interns {} p)
    (hlen : p.constant_pool.length + 10 ≤ 65535) :
    p.Emit =
      some
        (Put4 0xcafebabe ++ Put2 0 ++ Put2 55 ++ Put2 (p.constant_pool.length + 10 + 1) ++
          ((p.constant_pool ++ emitConstants p.constant_pool.length).map Constant.Emit).flatten ++
          Put2 0x20 ++ Put2 (p.constant_pool.length + 2) ++
          Put2 (p.constant_pool.length + 4) ++ Put2 0 ++ Put2 0 ++
          Put2 p.methods.length ++ (p.methods.map MethodInfo.Emit).flatten ++ Put2 0,
         { p with constant_pool := p.constant_pool ++ emitConstants p.constant_pool.length }) := by
  have hl := (Interns_reachable Reachable.init hp).linked
  have e2 : p.constant_pool.length + 2 = (2 + p.constant_pool.length) % 65536 := by omega
  have e4 : p.constant_pool.length + 4 = (4 + p.constant_pool.length) % 65536 := by omega
  rw [e2, e4]
  apply Emit_eq
  · intro k hk
    have := hl _ hk
    simp only [Constant.refsWithin] at this
    omega
  · intro r hr
    have := hl _ hr
    simp only [Constant.refsWithin] at this
    omega

/-- C24 (counterexample): after 65535 calls of `utf8Constant("s")`, `stringConstant("t")` adopts
a Utf8 entry whose u2 index wraps to 0 and a String entry whose `string_index` is that 0; index 0
names no entry of the pool, so the String entry at 0-based position 65536 refers to no Utf8
entry. -/
theorem stringConstant_index_wraps :
    Interns {} (utf8Program "s" 65535) ∧
      (utf8Program "s" 65535).stringConstant "t" =
        some (⟨1, 0⟩,
          { constant_pool :=
              utf8Pool "s" 65535 ++ [Constant.utf8 ⟨0, "t"⟩, Constant.string ⟨1, 0⟩] }) ∧
      Interns {}
        { constant_pool :=
            utf8Pool "s" 65535 ++ [Constant.utf8 ⟨0, "t"⟩, Constant.string ⟨1, 0⟩] } ∧
      entryAt (utf8Pool "s" 65535 ++ [Constant.utf8 ⟨0, "t"⟩, Constant.string ⟨1, 0⟩]) 0 = none ∧
      ¬ JvmProgram.WellKinded
        { constant_pool :=
            utf8Pool "s" 65535 ++ [Constant.utf8 ⟨0, "t"⟩, Constant.string ⟨1, 0⟩] } :=
  ⟨utf8Program_interns "s" 65535 (by decide), utf8Program_stringConstant "s" "t" 65535,
    Interns.stringConstant (utf8Program_interns "s" 65535 (by decide))
      (utf8Program_stringConstant "s" "t" 65535),
    rfl, string_index_zero_not_wellKinded _ _ _⟩

/-- C24 (amended): after a sequence of intern operations from the empty pool that leaves at most
65535 entries, every index stored inside a pool entry refers to an earlier entry of the expected
kind (`WellKinded`); if moreover at most 65525 entries are present, `Emit` returns, writes
`length + 2` and `length + 4` as the this-class and super-class indices, the pool it serialises
is again `WellKinded`, and those two indices name Class entries whose names are the Utf8 texts
"Main" and "java/lang/Object". -/
theorem Interns_wellKinded_Emit (p : JvmProgram) (hp : Interns {} p)
    (hlen : p.constant_pool.length ≤ 65535) :
    p.WellKinded ∧
      (p.constant_pool.length + 10 ≤ 65535 →
        p.Emit =
          some
            (Put4 0xcafebabe ++ Put2 0 ++ Put2 55 ++ Put2 (p.constant_pool.length + 10 + 1) ++
              ((p.constant_pool ++ emitConstants p.constant_pool.length).map
                Constant.Emit).flatten ++
              Put2 0x20 ++ Put2 (p.constant_pool.length + 2) ++
              Put2 (p.constant_pool.length + 4) ++ Put2 0 ++ Put2 0 ++
              Put2 p.methods.length ++ (p.methods.map MethodInfo.Emit).flatten ++ Put2 0,
             { p with
               constant_pool := p.constant_pool ++ emitConstants p.constant_pool.length }) ∧
        JvmProgram.WellKinded
          { p with constant_pool := p.constant_pool ++ emitConstants p.constant_pool.length } ∧
        classNamed (p.constant_pool ++ emitConstants p.constant_pool.length)
          (p.constant_pool.length + 2) "Main" ∧
        classNamed (p.constant_pool ++ emitConstants p.constant_pool.length)
          (p.constant_pool.length + 4) "java/lang/Object") := by
  have hw := Interns_wellKinded hp hlen
  refine ⟨hw, fun h10 => ⟨Interns_Emit_eq p hp h10, WellKinded_emitConstants p hw h10, ?_⟩⟩
  exact classNamed_emitConstants p.constant_pool h10

/-- C24 (witness): the pool after `stringConstant("b")` from the empty pool. -/
theorem Interns_wellKinded_Emit_witness :
    Interns {} { constant_pool := [Constant.utf8 ⟨1, "b"⟩, Constant.string ⟨2, 1⟩] } ∧
      ([Constant.utf8 ⟨1, "b"⟩, Constant.string ⟨2, 1⟩]).length ≤ 65535 ∧
      JvmProgram.WellKinded
        { constant_pool := [Constant.utf8 ⟨1, "b"⟩, Constant.string ⟨2, 1⟩] } ∧
      JvmProgram.WellKinded
        { constant_pool :=
            [Constant.utf8 ⟨1, "b"⟩, Constant.string ⟨2, 1⟩] ++ emitConstants 2 } ∧
      classNamed ([Constant.utf8 ⟨1, "b"⟩, Constant.string ⟨2, 1⟩] ++ emitConstants 2) 4
        "Main" ∧
      classNamed ([Constant.utf8 ⟨1, "b"⟩, Constant.string ⟨2, 1⟩] ++ emitConstants 2) 6
        "java/lang/Object" :=
  have hp : Interns {} { constant_pool := [Constant.utf8 ⟨1, "b"⟩, Constant.string ⟨2, 1⟩] } :=
    Interns.stringConstant Interns.same
      (show ({} : JvmProgram).stringConstant "b" =
        some (⟨2, 1⟩, { constant_pool := [Constant.utf8 ⟨1, "b"⟩, Constant.string ⟨2, 1⟩] })
        from by decide)
  have h := Interns_wellKinded_Emit
    { constant_pool := [Constant.utf8 ⟨1, "b"⟩, Constant.string ⟨2, 1⟩] } hp (by decide)
  ⟨hp, by decide, h.1, (h.2 (by decide)).2.1, (h.2 (by decide)).2.2.1, (h.2 (by decide)).2.2.2⟩

end emit

/-! ### The type setter on a whole tree -/

theorem LValueTree.lvalue_withBase_expr_ (b : ExpressionBase) (l : LValueTree) :
    (l.withBase b).expr_ = b := by
  cases l <;> rfl

theorem ExpressionTree.withBase_expr_ (b : ExpressionBase) (e : ExpressionTree) :
    (e.withBase b).expr_ = b := by
  cases e <;> first | rfl | exact LValueTree.lvalue_withBase_expr_ _ _

theorem LValueTree.lvalue_withBase_shape (b : ExpressionBase) (l : LValueTree) :
    (l.withBase b).shape = l.shape := by
  cases l <;> simp [LValueTree.withBase, LValueTree.shape]

theorem ExpressionTree.withBase_shape (b : ExpressionBase) (e : ExpressionTree) :
    (e.withBase b).shape = e.shape := by
  cases e <;>
    simp [ExpressionTree.withBase, ExpressionTree.shape, LValueTree.lvalue_withBase_shape]

theorem LValueTree.lvalue_withBase_Below (P : ExpressionTree → Prop) (b : ExpressionBase)
    (l : LValueTree) : (l.withBase b).Below P = l.Below P := by
  cases l <;> simp [LValueTree.withBase, LValueTree.Below]

theorem ExpressionTree.withBase_Below (P : ExpressionTree → Prop) (b : ExpressionBase)
    (e : ExpressionTree) : (e.withBase b).Below P = e.Below P := by
  cases e <;>
    simp [ExpressionTree.withBase, ExpressionTree.Below, LValueTree.lvalue_withBase_Below]

theorem ExpressionTree.node_ne_BuiltInBody (e : ExpressionTree) :
    e.node ≠ ExpressionNode.BuiltInBody := by
  cases e <;> simp [ExpressionTree.node]

theorem ExpressionTree.copiesNil_of_node_Nil (e : ExpressionTree)
    (h : e.node = ExpressionNode.Nil) : e.shape.copiesNil = true := by
  cases e <;> simp [ExpressionTree.node] at h
  simp [ExpressionTree.shape, Expression.copiesNil]

theorem ExpressionTree.NoUnsetText_congr {e e' : ExpressionTree} (hs : e'.shape = e.shape)
    (hb : e'.expr_ = e.expr_) (h : e.NoUnsetText) : e'.NoUnsetText := by
  unfold ExpressionTree.NoUnsetText at h ⊢
  rw [hs, hb]
  exact h

theorem ExpressionTree.Regular_congr {e e' : ExpressionTree} (hs : e'.shape = e.shape)
    (hb : e'.expr_ = e.expr_) (h : e.Regular) : e'.Regular := by
  unfold ExpressionTree.Regular ExpressionTree.Defined at h ⊢
  refine ⟨?_, ExpressionTree.NoUnsetText_congr hs hb h.2⟩
  rw [hs, hb]
  exact h.1

/-- The type setter on a node with both scopes bound, whose identifier (if it is one) has a value
type: a type is assigned. -/
theorem SetType_assigns (expr_ : ExpressionBase) (node : ExpressionNode)
    (types non_types : NameSpace)
    (ht : expr_.types_ = some types) (hn : expr_.non_types_ = some non_types)
    (hbody : node ≠ ExpressionNode.BuiltInBody)
    (hnode : ∀ t, node.namedType = some t → t ≠ kUnsetType)
    (hv : ∀ id d vt, non_types.Lookup id = some d → d.GetValueType = some vt →
      vt ≠ kUnsetType)
    (hf : ∀ k d t f ft, types.Lookup k = some d → d.GetType = some t →
      t.GetFieldType f = some ft → ft ≠ kUnsetType)
    (he : ∀ k d t et, types.Lookup k = some d → d.GetType = some t →
      t.GetElementType = some et → et ≠ kUnsetType)
    (hid : ∀ id d, node = ExpressionNode.LValue (LValueNode.Id id) →
      non_types.Lookup id = some d → d.GetValueType ≠ none) :
    ∃ t b, TypeSetter.Accept expr_ node = some (b, { expr_ with type_ := t }) ∧
      TreeTypeSetter.SetType expr_ node = some (true, { expr_ with type_ := t }) ∧
      (node ≠ ExpressionNode.Nil → (∀ c, node.copiedType = some c → c ≠ kUnsetType) →
        t ≠ kUnsetType) := by
  by_cases hnil : node = ExpressionNode.Nil
  · subst hnil
    exact ⟨expr_.type_, false, rfl, rfl, fun h => absurd rfl h⟩
  by_cases hcopy : ∀ c, node.copiedType = some c → c ≠ kUnsetType
  · obtain ⟨t, h1, h2, h3⟩ :=
      Accept_type_set expr_ node types non_types ht hn hnil hbody hcopy hnode hv hf he hid
    exact ⟨t, false, h1, h2, fun _ _ => h3⟩
  · have key : ∀ t, TypeSetter.Accept expr_ node = some (false, { expr_ with type_ := t }) →
        ∃ t b, TypeSetter.Accept expr_ node = some (b, { expr_ with type_ := t }) ∧
          TreeTypeSetter.SetType expr_ node = some (true, { expr_ with type_ := t }) ∧
          (node ≠ ExpressionNode.Nil → (∀ c, node.copiedType = some c → c ≠ kUnsetType) →
            t ≠ kUnsetType) := by
      intro t h1
      exact ⟨t, false, h1, by simp [TreeTypeSetter.SetType, h1], fun _ h => absurd h hcopy⟩
    cases node with
    | Negated value => exact key value.type_ rfl
    | Binary left op right => exact key right.type_ rfl
    | IfThenElse condition then_expr else_expr => exact key then_expr.type_ rfl
    | Block exprs =>
      cases hl : exprs.getLast? with
      | none =>
        exact key kNoneType
          (by simp [TypeSetter.Accept, TypeSetter.VisitBlock, hl, TypeSetter.SetType])
      | some last =>
        exact key last.type_
          (by simp [TypeSetter.Accept, TypeSetter.VisitBlock, hl, TypeSetter.SetType])
    | Let declarations body =>
      cases hl : body.getLast? with
      | none =>
        exact key kNoneType
          (by simp [TypeSetter.Accept, TypeSetter.VisitLet, hl, TypeSetter.SetType])
      | some last =>
        exact key last.type_
          (by simp [TypeSetter.Accept, TypeSetter.VisitLet, hl, TypeSetter.SetType])
    | _ => exact absurd (fun c h => by simp [ExpressionNode.copiedType] at h) hcopy

theorem ExpressionTree.node_namedType (e : ExpressionTree) (t : String)
    (h : e.node.namedType = some t) :
    (∃ field_values, e.shape = Expression.Record t field_values) ∨
      (∃ size value, e.shape = Expression.Array t size value) := by
  cases e <;> simp only [ExpressionTree.node, ExpressionNode.namedType, Option.some.injEq,
    reduceCtorEq] at h
  case Record b type_id field_values =>
    subst h
    exact Or.inl ⟨FieldValueTree.shapeEach field_values, by simp [ExpressionTree.shape]⟩
  case Array b type_id size value =>
    subst h
    exact Or.inr ⟨size.shape, value.shape, by simp [ExpressionTree.shape]⟩

theorem ExpressionTree.node_Id (e : ExpressionTree) (id : String)
    (h : e.node = ExpressionNode.LValue (LValueNode.Id id)) :
    e.shape = Expression.LValue (LValue.Id id) := by
  cases e <;> simp [ExpressionTree.node] at h
  rename_i value
  cases value <;> simp [LValueTree.node] at h
  subst h
  simp [ExpressionTree.shape, LValueTree.shape]

theorem lastCopiesNil_getLast? (exprs : List ExpressionTree)
    (hb : ExpressionTree.BelowEach ExpressionTree.TypeSet exprs)
    (hn : Expression.lastCopiesNil (ExpressionTree.shapeEach exprs) = false) (c : String)
    (hc : (exprs.map ExpressionTree.expr_).getLast?.map (fun e => e.type_) = some c) :
    c ≠ kUnsetType := by
  induction exprs with
  | nil => simp at hc
  | cons e es ih =>
    cases es with
    | nil =>
      simp at hc
      subst hc
      simp only [ExpressionTree.BelowEach] at hb
      simp only [ExpressionTree.shapeEach, Expression.lastCopiesNil] at hn
      exact hb.1.1 hn
    | cons e2 es2 =>
      simp only [ExpressionTree.BelowEach] at hb ih
      simp only [ExpressionTree.shapeEach, Expression.lastCopiesNil] at hn ih
      apply ih hb.2 hn
      simpa [List.getLast?_cons_cons] using hc

theorem ExpressionTree.copied_set (e : ExpressionTree)
    (hb : e.Below ExpressionTree.TypeSet) (hn : e.shape.copiesNil = false) (c : String)
    (hc : e.node.copiedType = some c) : c ≠ kUnsetType := by
  cases e <;> simp only [ExpressionTree.node, ExpressionNode.copiedType, Option.some.injEq,
    reduceCtorEq] at hc
  case Negated b value =>
    subst hc
    simp only [ExpressionTree.shape, Expression.copiesNil] at hn
    exact hb.1 hn
  case Binary b left op right =>
    subst hc
    simp only [ExpressionTree.shape, Expression.copiesNil] at hn
    simp only [ExpressionTree.Below] at hb
    exact hb.2.1 hn
  case IfThenElse b c1 t1 e1 =>
    subst hc
    simp only [ExpressionTree.shape, Expression.copiesNil] at hn
    simp only [ExpressionTree.Below] at hb
    exact hb.2.1.1 hn
  case Block b exprs =>
    simp only [ExpressionTree.shape, Expression.copiesNil] at hn
    simp only [ExpressionTree.Below] at hb
    exact lastCopiesNil_getLast? exprs hb hn c hc
  case Let b ds body =>
    simp only [ExpressionTree.shape, Expression.copiesNil] at hn
    simp only [ExpressionTree.Below] at hb
    exact lastCopiesNil_getLast? body hb.2 hn c hc

theorem ExpressionTree.SetType_spec (e : ExpressionTree) (hr : e.Regular)
    (hb : e.Below ExpressionTree.TypeSet) :
    ∃ t b, TypeSetter.Accept e.expr_ e.node = some (b, { e.expr_ with type_ := t }) ∧
      TreeTypeSetter.SetTypeOf e = some (e.withBase { e.expr_ with type_ := t }) ∧
      (e.withBase { e.expr_ with type_ := t }).All ExpressionTree.TypeSet := by
  obtain ⟨⟨types, non_types, ht, hn, hid⟩, hrec, harr, hv, hf, he⟩ := hr
  obtain ⟨t, b, h1, h2, h3⟩ := SetType_assigns e.expr_ e.node types non_types ht hn
    e.node_ne_BuiltInBody
    (by
      intro t h
      rcases e.node_namedType t h with ⟨fs, hs⟩ | ⟨s, v, hs⟩
      · exact hrec t fs hs
      · exact harr t s v hs)
    (hv non_types · · · hn) (hf types · · · · · ht) (he types · · · · ht)
    (by
      intro id d h
      exact hid id d (e.node_Id id h))
  refine ⟨t, b, h1, by simp [TreeTypeSetter.SetTypeOf, h2], ?_, ?_⟩
  · intro hc
    rw [ExpressionTree.withBase_shape] at hc
    rw [ExpressionTree.withBase_expr_]
    apply h3
    · intro hnil
      rw [e.copiesNil_of_node_Nil hnil] at hc
      cases hc
    · exact e.copied_set hb hc
  · rw [ExpressionTree.withBase_Below]
    exact hb

theorem AfterChildren_spec (e : ExpressionTree) (hr : e.Regular)
    (hb : e.Below ExpressionTree.TypeSet) :
    ∃ e', TreeTypeSetter.AfterChildren e = some e' ∧ e'.shape = e.shape ∧
      e'.All ExpressionTree.TypeSet := by
  obtain ⟨t, b, _, h2, h3⟩ := e.SetType_spec hr hb
  exact ⟨_, h2, ExpressionTree.withBase_shape _ _, h3⟩

theorem AfterChildrenOfLValue_spec (l : LValueTree) (hr : (ExpressionTree.LValue l).Regular)
    (hb : l.Below ExpressionTree.TypeSet) :
    ∃ l', TreeTypeSetter.AfterChildrenOfLValue l = some l' ∧ l'.shape = l.shape ∧
      (ExpressionTree.LValue l').All ExpressionTree.TypeSet := by
  obtain ⟨t, b, _, h2, h3⟩ := (ExpressionTree.LValue l).SetType_spec hr hb
  simp only [TreeTypeSetter.SetTypeOf, ExpressionTree.expr_, ExpressionTree.node,
    ExpressionTree.withBase, Option.map_eq_some'] at h2
  obtain ⟨r, hr1, hr2⟩ := h2
  refine ⟨l.withBase { l.expr_ with type_ := t }, ?_, LValueTree.lvalue_withBase_shape _ _, h3⟩
  simp only [ExpressionTree.LValue.injEq] at hr2
  simp [TreeTypeSetter.AfterChildrenOfLValue, hr1, hr2]

theorem child_spec (e : ExpressionTree) (hr : e.Regular)
    (h : ∃ e', e.Accept = some e' ∧ e'.shape = e.shape ∧ e'.expr_ = e.expr_ ∧
      e'.Below ExpressionTree.TypeSet) :
    ∃ e', (e.Accept).bind TreeTypeSetter.AfterChildren = some e' ∧ e'.shape = e.shape ∧
      e'.All ExpressionTree.TypeSet := by
  obtain ⟨e1, h1, h2, h3, h4⟩ := h
  obtain ⟨e2, h5, h6, h7⟩ := AfterChildren_spec e1 (ExpressionTree.Regular_congr h2 h3 hr) h4
  exact ⟨e2, by simp [h1, h5], by rw [h6, h2], h7⟩

theorem lvalue_child_spec (l : LValueTree) (hr : (ExpressionTree.LValue l).Regular)
    (h : ∃ l', l.Accept = some l' ∧ l'.shape = l.shape ∧ l'.expr_ = l.expr_ ∧
      l'.Below ExpressionTree.TypeSet) :
    ∃ l', (l.Accept).bind TreeTypeSetter.AfterChildrenOfLValue = some l' ∧
      l'.shape = l.shape ∧ (ExpressionTree.LValue l').All ExpressionTree.TypeSet := by
  obtain ⟨l1, h1, h2, h3, h4⟩ := h
  have hr1 : (ExpressionTree.LValue l1).Regular :=
    ExpressionTree.Regular_congr (e := ExpressionTree.LValue l)
      (by simp [ExpressionTree.shape, h2]) (by simp [ExpressionTree.expr_, h3]) hr
  obtain ⟨l2, h5, h6, h7⟩ := AfterChildrenOfLValue_spec l1 hr1 h4
  exact ⟨l2, by simp [h1, h5], by rw [h6, h2], h7⟩

mutual
theorem ExpressionTree.Accept_spec : ∀ (e : ExpressionTree),
    e.Below ExpressionTree.Regular →
    ∃ e', e.Accept = some e' ∧ e'.shape = e.shape ∧ e'.expr_ = e.expr_ ∧
      e'.Below ExpressionTree.TypeSet
  | .StringConstant b text, _ => ⟨_, by rw [ExpressionTree.Accept], rfl, rfl, trivial⟩
  | .IntegerConstant b value, _ => ⟨_, by rw [ExpressionTree.Accept], rfl, rfl, trivial⟩
  | .Nil b, _ => ⟨_, by rw [ExpressionTree.Accept], rfl, rfl, trivial⟩
  | .Break b, _ => ⟨_, by rw [ExpressionTree.Accept], rfl, rfl, trivial⟩
  | .LValue value, h => by
    simp only [ExpressionTree.Below] at h
    obtain ⟨l', h1, h2, h3, h4⟩ := LValueTree.lvalue_Accept_spec value h
    exact ⟨.LValue l', by simp [ExpressionTree.Accept, h1],
      by simp [ExpressionTree.shape, h2], by simp [ExpressionTree.expr_, h3],
      by simpa [ExpressionTree.Below] using h4⟩
  | .Negated b value, h => by
    simp only [ExpressionTree.Below] at h
    obtain ⟨v, h1, h2, h3⟩ := child_spec value h.1 (ExpressionTree.Accept_spec value h.2)
    exact ⟨.Negated b v, by simp [ExpressionTree.Accept, h1],
      by simp [ExpressionTree.shape, h2], rfl, by simpa [ExpressionTree.Below] using h3⟩
  | .Binary b left op right, h => by
    simp only [ExpressionTree.Below] at h
    obtain ⟨l, hl1, hl2, hl3⟩ := child_spec left h.1.1 (ExpressionTree.Accept_spec left h.1.2)
    obtain ⟨r, hr1, hr2, hr3⟩ :=
      child_spec right h.2.1 (ExpressionTree.Accept_spec right h.2.2)
    exact ⟨.Binary b l op r, by simp [ExpressionTree.Accept, hl1, hr1],
      by simp [ExpressionTree.shape, hl2, hr2], rfl,
      by simpa [ExpressionTree.Below] using ⟨hl3, hr3⟩⟩
  | .Assignment b value expr, h => by
    simp only [ExpressionTree.Below] at h
    obtain ⟨l, hl1, hl2, hl3⟩ :=
      lvalue_child_spec value h.1.1 (LValueTree.lvalue_Accept_spec value h.1.2)
    obtain ⟨r, hr1, hr2, hr3⟩ := child_spec expr h.2.1 (ExpressionTree.Accept_spec expr h.2.2)
    refine ⟨.Assignment b l r, by simp [ExpressionTree.Accept, hl1, hr1],
      by simp [ExpressionTree.shape, hl2, hr2], rfl, ?_⟩
    simp only [ExpressionTree.Below]
    exact ⟨hl3, hr3⟩
  | .FunctionCall b id args, h => by
    simp only [ExpressionTree.Below] at h
    obtain ⟨as, h1, h2, h3⟩ := ExpressionTree.AcceptEach_spec args h
    exact ⟨.FunctionCall b id as, by simp [ExpressionTree.Accept, h1],
      by simp [ExpressionTree.shape, h2], rfl, by simpa [ExpressionTree.Below] using h3⟩
  | .Block b exprs, h => by
    simp only [ExpressionTree.Below] at h
    obtain ⟨as, h1, h2, h3⟩ := ExpressionTree.AcceptEach_spec exprs h
    exact ⟨.Block b as, by simp [ExpressionTree.Accept, h1],
      by simp [ExpressionTree.shape, h2], rfl, by simpa [ExpressionTree.Below] using h3⟩
  | .Record b type_id field_values, h => by
    simp only [ExpressionTree.Below] at h
    obtain ⟨fs, h1, h2, h3⟩ := FieldValueTree.fieldValues_AcceptEach_spec field_values h
    exact ⟨.Record b type_id fs, by simp [ExpressionTree.Accept, h1],
      by simp [ExpressionTree.shape, h2], rfl, by simpa [ExpressionTree.Below] using h3⟩
  | .Array b type_id size value, h => by
    simp only [ExpressionTree.Below] at h
    obtain ⟨l, hl1, hl2, hl3⟩ := child_spec size h.1.1 (ExpressionTree.Accept_spec size h.1.2)
    obtain ⟨r, hr1, hr2, hr3⟩ :=
      child_spec value h.2.1 (ExpressionTree.Accept_spec value h.2.2)
    exact ⟨.Array b type_id l r, by simp [ExpressionTree.Accept, hl1, hr1],
      by simp [ExpressionTree.shape, hl2, hr2], rfl,
      by simpa [ExpressionTree.Below] using ⟨hl3, hr3⟩⟩
  | .IfThen b condition expr, h => by
    simp only [ExpressionTree.Below] at h
    obtain ⟨l, hl1, hl2, hl3⟩ :=
      child_spec condition h.1.1 (ExpressionTree.Accept_spec condition h.1.2)
    obtain ⟨r, hr1, hr2, hr3⟩ := child_spec expr h.2.1 (ExpressionTree.Accept_spec expr h.2.2)
    exact ⟨.IfThen b l r, by simp [ExpressionTree.Accept, hl1, hr1],
      by simp [ExpressionTree.shape, hl2, hr2], rfl,
      by simpa [ExpressionTree.Below] using ⟨hl3, hr3⟩⟩
  | .IfThenElse b condition then_expr else_expr, h => by
    simp only [ExpressionTree.Below] at h
    obtain ⟨l, hl1, hl2, hl3⟩ :=
      child_spec condition h.1.1 (ExpressionTree.Accept_spec condition h.1.2)
    obtain ⟨m, hm1, hm2, hm3⟩ :=
      child_spec then_expr h.2.1.1 (ExpressionTree.Accept_spec then_expr h.2.1.2)
    obtain ⟨r, hr1, hr2, hr3⟩ :=
      child_spec else_expr h.2.2.1 (ExpressionTree.Accept_spec else_expr h.2.2.2)
    exact ⟨.IfThenElse b l m r, by simp [ExpressionTree.Accept, hl1, hm1, hr1],
      by simp [ExpressionTree.shape, hl2, hm2, hr2], rfl,
      by simpa [ExpressionTree.Below] using ⟨hl3, hm3, hr3⟩⟩
  | .While b condition body, h => by
    simp only [ExpressionTree.Below] at h
    obtain ⟨l, hl1, hl2, hl3⟩ :=
      child_spec condition h.1.1 (ExpressionTree.Accept_spec condition h.1.2)
    obtain ⟨r, hr1, hr2, hr3⟩ := child_spec body h.2.1 (ExpressionTree.Accept_spec body h.2.2)
    exact ⟨.While b l r, by simp [ExpressionTree.Accept, hl1, hr1],
      by simp [ExpressionTree.shape, hl2, hr2], rfl,
      by simpa [ExpressionTree.Below] using ⟨hl3, hr3⟩⟩
  | .For b id first last body, h => by
    simp only [ExpressionTree.Below] at h
    obtain ⟨l, hl1, hl2, hl3⟩ :=
      child_spec first h.1.1 (ExpressionTree.Accept_spec first h.1.2)
    obtain ⟨m, hm1, hm2, hm3⟩ :=
      child_spec last h.2.1.1 (ExpressionTree.Accept_spec last h.2.1.2)
    obtain ⟨r, hr1, hr2, hr3⟩ :=
      child_spec body h.2.2.1 (ExpressionTree.Accept_spec body h.2.2.2)
    exact ⟨.For b id l m r, by simp [ExpressionTree.Accept, hl1, hm1, hr1],
      by simp [ExpressionTree.shape, hl2, hm2, hr2], rfl,
      by simpa [ExpressionTree.Below] using ⟨hl3, hm3, hr3⟩⟩
  | .Let b declarations body, h => by
    simp only [ExpressionTree.Below] at h
    obtain ⟨ds, hd1, hd2, hd3⟩ := DeclarationTree.declarations_AcceptEach_spec declarations h.1
    obtain ⟨as, h1, h2, h3⟩ := ExpressionTree.AcceptEach_spec body h.2
    exact ⟨.Let b ds as, by simp [ExpressionTree.Accept, hd1, h1],
      by simp [ExpressionTree.shape, hd2, h2], rfl,
      by simpa [ExpressionTree.Below] using ⟨hd3, h3⟩⟩
theorem LValueTree.lvalue_Accept_spec : ∀ (l : LValueTree),
    l.Below ExpressionTree.Regular →
    ∃ l', l.Accept = some l' ∧ l'.shape = l.shape ∧ l'.expr_ = l.expr_ ∧
      l'.Below ExpressionTree.TypeSet
  | .Id b id, _ => ⟨_, by rw [LValueTree.Accept], rfl, rfl, trivial⟩
  | .Field b value id, h => by
    simp only [LValueTree.Below] at h
    obtain ⟨l, hl1, hl2, hl3⟩ := lvalue_child_spec value h.1 (LValueTree.lvalue_Accept_spec value h.2)
    refine ⟨.Field b l id, by simp [LValueTree.Accept, hl1],
      by simp [LValueTree.shape, hl2], rfl, ?_⟩
    simp only [LValueTree.Below]
    exact hl3
  | .Index b value expr, h => by
    simp only [LValueTree.Below] at h
    obtain ⟨l, hl1, hl2, hl3⟩ :=
      lvalue_child_spec value h.1.1 (LValueTree.lvalue_Accept_spec value h.1.2)
    obtain ⟨r, hr1, hr2, hr3⟩ := child_spec expr h.2.1 (ExpressionTree.Accept_spec expr h.2.2)
    refine ⟨.Index b l r, by simp [LValueTree.Accept, hl1, hr1],
      by simp [LValueTree.shape, hl2, hr2], rfl, ?_⟩
    simp only [LValueTree.Below]
    exact ⟨hl3, hr3⟩
theorem FieldValueTree.fieldValue_Accept_spec : ∀ (f : FieldValueTree),
    f.Below ExpressionTree.Regular →
    ∃ f', f.Accept = some f' ∧ f'.shape = f.shape ∧ f'.Below ExpressionTree.TypeSet
  | .mk id expr, h => by
    simp only [FieldValueTree.Below] at h
    obtain ⟨r, hr1, hr2, hr3⟩ := child_spec expr h.1 (ExpressionTree.Accept_spec expr h.2)
    refine ⟨.mk id r, by simp [FieldValueTree.Accept, hr1],
      by simp [FieldValueTree.shape, hr2], ?_⟩
    simp only [FieldValueTree.Below]
    exact hr3
theorem DeclarationTree.declaration_Accept_spec : ∀ (d : DeclarationTree),
    d.Below ExpressionTree.Regular →
    ∃ d', d.Accept = some d' ∧ d'.shape = d.shape ∧ d'.Below ExpressionTree.TypeSet
  | .TypeDeclaration id type, _ => ⟨_, by rw [DeclarationTree.Accept], rfl, trivial⟩
  | .ParameterDeclaration id type_id, _ => ⟨_, by rw [DeclarationTree.Accept], rfl, trivial⟩
  | .VariableDeclaration id type_id value, h => by
    simp only [DeclarationTree.Below] at h
    obtain ⟨r, hr1, hr2, hr3⟩ := child_spec value h.1 (ExpressionTree.Accept_spec value h.2)
    refine ⟨.VariableDeclaration id type_id r, by simp [DeclarationTree.Accept, hr1],
      by simp [DeclarationTree.shape, hr2], ?_⟩
    simp only [DeclarationTree.Below]
    exact hr3
  | .FunctionDeclaration id params type_id body, h => by
    simp only [DeclarationTree.Below] at h
    obtain ⟨r, hr1, hr2, hr3⟩ := child_spec body h.1 (ExpressionTree.Accept_spec body h.2)
    refine ⟨.FunctionDeclaration id params type_id r, by simp [DeclarationTree.Accept, hr1],
      by simp [DeclarationTree.shape, hr2], ?_⟩
    simp only [DeclarationTree.Below]
    exact hr3
theorem ExpressionTree.AcceptEach_spec : ∀ (es : List ExpressionTree),
    ExpressionTree.BelowEach ExpressionTree.Regular es →
    ∃ es', ExpressionTree.AcceptEach es = some es' ∧
      ExpressionTree.shapeEach es' = ExpressionTree.shapeEach es ∧
      ExpressionTree.BelowEach ExpressionTree.TypeSet es'
  | [], _ => ⟨[], by rw [ExpressionTree.AcceptEach], rfl, trivial⟩
  | e :: es, h => by
    simp only [ExpressionTree.BelowEach] at h
    obtain ⟨r, hr1, hr2, hr3⟩ := child_spec e h.1.1 (ExpressionTree.Accept_spec e h.1.2)
    obtain ⟨rs, hs1, hs2, hs3⟩ := ExpressionTree.AcceptEach_spec es h.2
    refine ⟨r :: rs, by simp [ExpressionTree.AcceptEach, hr1, hs1],
      by simp [ExpressionTree.shapeEach, hr2, hs2], ?_⟩
    simp only [ExpressionTree.BelowEach]
    exact ⟨hr3, hs3⟩
theorem FieldValueTree.fieldValues_AcceptEach_spec : ∀ (fs : List FieldValueTree),
    FieldValueTree.BelowEach ExpressionTree.Regular fs →
    ∃ fs', FieldValueTree.AcceptEach fs = some fs' ∧
      FieldValueTree.shapeEach fs' = FieldValueTree.shapeEach fs ∧
      FieldValueTree.BelowEach ExpressionTree.TypeSet fs'
  | [], _ => ⟨[], by rw [FieldValueTree.AcceptEach], rfl, trivial⟩
  | f :: fs, h => by
    simp only [FieldValueTree.BelowEach] at h
    obtain ⟨r, hr1, hr2, hr3⟩ := FieldValueTree.fieldValue_Accept_spec f h.1
    obtain ⟨rs, hs1, hs2, hs3⟩ := FieldValueTree.fieldValues_AcceptEach_spec fs h.2
    refine ⟨r :: rs, by simp [FieldValueTree.AcceptEach, hr1, hs1],
      by simp [FieldValueTree.shapeEach, hr2, hs2], ?_⟩
    simp only [FieldValueTree.BelowEach]
    exact ⟨hr3, hs3⟩
theorem DeclarationTree.declarations_AcceptEach_spec : ∀ (ds : List DeclarationTree),
    DeclarationTree.BelowEach ExpressionTree.Regular ds →
    ∃ ds', DeclarationTree.AcceptEach ds = some ds' ∧
      DeclarationTree.shapeEach ds' = DeclarationTree.shapeEach ds ∧
      DeclarationTree.BelowEach ExpressionTree.TypeSet ds'
  | [], _ => ⟨[], by rw [DeclarationTree.AcceptEach], rfl, trivial⟩
  | d :: ds, h => by
    simp only [DeclarationTree.BelowEach] at h
    obtain ⟨r, hr1, hr2, hr3⟩ := DeclarationTree.declaration_Accept_spec d h.1
    obtain ⟨rs, hs1, hs2, hs3⟩ := DeclarationTree.declarations_AcceptEach_spec ds h.2
    refine ⟨r :: rs, by simp [DeclarationTree.AcceptEach, hr1, hs1],
      by simp [DeclarationTree.shapeEach, hr2, hs2], ?_⟩
    simp only [DeclarationTree.BelowEach]
    exact ⟨hr3, hs3⟩
end

/-- A record literal that names a type `unset` is given the text "unset" as its type. -/
theorem Accept_Record_named_unset :
    TypeSetter.Accept boundRoot (ExpressionNode.Record "unset" []) =
      some (false, { boundRoot with type_ := kUnsetType }) := rfl

/-- The type setter on one node, whenever its run is defined: the result is the base with a type
assigned, and the type is not the marker unless the node is Nil or copies a type that is. -/
theorem TypeSetter_Accept_of_some (expr_ : ExpressionBase) (node : ExpressionNode)
    (r : Bool × ExpressionBase) (h : TypeSetter.Accept expr_ node = some r)
    (hbody : node ≠ ExpressionNode.BuiltInBody)
    (hnode : ∀ t, node.namedType = some t → t ≠ kUnsetType)
    (hv : ∀ non_types id d vt, expr_.non_types_ = some non_types →
      non_types.Lookup id = some d → d.GetValueType = some vt → vt ≠ kUnsetType)
    (hf : ∀ types k d t f ft, expr_.types_ = some types → types.Lookup k = some d →
      d.GetType = some t → t.GetFieldType f = some ft → ft ≠ kUnsetType)
    (he : ∀ types k d t et, expr_.types_ = some types → types.Lookup k = some d →
      d.GetType = some t → t.GetElementType = some et → et ≠ kUnsetType) :
    ∃ t, r.2 = { expr_ with type_ := t } ∧
      (node ≠ ExpressionNode.Nil → (∀ c, node.copiedType = some c → c ≠ kUnsetType) →
        t ≠ kUnsetType) := by
  have hnone : kNoneType ≠ kUnsetType := by decide
  have hunk : kUnknownType ≠ kUnsetType := by decide
  have key : ∀ t, TypeSetter.Accept expr_ node = some (false, { expr_ with type_ := t }) →
      (node ≠ ExpressionNode.Nil → (∀ c, node.copiedType = some c → c ≠ kUnsetType) →
        t ≠ kUnsetType) →
      ∃ t, r.2 = { expr_ with type_ := t } ∧
        (node ≠ ExpressionNode.Nil → (∀ c, node.copiedType = some c → c ≠ kUnsetType) →
          t ≠ kUnsetType) := by
    intro t h1 h2
    rw [h1] at h
    cases h
    exact ⟨t, rfl, h2⟩
  cases node with
  | Nil => exact key expr_.type_ rfl (fun hn _ => absurd rfl hn)
  | BuiltInBody => exact absurd rfl hbody
  | StringConstant text => exact key "string" rfl (fun _ _ => by decide)
  | IntegerConstant value => exact key "int" rfl (fun _ _ => by decide)
  | Negated value => exact key value.type_ rfl (fun _ hc => hc _ rfl)
  | Binary left op right => exact key right.type_ rfl (fun _ hc => hc _ rfl)
  | Assignment value expr => exact key kNoneType rfl (fun _ _ => hnone)
  | Record type_id field_values => exact key type_id rfl (fun _ _ => hnode _ rfl)
  | Array type_id size value => exact key type_id rfl (fun _ _ => hnode _ rfl)
  | IfThen condition expr => exact key kNoneType rfl (fun _ _ => hnone)
  | IfThenElse condition then_expr else_expr =>
    exact key then_expr.type_ rfl (fun _ hc => hc _ rfl)
  | While condition body => exact key kNoneType rfl (fun _ _ => hnone)
  | For id first last body => exact key kNoneType rfl (fun _ _ => hnone)
  | Break => exact key kNoneType rfl (fun _ _ => hnone)
  | Block exprs =>
    cases hl : exprs.getLast? with
    | none =>
      exact key kNoneType (by simp [TypeSetter.Accept, TypeSetter.VisitBlock, hl,
        TypeSetter.SetType]) (fun _ _ => hnone)
    | some last =>
      exact key last.type_ (by simp [TypeSetter.Accept, TypeSetter.VisitBlock, hl,
        TypeSetter.SetType]) (fun _ hc => hc _ (by simp [ExpressionNode.copiedType, hl]))
  | Let declarations body =>
    cases hl : body.getLast? with
    | none =>
      exact key kNoneType (by simp [TypeSetter.Accept, TypeSetter.VisitLet, hl,
        TypeSetter.SetType]) (fun _ _ => hnone)
    | some last =>
      exact key last.type_ (by simp [TypeSetter.Accept, TypeSetter.VisitLet, hl,
        TypeSetter.SetType]) (fun _ hc => hc _ (by simp [ExpressionNode.copiedType, hl]))
  | FunctionCall id args =>
    rcases Option.eq_none_or_eq_some expr_.non_types_ with hn | ⟨non_types, hn⟩
    · simp [TypeSetter.Accept, TypeSetter.VisitFunctionCall, hn, bind, Option.bind] at h
    · cases hd : non_types.Lookup id with
      | none =>
        exact key kUnknownType (by simp [TypeSetter.Accept, TypeSetter.VisitFunctionCall, hn,
          hd, bind, Option.bind, pure, TypeSetter.SetType]) (fun _ _ => hunk)
      | some d =>
        cases hvt : d.GetValueType with
        | none =>
          exact key kUnknownType (by simp [TypeSetter.Accept, TypeSetter.VisitFunctionCall, hn,
            hd, hvt, bind, Option.bind, pure, TypeSetter.SetType]) (fun _ _ => hunk)
        | some vt =>
          exact key vt (by simp [TypeSetter.Accept, TypeSetter.VisitFunctionCall, hn, hd, hvt,
            bind, Option.bind, pure, TypeSetter.SetType])
            (fun _ _ => hv non_types id d vt hn hd hvt)
  | LValue value =>
    cases value with
    | Id id =>
      rcases Option.eq_none_or_eq_some expr_.non_types_ with hn | ⟨non_types, hn⟩
      · simp [TypeSetter.Accept, TypeSetter.VisitLValue, TypeSetter.VisitId, hn, bind,
          Option.bind] at h
      · cases hd : non_types.Lookup id with
        | none =>
          exact key kUnknownType (by simp [TypeSetter.Accept, TypeSetter.VisitLValue,
            TypeSetter.VisitId, hn, hd, bind, Option.bind, pure, TypeSetter.SetType])
            (fun _ _ => hunk)
        | some d =>
          cases hvt : d.GetValueType with
          | none =>
            simp [TypeSetter.Accept, TypeSetter.VisitLValue, TypeSetter.VisitId, hn, hd, hvt,
              bind, Option.bind] at h
          | some vt =>
            exact key vt (by simp [TypeSetter.Accept, TypeSetter.VisitLValue,
              TypeSetter.VisitId, hn, hd, hvt, bind, Option.bind, pure, TypeSetter.SetType])
              (fun _ _ => hv non_types id d vt hn hd hvt)
    | Field v id =>
      rcases Option.eq_none_or_eq_some expr_.types_ with ht | ⟨types, ht⟩
      · simp [TypeSetter.Accept, TypeSetter.VisitLValue, TypeSetter.VisitField, ht, bind,
          Option.bind] at h
      · cases hd : types.Lookup v.type_ with
        | none =>
          exact key kUnknownType (by simp [TypeSetter.Accept, TypeSetter.VisitLValue,
            TypeSetter.VisitField, ht, hd, bind, Option.bind, pure, TypeSetter.SetType])
            (fun _ _ => hunk)
        | some d =>
          cases hty : d.GetType with
          | none =>
            exact key kUnknownType (by simp [TypeSetter.Accept, TypeSetter.VisitLValue,
              TypeSetter.VisitField, ht, hd, hty, bind, Option.bind, pure,
              TypeSetter.SetType]) (fun _ _ => hunk)
          | some ty =>
            cases hft : ty.GetFieldType id with
            | none =>
              exact key kUnknownType (by simp [TypeSetter.Accept, TypeSetter.VisitLValue,
                TypeSetter.VisitField, ht, hd, hty, hft, bind, Option.bind, pure,
                TypeSetter.SetType]) (fun _ _ => hunk)
            | some ft =>
              exact key ft (by simp [TypeSetter.Accept, TypeSetter.VisitLValue,
                TypeSetter.VisitField, ht, hd, hty, hft, bind, Option.bind, pure,
                TypeSetter.SetType]) (fun _ _ => hf types _ d ty id ft ht hd hty hft)
    | Index v e =>
      rcases Option.eq_none_or_eq_some expr_.types_ with ht | ⟨types, ht⟩
      · simp [TypeSetter.Accept, TypeSetter.VisitLValue, TypeSetter.VisitIndex, ht, bind,
          Option.bind] at h
      · cases hd : types.Lookup v.type_ with
        | none =>
          exact key kUnknownType (by simp [TypeSetter.Accept, TypeSetter.VisitLValue,
            TypeSetter.VisitIndex, ht, hd, bind, Option.bind, pure, TypeSetter.SetType])
            (fun _ _ => hunk)
        | some d =>
          cases hty : d.GetType with
          | none =>
            exact key kUnknownType (by simp [TypeSetter.Accept, TypeSetter.VisitLValue,
              TypeSetter.VisitIndex, ht, hd, hty, bind, Option.bind, pure,
              TypeSetter.SetType]) (fun _ _ => hunk)
          | some ty =>
            cases het : ty.GetElementType with
            | none =>
              exact key kUnknownType (by simp [TypeSetter.Accept, TypeSetter.VisitLValue,
                TypeSetter.VisitIndex, ht, hd, hty, het, bind, Option.bind, pure,
                TypeSetter.SetType]) (fun _ _ => hunk)
            | some et =>
              exact key et (by simp [TypeSetter.Accept, TypeSetter.VisitLValue,
                TypeSetter.VisitIndex, ht, hd, hty, het, bind, Option.bind, pure,
                TypeSetter.SetType]) (fun _ _ => he types _ d ty et ht hd hty het)

theorem ExpressionTree.SetType_of_some (e : ExpressionTree) (r : Bool × ExpressionBase)
    (hn : e.NoUnsetText) (hb : e.Below ExpressionTree.TypeSet)
    (h : TypeSetter.Accept e.expr_ e.node = some r) :
    (e.withBase r.2).shape = e.shape ∧ (e.withBase r.2).All ExpressionTree.TypeSet := by
  obtain ⟨hrec, harr, hv, hf, he⟩ := hn
  obtain ⟨t, h1, h2⟩ := TypeSetter_Accept_of_some e.expr_ e.node r h e.node_ne_BuiltInBody
    (by
      intro t h
      rcases e.node_namedType t h with ⟨fs, hs⟩ | ⟨s, v, hs⟩
      · exact hrec t fs hs
      · exact harr t s v hs)
    hv hf he
  refine ⟨ExpressionTree.withBase_shape _ _, ?_, ?_⟩
  · intro hc
    rw [ExpressionTree.withBase_shape] at hc
    rw [ExpressionTree.withBase_expr_, h1]
    apply h2
    · intro hnil
      rw [e.copiesNil_of_node_Nil hnil] at hc
      cases hc
    · exact e.copied_set hb hc
  · rw [ExpressionTree.withBase_Below]
    exact hb

theorem AfterChildren_of_some (e e' : ExpressionTree) (hn : e.NoUnsetText)
    (hb : e.Below ExpressionTree.TypeSet) (h : TreeTypeSetter.AfterChildren e = some e') :
    e'.shape = e.shape ∧ e'.All ExpressionTree.TypeSet := by
  simp only [TreeTypeSetter.AfterChildren, TreeTypeSetter.SetTypeOf, TreeTypeSetter.SetType,
    Option.map_eq_some', Option.map_map] at h
  obtain ⟨r, hr, rfl⟩ := h
  exact e.SetType_of_some r hn hb hr

theorem AfterChildrenOfLValue_of_some (l l' : LValueTree)
    (hn : (ExpressionTree.LValue l).NoUnsetText) (hb : l.Below ExpressionTree.TypeSet)
    (h : TreeTypeSetter.AfterChildrenOfLValue l = some l') :
    l'.shape = l.shape ∧ (ExpressionTree.LValue l').All ExpressionTree.TypeSet := by
  simp only [TreeTypeSetter.AfterChildrenOfLValue, TreeTypeSetter.SetType,
    Option.map_eq_some', Option.map_map] at h
  obtain ⟨r, hr, rfl⟩ := h
  have := (ExpressionTree.LValue l).SetType_of_some r hn hb hr
  exact ⟨LValueTree.lvalue_withBase_shape _ _, this.2⟩

theorem child_of_some (e e1 e2 : ExpressionTree) (hn : e.NoUnsetText)
    (ih : e1.shape = e.shape ∧ e1.expr_ = e.expr_ ∧ e1.Below ExpressionTree.TypeSet)
    (h : TreeTypeSetter.AfterChildren e1 = some e2) :
    e2.shape = e.shape ∧ e2.All ExpressionTree.TypeSet := by
  obtain ⟨h1, h2⟩ :=
    AfterChildren_of_some e1 e2 (ExpressionTree.NoUnsetText_congr ih.1 ih.2.1 hn) ih.2.2 h
  exact ⟨by rw [h1, ih.1], h2⟩

theorem lvalue_child_of_some (l l1 l2 : LValueTree)
    (hn : (ExpressionTree.LValue l).NoUnsetText)
    (ih : l1.shape = l.shape ∧ l1.expr_ = l.expr_ ∧ l1.Below ExpressionTree.TypeSet)
    (h : TreeTypeSetter.AfterChildrenOfLValue l1 = some l2) :
    l2.shape = l.shape ∧ (ExpressionTree.LValue l2).All ExpressionTree.TypeSet := by
  have hn1 : (ExpressionTree.LValue l1).NoUnsetText :=
    ExpressionTree.NoUnsetText_congr (e := ExpressionTree.LValue l)
      (by simp [ExpressionTree.shape, ih.1]) (by simp [ExpressionTree.expr_, ih.2.1]) hn
  obtain ⟨h1, h2⟩ := AfterChildrenOfLValue_of_some l1 l2 hn1 ih.2.2 h
  exact ⟨by rw [h1, ih.1], h2⟩

mutual
theorem ExpressionTree.Accept_of_some : ∀ (e e' : ExpressionTree),
    e.Below ExpressionTree.NoUnsetText → e.Accept = some e' →
    e'.shape = e.shape ∧ e'.expr_ = e.expr_ ∧ e'.Below ExpressionTree.TypeSet
  | .StringConstant b text, e', _, h => by
    rw [ExpressionTree.Accept] at h
    cases h
    exact ⟨rfl, rfl, trivial⟩
  | .IntegerConstant b value, e', _, h => by
    rw [ExpressionTree.Accept] at h
    cases h
    exact ⟨rfl, rfl, trivial⟩
  | .Nil b, e', _, h => by
    rw [ExpressionTree.Accept] at h
    cases h
    exact ⟨rfl, rfl, trivial⟩
  | .Break b, e', _, h => by
    rw [ExpressionTree.Accept] at h
    cases h
    exact ⟨rfl, rfl, trivial⟩
  | .LValue value, e', hb, h => by
    simp only [ExpressionTree.Accept, Option.map_eq_some'] at h
    simp only [ExpressionTree.Below] at hb
    obtain ⟨l, hl, rfl⟩ := h
    obtain ⟨h1, h2, h3⟩ := LValueTree.lvalue_Accept_of_some value l hb hl
    exact ⟨by simp [ExpressionTree.shape, h1], by simp [ExpressionTree.expr_, h2],
      by simpa [ExpressionTree.Below] using h3⟩
  | .Negated b value, e', hb, h => by
    simp only [ExpressionTree.Accept, Option.bind_eq_bind, Option.bind_eq_some,
      Option.pure_def, Option.some.injEq] at h
    simp only [ExpressionTree.Below] at hb
    obtain ⟨v2, ⟨v1, hv1, hv2⟩, rfl⟩ := h
    obtain ⟨h1, h2⟩ :=
      child_of_some value v1 v2 hb.1 (ExpressionTree.Accept_of_some value v1 hb.2 hv1) hv2
    exact ⟨by simp [ExpressionTree.shape, h1], rfl, by simpa [ExpressionTree.Below] using h2⟩
  | .Binary b left op right, e', hb, h => by
    simp only [ExpressionTree.Accept, Option.bind_eq_bind, Option.bind_eq_some,
      Option.pure_def, Option.some.injEq] at h
    simp only [ExpressionTree.Below] at hb
    obtain ⟨l2, ⟨l1, hl1, hl2⟩, r2, ⟨r1, hr1, hr2⟩, rfl⟩ := h
    obtain ⟨h1, h2⟩ :=
      child_of_some left l1 l2 hb.1.1 (ExpressionTree.Accept_of_some left l1 hb.1.2 hl1) hl2
    obtain ⟨h3, h4⟩ :=
      child_of_some right r1 r2 hb.2.1 (ExpressionTree.Accept_of_some right r1 hb.2.2 hr1) hr2
    exact ⟨by simp [ExpressionTree.shape, h1, h3], rfl,
      by simpa [ExpressionTree.Below] using ⟨h2, h4⟩⟩
  | .Assignment b value expr, e', hb, h => by
    simp only [ExpressionTree.Accept, Option.bind_eq_bind, Option.bind_eq_some,
      Option.pure_def, Option.some.injEq] at h
    simp only [ExpressionTree.Below] at hb
    obtain ⟨l2, ⟨l1, hl1, hl2⟩, r2, ⟨r1, hr1, hr2⟩, rfl⟩ := h
    obtain ⟨h1, h2⟩ := lvalue_child_of_some value l1 l2 hb.1.1
      (LValueTree.lvalue_Accept_of_some value l1 hb.1.2 hl1) hl2
    obtain ⟨h3, h4⟩ :=
      child_of_some expr r1 r2 hb.2.1 (ExpressionTree.Accept_of_some expr r1 hb.2.2 hr1) hr2
    refine ⟨by simp [ExpressionTree.shape, h1, h3], rfl, ?_⟩
    simp only [ExpressionTree.Below]
    exact ⟨h2, h4⟩
  | .FunctionCall b id args, e', hb, h => by
    simp only [ExpressionTree.Accept, Option.bind_eq_bind, Option.bind_eq_some,
      Option.pure_def, Option.some.injEq] at h
    simp only [ExpressionTree.Below] at hb
    obtain ⟨as, ha, rfl⟩ := h
    obtain ⟨h1, h2⟩ := ExpressionTree.AcceptEach_of_some args as hb ha
    exact ⟨by simp [ExpressionTree.shape, h1], rfl, by simpa [ExpressionTree.Below] using h2⟩
  | .Block b exprs, e', hb, h => by
    simp only [ExpressionTree.Accept, Option.bind_eq_bind, Option.bind_eq_some,
      Option.pure_def, Option.some.injEq] at h
    simp only [ExpressionTree.Below] at hb
    obtain ⟨as, ha, rfl⟩ := h
    obtain ⟨h1, h2⟩ := ExpressionTree.AcceptEach_of_some exprs as hb ha
    exact ⟨by simp [ExpressionTree.shape, h1], rfl, by simpa [ExpressionTree.Below] using h2⟩
  | .Record b type_id field_values, e', hb, h => by
    simp only [ExpressionTree.Accept, Option.bind_eq_bind, Option.bind_eq_some,
      Option.pure_def, Option.some.injEq] at h
    simp only [ExpressionTree.Below] at hb
    obtain ⟨fs, hf, rfl⟩ := h
    obtain ⟨h1, h2⟩ := FieldValueTree.fieldValues_AcceptEach_of_some field_values fs hb hf
    exact ⟨by simp [ExpressionTree.shape, h1], rfl, by simpa [ExpressionTree.Below] using h2⟩
  | .Array b type_id size value, e', hb, h => by
    simp only [ExpressionTree.Accept, Option.bind_eq_bind, Option.bind_eq_some,
      Option.pure_def, Option.some.injEq] at h
    simp only [ExpressionTree.Below] at hb
    obtain ⟨l2, ⟨l1, hl1, hl2⟩, r2, ⟨r1, hr1, hr2⟩, rfl⟩ := h
    obtain ⟨h1, h2⟩ :=
      child_of_some size l1 l2 hb.1.1 (ExpressionTree.Accept_of_some size l1 hb.1.2 hl1) hl2
    obtain ⟨h3, h4⟩ :=
      child_of_some value r1 r2 hb.2.1 (ExpressionTree.Accept_of_some value r1 hb.2.2 hr1) hr2
    exact ⟨by simp [ExpressionTree.shape, h1, h3], rfl,
      by simpa [ExpressionTree.Below] using ⟨h2, h4⟩⟩
  | .IfThen b condition expr, e', hb, h => by
    simp only [ExpressionTree.Accept, Option.bind_eq_bind, Option.bind_eq_some,
      Option.pure_def, Option.some.injEq] at h
    simp only [ExpressionTree.Below] at hb
    obtain ⟨l2, ⟨l1, hl1, hl2⟩, r2, ⟨r1, hr1, hr2⟩, rfl⟩ := h
    obtain ⟨h1, h2⟩ := child_of_some condition l1 l2 hb.1.1
      (ExpressionTree.Accept_of_some condition l1 hb.1.2 hl1) hl2
    obtain ⟨h3, h4⟩ :=
      child_of_some expr r1 r2 hb.2.1 (ExpressionTree.Accept_of_some expr r1 hb.2.2 hr1) hr2
    exact ⟨by simp [ExpressionTree.shape, h1, h3], rfl,
      by simpa [ExpressionTree.Below] using ⟨h2, h4⟩⟩
  | .IfThenElse b condition then_expr else_expr, e', hb, h => by
    simp only [ExpressionTree.Accept, Option.bind_eq_bind, Option.bind_eq_some,
      Option.pure_def, Option.some.injEq] at h
    simp only [ExpressionTree.Below] at hb
    obtain ⟨l2, ⟨l1, hl1, hl2⟩, m2, ⟨m1, hm1, hm2⟩, r2, ⟨r1, hr1, hr2⟩, rfl⟩ := h
    obtain ⟨h1, h2⟩ := child_of_some condition l1 l2 hb.1.1
      (ExpressionTree.Accept_of_some condition l1 hb.1.2 hl1) hl2
    obtain ⟨h3, h4⟩ := child_of_some then_expr m1 m2 hb.2.1.1
      (ExpressionTree.Accept_of_some then_expr m1 hb.2.1.2 hm1) hm2
    obtain ⟨h5, h6⟩ := child_of_some else_expr r1 r2 hb.2.2.1
      (ExpressionTree.Accept_of_some else_expr r1 hb.2.2.2 hr1) hr2
    exact ⟨by simp [ExpressionTree.shape, h1, h3, h5], rfl,
      by simpa [ExpressionTree.Below] using ⟨h2, h4, h6⟩⟩
  | .While b condition body, e', hb, h => by
    simp only [ExpressionTree.Accept, Option.bind_eq_bind, Option.bind_eq_some,
      Option.pure_def, Option.some.injEq] at h
    simp only [ExpressionTree.Below] at hb
    obtain ⟨l2, ⟨l1, hl1, hl2⟩, r2, ⟨r1, hr1, hr2⟩, rfl⟩ := h
    obtain ⟨h1, h2⟩ := child_of_some condition l1 l2 hb.1.1
      (ExpressionTree.Accept_of_some condition l1 hb.1.2 hl1) hl2
    obtain ⟨h3, h4⟩ :=
      child_of_some body r1 r2 hb.2.1 (ExpressionTree.Accept_of_some body r1 hb.2.2 hr1) hr2
    exact ⟨by simp [ExpressionTree.shape, h1, h3], rfl,
      by simpa [ExpressionTree.Below] using ⟨h2, h4⟩⟩
  | .For b id first last body, e', hb, h => by
    simp only [ExpressionTree.Accept, Option.bind_eq_bind, Option.bind_eq_some,
      Option.pure_def, Option.some.injEq] at h
    simp only [ExpressionTree.Below] at hb
    obtain ⟨l2, ⟨l1, hl1, hl2⟩, m2, ⟨m1, hm1, hm2⟩, r2, ⟨r1, hr1, hr2⟩, rfl⟩ := h
    obtain ⟨h1, h2⟩ :=
      child_of_some first l1 l2 hb.1.1 (ExpressionTree.Accept_of_some first l1 hb.1.2 hl1) hl2
    obtain ⟨h3, h4⟩ := child_of_some last m1 m2 hb.2.1.1
      (ExpressionTree.Accept_of_some last m1 hb.2.1.2 hm1) hm2
    obtain ⟨h5, h6⟩ := child_of_some body r1 r2 hb.2.2.1
      (ExpressionTree.Accept_of_some body r1 hb.2.2.2 hr1) hr2
    exact ⟨by simp [ExpressionTree.shape, h1, h3, h5], rfl,
      by simpa [ExpressionTree.Below] using ⟨h2, h4, h6⟩⟩
  | .Let b declarations body, e', hb, h => by
    simp only [ExpressionTree.Accept, Option.bind_eq_bind, Option.bind_eq_some,
      Option.pure_def, Option.some.injEq] at h
    simp only [ExpressionTree.Below] at hb
    obtain ⟨ds, hd, as, ha, rfl⟩ := h
    obtain ⟨h1, h2⟩ := DeclarationTree.declarations_AcceptEach_of_some declarations ds hb.1 hd
    obtain ⟨h3, h4⟩ := ExpressionTree.AcceptEach_of_some body as hb.2 ha
    exact ⟨by simp [ExpressionTree.shape, h1, h3], rfl,
      by simpa [ExpressionTree.Below] using ⟨h2, h4⟩⟩
theorem LValueTree.lvalue_Accept_of_some : ∀ (l l' : LValueTree),
    l.Below ExpressionTree.NoUnsetText → l.Accept = some l' →
    l'.shape = l.shape ∧ l'.expr_ = l.expr_ ∧ l'.Below ExpressionTree.TypeSet
  | .Id b id, l', _, h => by
    rw [LValueTree.Accept] at h
    cases h
    exact ⟨rfl, rfl, trivial⟩
  | .Field b value id, l', hb, h => by
    simp only [LValueTree.Accept, Option.bind_eq_bind, Option.bind_eq_some,
      Option.pure_def, Option.some.injEq] at h
    simp only [LValueTree.Below] at hb
    obtain ⟨v2, ⟨v1, hv1, hv2⟩, rfl⟩ := h
    obtain ⟨h1, h2⟩ := lvalue_child_of_some value v1 v2 hb.1
      (LValueTree.lvalue_Accept_of_some value v1 hb.2 hv1) hv2
    refine ⟨by simp [LValueTree.shape, h1], rfl, ?_⟩
    simp only [LValueTree.Below]
    exact h2
  | .Index b value expr, l', hb, h => by
    simp only [LValueTree.Accept, Option.bind_eq_bind, Option.bind_eq_some,
      Option.pure_def, Option.some.injEq] at h
    simp only [LValueTree.Below] at hb
    obtain ⟨l2, ⟨l1, hl1, hl2⟩, r2, ⟨r1, hr1, hr2⟩, rfl⟩ := h
    obtain ⟨h1, h2⟩ := lvalue_child_of_some value l1 l2 hb.1.1
      (LValueTree.lvalue_Accept_of_some value l1 hb.1.2 hl1) hl2
    obtain ⟨h3, h4⟩ :=
      child_of_some expr r1 r2 hb.2.1 (ExpressionTree.Accept_of_some expr r1 hb.2.2 hr1) hr2
    refine ⟨by simp [LValueTree.shape, h1, h3], rfl, ?_⟩
    simp only [LValueTree.Below]
    exact ⟨h2, h4⟩
theorem FieldValueTree.fieldValue_Accept_of_some : ∀ (f f' : FieldValueTree),
    f.Below ExpressionTree.NoUnsetText → f.Accept = some f' →
    f'.shape = f.shape ∧ f'.Below ExpressionTree.TypeSet
  | .mk id expr, f', hb, h => by
    simp only [FieldValueTree.Accept, Option.bind_eq_bind, Option.bind_eq_some,
      Option.pure_def, Option.some.injEq] at h
    simp only [FieldValueTree.Below] at hb
    obtain ⟨r2, ⟨r1, hr1, hr2⟩, rfl⟩ := h
    obtain ⟨h3, h4⟩ :=
      child_of_some expr r1 r2 hb.1 (ExpressionTree.Accept_of_some expr r1 hb.2 hr1) hr2
    refine ⟨by simp [FieldValueTree.shape, h3], ?_⟩
    simp only [FieldValueTree.Below]
    exact h4
theorem DeclarationTree.declaration_Accept_of_some : ∀ (d d' : DeclarationTree),
    d.Below ExpressionTree.NoUnsetText → d.Accept = some d' →
    d'.shape = d.shape ∧ d'.Below ExpressionTree.TypeSet
  | .TypeDeclaration id type, d', _, h => by
    rw [DeclarationTree.Accept] at h
    cases h
    exact ⟨rfl, trivial⟩
  | .ParameterDeclaration id type_id, d', _, h => by
    rw [DeclarationTree.Accept] at h
    cases h
    exact ⟨rfl, trivial⟩
  | .VariableDeclaration id type_id value, d', hb, h => by
    simp only [DeclarationTree.Accept, Option.bind_eq_bind, Option.bind_eq_some,
      Option.pure_def, Option.some.injEq] at h
    simp only [DeclarationTree.Below] at hb
    obtain ⟨r2, ⟨r1, hr1, hr2⟩, rfl⟩ := h
    obtain ⟨h3, h4⟩ :=
      child_of_some value r1 r2 hb.1 (ExpressionTree.Accept_of_some value r1 hb.2 hr1) hr2
    refine ⟨by simp [DeclarationTree.shape, h3], ?_⟩
    simp only [DeclarationTree.Below]
    exact h4
  | .FunctionDeclaration id params type_id body, d', hb, h => by
    simp only [DeclarationTree.Accept, Option.bind_eq_bind, Option.bind_eq_some,
      Option.pure_def, Option.some.injEq] at h
    simp only [DeclarationTree.Below] at hb
    obtain ⟨r2, ⟨r1, hr1, hr2⟩, rfl⟩ := h
    obtain ⟨h3, h4⟩ :=
      child_of_some body r1 r2 hb.1 (ExpressionTree.Accept_of_some body r1 hb.2 hr1) hr2
    refine ⟨by simp [DeclarationTree.shape, h3], ?_⟩
    simp only [DeclarationTree.Below]
    exact h4
theorem ExpressionTree.AcceptEach_of_some : ∀ (es es' : List ExpressionTree),
    ExpressionTree.BelowEach ExpressionTree.NoUnsetText es →
    ExpressionTree.AcceptEach es = some es' →
    ExpressionTree.shapeEach es' = ExpressionTree.shapeEach es ∧
      ExpressionTree.BelowEach ExpressionTree.TypeSet es'
  | [], es', _, h => by
    rw [ExpressionTree.AcceptEach] at h
    cases h
    exact ⟨rfl, trivial⟩
  | e :: es, es', hb, h => by
    simp only [ExpressionTree.AcceptEach, Option.bind_eq_bind, Option.bind_eq_some,
      Option.pure_def, Option.some.injEq] at h
    simp only [ExpressionTree.BelowEach] at hb
    obtain ⟨r2, ⟨r1, hr1, hr2⟩, rs, hrs, rfl⟩ := h
    obtain ⟨h1, h2⟩ :=
      child_of_some e r1 r2 hb.1.1 (ExpressionTree.Accept_of_some e r1 hb.1.2 hr1) hr2
    obtain ⟨h3, h4⟩ := ExpressionTree.AcceptEach_of_some es rs hb.2 hrs
    refine ⟨by simp [ExpressionTree.shapeEach, h1, h3], ?_⟩
    simp only [ExpressionTree.BelowEach]
    exact ⟨h2, h4⟩
theorem FieldValueTree.fieldValues_AcceptEach_of_some : ∀ (fs fs' : List FieldValueTree),
    FieldValueTree.BelowEach ExpressionTree.NoUnsetText fs →
    FieldValueTree.AcceptEach fs = some fs' →
    FieldValueTree.shapeEach fs' = FieldValueTree.shapeEach fs ∧
      FieldValueTree.BelowEach ExpressionTree.TypeSet fs'
  | [], fs', _, h => by
    rw [FieldValueTree.AcceptEach] at h
    cases h
    exact ⟨rfl, trivial⟩
  | f :: fs, fs', hb, h => by
    simp only [FieldValueTree.AcceptEach, Option.bind_eq_bind, Option.bind_eq_some,
      Option.pure_def, Option.some.injEq] at h
    simp only [FieldValueTree.BelowEach] at hb
    obtain ⟨r, hr, rs, hrs, rfl⟩ := h
    obtain ⟨h1, h2⟩ := FieldValueTree.fieldValue_Accept_of_some f r hb.1 hr
    obtain ⟨h3, h4⟩ := FieldValueTree.fieldValues_AcceptEach_of_some fs rs hb.2 hrs
    refine ⟨by simp [FieldValueTree.shapeEach, h1, h3], ?_⟩
    simp only [FieldValueTree.BelowEach]
    exact ⟨h2, h4⟩
theorem DeclarationTree.declarations_AcceptEach_of_some :
    ∀ (ds ds' : List DeclarationTree),
    DeclarationTree.BelowEach ExpressionTree.NoUnsetText ds →
    DeclarationTree.AcceptEach ds = some ds' →
    DeclarationTree.shapeEach ds' = DeclarationTree.shapeEach ds ∧
      DeclarationTree.BelowEach ExpressionTree.TypeSet ds'
  | [], ds', _, h => by
    rw [DeclarationTree.AcceptEach] at h
    cases h
    exact ⟨rfl, trivial⟩
  | d :: ds, ds', hb, h => by
    simp only [DeclarationTree.AcceptEach, Option.bind_eq_bind, Option.bind_eq_some,
      Option.pure_def, Option.some.injEq] at h
    simp only [DeclarationTree.BelowEach] at hb
    obtain ⟨r, hr, rs, hrs, rfl⟩ := h
    obtain ⟨h1, h2⟩ := DeclarationTree.declaration_Accept_of_some d r hb.1 hr
    obtain ⟨h3, h4⟩ := DeclarationTree.declarations_AcceptEach_of_some ds rs hb.2 hrs
    refine ⟨by simp [DeclarationTree.shapeEach, h1, h3], ?_⟩
    simp only [DeclarationTree.BelowEach]
    exact ⟨h2, h4⟩
end

mutual
theorem ExpressionTree.Below_and (P Q : ExpressionTree → Prop) : ∀ (e : ExpressionTree),
    e.Below P → e.Below Q → e.Below (fun x => P x ∧ Q x)
  | .StringConstant _ _, _, _ => trivial
  | .IntegerConstant _ _, _, _ => trivial
  | .Nil _, _, _ => trivial
  | .Break _, _, _ => trivial
  | .LValue value, hp, hq => by
    simp only [ExpressionTree.Below] at hp hq ⊢
    exact LValueTree.lvalue_Below_and P Q value hp hq
  | .Negated _ value, hp, hq => by
    simp only [ExpressionTree.Below] at hp hq ⊢
    exact ⟨⟨hp.1, hq.1⟩, ExpressionTree.Below_and P Q value hp.2 hq.2⟩
  | .Binary _ left _ right, hp, hq => by
    simp only [ExpressionTree.Below] at hp hq ⊢
    exact ⟨⟨⟨hp.1.1, hq.1.1⟩, ExpressionTree.Below_and P Q left hp.1.2 hq.1.2⟩,
      ⟨hp.2.1, hq.2.1⟩, ExpressionTree.Below_and P Q right hp.2.2 hq.2.2⟩
  | .Assignment _ value expr, hp, hq => by
    simp only [ExpressionTree.Below] at hp hq ⊢
    exact ⟨⟨⟨hp.1.1, hq.1.1⟩, LValueTree.lvalue_Below_and P Q value hp.1.2 hq.1.2⟩,
      ⟨hp.2.1, hq.2.1⟩, ExpressionTree.Below_and P Q expr hp.2.2 hq.2.2⟩
  | .FunctionCall _ _ args, hp, hq => by
    simp only [ExpressionTree.Below] at hp hq ⊢
    exact ExpressionTree.BelowEach_and P Q args hp hq
  | .Block _ exprs, hp, hq => by
    simp only [ExpressionTree.Below] at hp hq ⊢
    exact ExpressionTree.BelowEach_and P Q exprs hp hq
  | .Record _ _ field_values, hp, hq => by
    simp only [ExpressionTree.Below] at hp hq ⊢
    exact FieldValueTree.fieldValues_BelowEach_and P Q field_values hp hq
  | .Array _ _ size value, hp, hq => by
    simp only [ExpressionTree.Below] at hp hq ⊢
    exact ⟨⟨⟨hp.1.1, hq.1.1⟩, ExpressionTree.Below_and P Q size hp.1.2 hq.1.2⟩,
      ⟨hp.2.1, hq.2.1⟩, ExpressionTree.Below_and P Q value hp.2.2 hq.2.2⟩
  | .IfThen _ condition expr, hp, hq => by
    simp only [ExpressionTree.Below] at hp hq ⊢
    exact ⟨⟨⟨hp.1.1, hq.1.1⟩, ExpressionTree.Below_and P Q condition hp.1.2 hq.1.2⟩,
      ⟨hp.2.1, hq.2.1⟩, ExpressionTree.Below_and P Q expr hp.2.2 hq.2.2⟩
  | .IfThenElse _ condition then_expr else_expr, hp, hq => by
    simp only [ExpressionTree.Below] at hp hq ⊢
    exact ⟨⟨⟨hp.1.1, hq.1.1⟩, ExpressionTree.Below_and P Q condition hp.1.2 hq.1.2⟩,
      ⟨⟨hp.2.1.1, hq.2.1.1⟩, ExpressionTree.Below_and P Q then_expr hp.2.1.2 hq.2.1.2⟩,
      ⟨hp.2.2.1, hq.2.2.1⟩, ExpressionTree.Below_and P Q else_expr hp.2.2.2 hq.2.2.2⟩
  | .While _ condition body, hp, hq => by
    simp only [ExpressionTree.Below] at hp hq ⊢
    exact ⟨⟨⟨hp.1.1, hq.1.1⟩, ExpressionTree.Below_and P Q condition hp.1.2 hq.1.2⟩,
      ⟨hp.2.1, hq.2.1⟩, ExpressionTree.Below_and P Q body hp.2.2 hq.2.2⟩
  | .For _ _ first last body, hp, hq => by
    simp only [ExpressionTree.Below] at hp hq ⊢
    exact ⟨⟨⟨hp.1.1, hq.1.1⟩, ExpressionTree.Below_and P Q first hp.1.2 hq.1.2⟩,
      ⟨⟨hp.2.1.1, hq.2.1.1⟩, ExpressionTree.Below_and P Q last hp.2.1.2 hq.2.1.2⟩,
      ⟨hp.2.2.1, hq.2.2.1⟩, ExpressionTree.Below_and P Q body hp.2.2.2 hq.2.2.2⟩
  | .Let _ declarations body, hp, hq => by
    simp only [ExpressionTree.Below] at hp hq ⊢
    exact ⟨DeclarationTree.declarations_BelowEach_and P Q declarations hp.1 hq.1,
      ExpressionTree.BelowEach_and P Q body hp.2 hq.2⟩
theorem LValueTree.lvalue_Below_and (P Q : ExpressionTree → Prop) : ∀ (l : LValueTree),
    l.Below P → l.Below Q → l.Below (fun x => P x ∧ Q x)
  | .Id _ _, _, _ => trivial
  | .Field _ value _, hp, hq => by
    simp only [LValueTree.Below] at hp hq ⊢
    exact ⟨⟨hp.1, hq.1⟩, LValueTree.lvalue_Below_and P Q value hp.2 hq.2⟩
  | .Index _ value expr, hp, hq => by
    simp only [LValueTree.Below] at hp hq ⊢
    exact ⟨⟨⟨hp.1.1, hq.1.1⟩, LValueTree.lvalue_Below_and P Q value hp.1.2 hq.1.2⟩,
      ⟨hp.2.1, hq.2.1⟩, ExpressionTree.Below_and P Q expr hp.2.2 hq.2.2⟩
theorem FieldValueTree.fieldValue_Below_and (P Q : ExpressionTree → Prop) :
    ∀ (f : FieldValueTree), f.Below P → f.Below Q → f.Below (fun x => P x ∧ Q x)
  | .mk _ expr, hp, hq => by
    simp only [FieldValueTree.Below] at hp hq ⊢
    exact ⟨⟨hp.1, hq.1⟩, ExpressionTree.Below_and P Q expr hp.2 hq.2⟩
theorem DeclarationTree.declaration_Below_and (P Q : ExpressionTree → Prop) :
    ∀ (d : DeclarationTree), d.Below P → d.Below Q → d.Below (fun x => P x ∧ Q x)
  | .TypeDeclaration _ _, _, _ => trivial
  | .ParameterDeclaration _ _, _, _ => trivial
  | .VariableDeclaration _ _ value, hp, hq => by
    simp only [DeclarationTree.Below] at hp hq ⊢
    exact ⟨⟨hp.1, hq.1⟩, ExpressionTree.Below_and P Q value hp.2 hq.2⟩
  | .FunctionDeclaration _ _ _ body, hp, hq => by
    simp only [DeclarationTree.Below] at hp hq ⊢
    exact ⟨⟨hp.1, hq.1⟩, ExpressionTree.Below_and P Q body hp.2 hq.2⟩
theorem ExpressionTree.BelowEach_and (P Q : ExpressionTree → Prop) :
    ∀ (es : List ExpressionTree), ExpressionTree.BelowEach P es →
    ExpressionTree.BelowEach Q es → ExpressionTree.BelowEach (fun x => P x ∧ Q x) es
  | [], _, _ => trivial
  | e :: es, hp, hq => by
    simp only [ExpressionTree.BelowEach] at hp hq ⊢
    exact ⟨⟨⟨hp.1.1, hq.1.1⟩, ExpressionTree.Below_and P Q e hp.1.2 hq.1.2⟩,
      ExpressionTree.BelowEach_and P Q es hp.2 hq.2⟩
theorem FieldValueTree.fieldValues_BelowEach_and (P Q : ExpressionTree → Prop) :
    ∀ (fs : List FieldValueTree), FieldValueTree.BelowEach P fs →
    FieldValueTree.BelowEach Q fs → FieldValueTree.BelowEach (fun x => P x ∧ Q x) fs
  | [], _, _ => trivial
  | f :: fs, hp, hq => by
    simp only [FieldValueTree.BelowEach] at hp hq ⊢
    exact ⟨FieldValueTree.fieldValue_Below_and P Q f hp.1 hq.1,
      FieldValueTree.fieldValues_BelowEach_and P Q fs hp.2 hq.2⟩
theorem DeclarationTree.declarations_BelowEach_and (P Q : ExpressionTree → Prop) :
    ∀ (ds : List DeclarationTree), DeclarationTree.BelowEach P ds →
    DeclarationTree.BelowEach Q ds → DeclarationTree.BelowEach (fun x => P x ∧ Q x) ds
  | [], _, _ => trivial
  | d :: ds, hp, hq => by
    simp only [DeclarationTree.BelowEach] at hp hq ⊢
    exact ⟨DeclarationTree.declaration_Below_and P Q d hp.1 hq.1,
      DeclarationTree.declarations_BelowEach_and P Q ds hp.2 hq.2⟩
end

end Tiger
